import Mathlib

/-!
# Kafka message-schema decoding: version ranges and strict decoding

A shallow embedding of `message/message.go` (package `message`) and of the
decoding call of `main.go`.

* Go `[]byte` and Go `string` are both byte sequences: `Bytes = List UInt8`.
* Go `int` is the 64-bit signed integer of the usual platforms; it is embedded
  as `Int`, and the only place where the width matters (`strconv.Atoi`) checks
  the bounds explicitly.
* A method with a pointer receiver is embedded in state-passing style: it takes
  the receiver and returns the receiver after the call together with the error.
-/

namespace Kafka

/-- Go `[]byte` and Go `string`. -/
abbrev Bytes := List UInt8

/-- The bytes of a Go string literal (its UTF-8 encoding). -/
def str (s : String) : Bytes := s.toList.flatMap String.utf8EncodeChar

/-! ## The part of `regexp` the three patterns use -/

/-- Regular expressions, as far as the patterns of `message.go` need them. -/
inductive Regexp where
  /-- a literal byte, such as `"`, `\+`, `-` -/
  | byte (c : UInt8)
  /-- the greedy repetition `\d+` of the class of ASCII digits -/
  | digits
  /-- the greedy option `r?` -/
  | opt (r : Regexp)
  /-- the concatenation `r s` -/
  | cat (r s : Regexp)
  /-- the capturing group `(r)` -/
  | group (r : Regexp)
deriving Repr, DecidableEq

/-- The class `\d`: the ASCII digits `0` to `9`. -/
def isDigit (c : UInt8) : Bool := 48 ≤ c && c ≤ 57

/-- One way in which a pattern matches at the start of the input: the bytes it
consumed, the bytes left over, and the text of its capturing groups, in the order
of their opening parentheses. -/
structure Thread where
  consumed : Bytes
  rest : Bytes
  caps : List Bytes
deriving Repr, DecidableEq

/-- The number of capturing groups of a pattern. -/
def Regexp.numSubexp : Regexp → Nat
  | .byte _ => 0
  | .digits => 0
  | .opt r => r.numSubexp
  | .cat r s => r.numSubexp + s.numSubexp
  | .group r => r.numSubexp + 1

/-- All non-empty prefixes of the input that consist of digits, the longest
first (`\d+` is greedy), each with the input that follows it. -/
def digitPrefixes : Bytes → List (Bytes × Bytes)
  | [] => []
  | c :: cs =>
    if isDigit c then
      (digitPrefixes cs).map (fun p => (c :: p.1, p.2)) ++ [([c], cs)]
    else []

/-- All the ways in which a pattern matches at the start of the input, in the
order of preference of a leftmost-first (Perl-like) matcher, which is the order
Go's `regexp` guarantees. -/
def Regexp.run : Regexp → Bytes → List Thread
  | .byte c, input =>
    match input with
    | [] => []
    | x :: xs => if x = c then [⟨[x], xs, []⟩] else []
  | .digits, input => (digitPrefixes input).map (fun p => ⟨p.1, p.2, []⟩)
  | .opt r, input => r.run input ++ [⟨[], input, List.replicate r.numSubexp []⟩]
  | .cat r s, input =>
    (r.run input).flatMap (fun t =>
      (s.run t.rest).map (fun u => ⟨t.consumed ++ u.consumed, u.rest, t.caps ++ u.caps⟩))
  | .group r, input => (r.run input).map (fun t => ⟨t.consumed, t.rest, t.consumed :: t.caps⟩)

/-- The method `FindSubmatch` of a pattern `^r$`: the match has to start at the
beginning of the input (`^`) and to end at its end (`$`, without the `m` flag:
the end of the text and nothing else). The result is `nil` (the empty list)
when there is no match, and otherwise the whole match followed by the text of
each capturing group. -/
def Regexp.FindSubmatch (re : Regexp) (b : Bytes) : List Bytes :=
  match (re.run b).find? (fun t => t.rest.isEmpty) with
  | some t => t.consumed :: t.caps
  | none => []

/-- The double quote `"`. -/
def quote : UInt8 := 34

/-- The pattern `^"?(\d+)"?$`. -/
def exactRe : Regexp :=
  .cat (.opt (.byte quote)) (.cat (.group .digits) (.opt (.byte quote)))

/-- The pattern `^"?((\d+)\+)"?$`. -/
def onlyStartRe : Regexp :=
  .cat (.opt (.byte quote))
    (.cat (.group (.cat (.group .digits) (.byte 43))) (.opt (.byte quote)))

/-- The pattern `^"?((\d+)-(\d+))"?$`. -/
def startStopRe : Regexp :=
  .cat (.opt (.byte quote))
    (.cat (.group (.cat (.group .digits) (.cat (.byte 45) (.group .digits))))
      (.opt (.byte quote)))

/-! ## The part of `strconv` that `Atoi` uses -/

/-- The two errors of `strconv`: `ErrSyntax` and `ErrRange`. -/
inductive NumErr where
  | ErrSyntax
  | ErrRange
deriving Repr, DecidableEq

/-- Go errors, as far as this package meets them. -/
inductive Error where
  /-- a `*strconv.NumError` with its fields `Func`, `Num` and `Err` -/
  | numError (Func : Bytes) (Num : Bytes) (Err : NumErr)
  /-- the error `fmt.Errorf` builds: an error whose message is the given text -/
  | errorf (msg : Bytes)
  /-- the error `fmt.Errorf("json: unknown field %q", key)` of `encoding/json` -/
  | unknownField (key : Bytes)
  /-- a `*json.UnmarshalTypeError` with its fields `Value` and `Type` (the name of
  the Go type); `Offset`, `Struct` and `Field` locate the value in the text of the
  document and are left out -/
  | unmarshalTypeError (Value : Bytes) («Type» : Bytes)
deriving Repr, DecidableEq

/-- The loop of `strconv.ParseUint(s, 10, 64)`: the digits are accumulated in a
`uint64`; a byte that is no digit is a syntax error, a value above `2^64 - 1` a
range error, whichever comes first. -/
def parseUintLoop : Bytes → Nat → Except NumErr Nat
  | [], n => .ok n
  | c :: cs, n =>
    if !isDigit c then .error .ErrSyntax
    else if n ≥ (2 ^ 64 - 1) / 10 + 1 then .error .ErrRange
    else
      let n1 := n * 10 + (c.toNat - 48)
      if n1 > 2 ^ 64 - 1 then .error .ErrRange
      else parseUintLoop cs n1

/-- The function `strconv.ParseInt(s, 10, 0)` for a 64-bit `int`. -/
def ParseInt (s : Bytes) : Except NumErr Int :=
  if s = [] then .error .ErrSyntax
  else
    let neg := s.head? = some 45
    let body := if s.head? = some 43 ∨ s.head? = some 45 then s.tail else s
    if body = [] then .error .ErrSyntax
    else
      match parseUintLoop body 0 with
      | .error e => .error e
      | .ok un =>
        if !neg && un ≥ 2 ^ 63 then .error .ErrRange
        else if neg && un > 2 ^ 63 then .error .ErrRange
        else .ok (if neg then -(un : Int) else (un : Int))

/-- The loop of the fast path of `strconv.Atoi`. -/
def atoiLoop : Bytes → Nat → Option Nat
  | [], n => some n
  | c :: cs, n => if isDigit c then atoiLoop cs (n * 10 + (c.toNat - 48)) else none

/-- The function `strconv.Atoi` for a 64-bit `int`: inputs of 1 to 18 bytes take
the fast path, which cannot overflow; all others go through `ParseInt`. -/
def Atoi (s : Bytes) : Except Error Int :=
  if 0 < s.length ∧ s.length < 19 then
    let neg := s.head? = some 45
    let body := if s.head? = some 43 ∨ s.head? = some 45 then s.tail else s
    if body = [] then .error (.numError (str "Atoi") s .ErrSyntax)
    else
      match atoiLoop body 0 with
      | none => .error (.numError (str "Atoi") s .ErrSyntax)
      | some n => .ok (if neg then -(n : Int) else (n : Int))
  else
    match ParseInt s with
    | .error e => .error (.numError (str "Atoi") s e)
    | .ok i => .ok i

/-! ## `message.go` -/

/-- The struct `Range`. -/
structure Range where
  Value : Bytes
  Begin : Int
  End : Int
deriving Repr, DecidableEq

/-- The zero value of `Range`, what `var got Range` declares. -/
def Range.zero : Range := ⟨[], 0, 0⟩

/-- The method `(r *Range) UnmarshalJSON(bytes []byte) error`: the receiver after
the call and the error returned (`none` for `nil`). -/
def Range.UnmarshalJSON (r : Range) (bytes : Bytes) : Range × Option Error :=
  let subs := onlyStartRe.FindSubmatch bytes
  if subs.length = 3 then
    let r := { r with Value := subs.getD 1 [] }
    match Atoi (subs.getD 2 []) with
    | .error err => (r, some err)
    | .ok begin => ({ r with Begin := begin }, none)
  else
    let subs := startStopRe.FindSubmatch bytes
    if subs.length = 4 then
      let r := { r with Value := subs.getD 1 [] }
      match Atoi (subs.getD 2 []) with
      | .error err => (r, some err)
      | .ok begin =>
        let r := { r with Begin := begin }
        match Atoi (subs.getD 3 []) with
        | .error err => (r, some err)
        | .ok «end» => ({ r with End := «end» }, none)
    else
      let subs := exactRe.FindSubmatch bytes
      if subs.length = 2 then
        let r := { r with Value := subs.getD 1 [] }
        match Atoi (subs.getD 1 []) with
        | .error err => (r, some err)
        | .ok begin => ({ r with Begin := begin, End := begin }, none)
      else if bytes = str "none" ∨ bytes = str "\"none\"" then
        ({ r with Value := str "none" }, none)
      else
        (r, some (.errorf (str "invalid range: " ++ bytes)))

/-! ## The part of `encoding/json` that `main.go` uses

`main.go` decodes each document with `json.NewDecoder`, `DisallowUnknownFields`
and `Decode(&msg)`. The document is the output of `hujson.Standardize`, that is,
valid JSON; it is embedded as the tree of its values, each with the text the
decoder hands to an `Unmarshaler`.
-/

/-- A JSON value of the document. `raw` is the text of the value in the document
(for a string: quotes and escapes included), `val` the string a string literal
denotes. -/
inductive JSON where
  | null
  | bool (b : Bool)
  | number (raw : Bytes)
  | string (raw : Bytes) (val : Bytes)
  | array (raw : Bytes) (elems : List JSON)
  | object (raw : Bytes) (members : List (Bytes × JSON))

/-- The text of a value in the document. -/
def JSON.text : JSON → Bytes
  | .null => str "null"
  | .bool true => str "true"
  | .bool false => str "false"
  | .number raw => raw
  | .string raw _ => raw
  | .array raw _ => raw
  | .object raw _ => raw

/-- The word `encoding/json` uses for a value in an `UnmarshalTypeError`. -/
def JSON.kind : JSON → Bytes
  | .null => str "null"
  | .bool _ => str "bool"
  | .number _ => str "number"
  | .string _ _ => str "string"
  | .array _ _ => str "array"
  | .object _ _ => str "object"

/-- What the decoder takes from the rest of the Go library: `uni` is the case
folding of a name from its first non-ASCII byte on (Unicode's simple folding),
`floatOk` tells whether `strconv.ParseFloat(s, 64)` accepts a number literal, and
`stops` tells what the decoder does with the error of an `UnmarshalJSON` method:
the decoder of `decode.go` returns it at once (`true`), the `encoding/json` that
is built on `encoding/json/v2` saves it like any other error and goes on with the
document (`false`). -/
structure Tables where
  uni : Bytes → Bytes
  floatOk : Bytes → Bool
  stops : Bool

/-- The name folding of `encoding/json`: an ASCII letter becomes its upper case,
any other ASCII byte stays, and from the first non-ASCII byte on the folding is
that of the tables. Two names match without regard to case when their foldings
are equal. -/
def foldName (T : Tables) : Bytes → Bytes
  | [] => []
  | c :: cs =>
    if c < 128 then (if 97 ≤ c ∧ c ≤ 122 then c - 32 else c) :: foldName T cs
    else T.uni (c :: cs)

/-- The field of a struct that a key of a JSON object selects: the first field
whose name is the key, and failing that the first field whose name matches the
key without regard to case. -/
def lookup {α : Type} (T : Tables) (names : List (α × Bytes)) (key : Bytes) : Option α :=
  match names.find? (fun p => p.2 = key) with
  | some p => some p.1
  | none =>
    match names.find? (fun p => foldName T p.2 = foldName T key) with
    | some p => some p.1
    | none => none

/-- The struct `Field`. A slice is embedded as the list of its elements (the nil
slice and the empty slice are both `[]`); the `interface{}` value `Default` is
`none` for nil and otherwise the JSON value it was built from. -/
structure Field where
  Name : Bytes
  «Type» : Bytes
  Versions : Range
  TaggedVersions : Range
  NullableVersions : Range
  FlexibleVersions : Range
  Ignorable : Bool
  About : Bytes
  Tag : Int
  MapKey : Bool
  Fields : List Field
  Default : Option JSON
  EntityType : Bytes
  ZeroCopy : Bool

/-- The zero value of `Field`. -/
def Field.zero : Field :=
  ⟨[], [], Range.zero, Range.zero, Range.zero, Range.zero, false, [], 0, false, [], none, [],
    false⟩

/-- The struct `Message`. -/
structure Message where
  ApiKey : Int
  «Type» : Bytes
  Listeners : List Bytes
  Name : Bytes
  ValidVersions : Range
  LatestVersionUnstable : Bool
  FlexibleVersions : Range
  Fields : List Field
  CommonStructs : List Field

/-- The zero value of `Message`, what `var msg message.Message` declares. -/
def Message.zero : Message := ⟨0, [], [], [], Range.zero, false, Range.zero, [], []⟩

/-- The fields of the struct `Field`. -/
inductive FieldAttr where
  | Name | «Type» | Versions | TaggedVersions | NullableVersions | FlexibleVersions
  | Ignorable | About | Tag | MapKey | Fields | Default | EntityType | ZeroCopy
deriving Repr, DecidableEq

/-- The fields of the struct `Field` in the order of their declaration, each with
the name its `json` tag gives it. -/
def fieldNames : List (FieldAttr × Bytes) :=
  [(.Name, str "name"), (.«Type», str "type"), (.Versions, str "versions"),
   (.TaggedVersions, str "taggedVersions"), (.NullableVersions, str "nullableVersions"),
   (.FlexibleVersions, str "flexibleVersions"), (.Ignorable, str "ignorable"),
   (.About, str "about"), (.Tag, str "tag"), (.MapKey, str "mapKey"),
   (.Fields, str "fields"), (.Default, str "default"), (.EntityType, str "entityType"),
   (.ZeroCopy, str "zeroCopy")]

/-- The fields of the struct `Message`. -/
inductive MessageAttr where
  | ApiKey | «Type» | Listeners | Name | ValidVersions | LatestVersionUnstable
  | FlexibleVersions | Fields | CommonStructs
deriving Repr, DecidableEq

/-- The fields of the struct `Message` in the order of their declaration, each
with the name its `json` tag gives it; `Fields` has no tag and keeps its Go name. -/
def messageNames : List (MessageAttr × Bytes) :=
  [(.ApiKey, str "apiKey"), (.«Type», str "type"), (.Listeners, str "listeners"),
   (.Name, str "name"), (.ValidVersions, str "validVersions"),
   (.LatestVersionUnstable, str "latestVersionUnstable"),
   (.FlexibleVersions, str "flexibleVersions"), (.Fields, str "Fields"),
   (.CommonStructs, str "commonStructs")]

/-- What a step of the decoder returns besides the value it decoded into:
`.error e` when an `UnmarshalJSON` returned `e` and the decoder stops at such an
error, which ends the decoding at once, and otherwise `.ok s`, where `s` is the
error the step saved, if any; the decoding goes on after a saved error. -/
abbrev Outcome := Except Error (Option Error)

/-- The method `saveError` keeps the first error saved. -/
def firstError (a b : Option Error) : Option Error :=
  match a with
  | some e => some e
  | none => b

/-- Two steps in a row: the outcome of the first, then the outcome of the second. -/
def Outcome.andThen (a b : Outcome) : Outcome :=
  match a with
  | .error e => .error e
  | .ok s =>
    match b with
    | .error e => .error e
    | .ok s' => .ok (firstError s s')

/-- A JSON value decoded into a Go `int`. -/
def decodeInt (j : JSON) (v : Int) : Int × Option Error :=
  match j with
  | .null => (v, none)
  | .number raw =>
    match ParseInt raw with
    | .ok n => (n, none)
    | .error _ => (v, some (.unmarshalTypeError (str "number " ++ raw) (str "int")))
  | _ => (v, some (.unmarshalTypeError j.kind (str "int")))

/-- A JSON value decoded into a Go `string`. -/
def decodeString (j : JSON) (v : Bytes) : Bytes × Option Error :=
  match j with
  | .null => (v, none)
  | .string _ val => (val, none)
  | _ => (v, some (.unmarshalTypeError j.kind (str "string")))

/-- A JSON value decoded into a Go `bool`. -/
def decodeBool (j : JSON) (v : Bool) : Bool × Option Error :=
  match j with
  | .null => (v, none)
  | .bool b => (b, none)
  | _ => (v, some (.unmarshalTypeError j.kind (str "bool")))

/-- The elements of a JSON array decoded into a slice of strings: an element is
decoded into the element the slice has at that place, and into a fresh one beyond
the length of the slice; the slice ends with the array. -/
def decodeStringElems : List JSON → List Bytes → List Bytes × Option Error
  | [], _ => ([], none)
  | j :: js, v =>
    let r := decodeString j (v.headD [])
    let rs := decodeStringElems js v.tail
    (r.1 :: rs.1, firstError r.2 rs.2)

/-- A JSON value decoded into a Go `[]string`. -/
def decodeStrings (j : JSON) (v : List Bytes) : List Bytes × Option Error :=
  match j with
  | .null => ([], none)
  | .array _ elems => decodeStringElems elems v
  | _ => (v, some (.unmarshalTypeError j.kind (str "[]string")))

/-- The outcome of a step in which an `UnmarshalJSON` method returned `e`: the
error ends the decoding when the decoder stops at such errors, and is saved
otherwise. -/
def Outcome.ofMethod (T : Tables) (e : Error) : Outcome :=
  if T.stops then .error e else .ok (some e)

/-- A JSON value decoded into a `Range`: whatever the value is, its text goes to
`Range.UnmarshalJSON`. -/
def decodeRange (T : Tables) (j : JSON) (v : Range) : Range × Outcome :=
  match v.UnmarshalJSON j.text with
  | (r, some e) => (r, Outcome.ofMethod T e)
  | (r, none) => (r, .ok none)

mutual
/-- The first number literal in a value that `strconv.ParseFloat` refuses. -/
def badNumber (T : Tables) : JSON → Option Bytes
  | .number raw => if T.floatOk raw then none else some raw
  | .array _ elems => badNumberElems T elems
  | .object _ members => badNumberMembers T members
  | _ => none
termination_by structural j => j
/-- The first number literal in the elements of an array that `strconv.ParseFloat`
refuses. -/
def badNumberElems (T : Tables) : List JSON → Option Bytes
  | [] => none
  | j :: js =>
    match badNumber T j with
    | some raw => some raw
    | none => badNumberElems T js
termination_by structural js => js
/-- The first number literal in the members of an object that `strconv.ParseFloat`
refuses. -/
def badNumberMembers (T : Tables) : List (Bytes × JSON) → Option Bytes
  | [] => none
  | (_, j) :: ms =>
    match badNumber T j with
    | some raw => some raw
    | none => badNumberMembers T ms
termination_by structural ms => ms
end

/-- A JSON value decoded into the `interface{}` of `Default`: `null` gives nil,
and any other value the Go value built from it, whose numbers are `float64`. A
number literal that `strconv.ParseFloat` refuses is a saved error; when the value
is itself such a literal, `Default` stays as it is. -/
def decodeDefault (T : Tables) (j : JSON) (v : Option JSON) : Option JSON × Option Error :=
  match j with
  | .null => (none, none)
  | .number raw =>
    if T.floatOk raw then (some j, none)
    else (v, some (.unmarshalTypeError (str "number " ++ raw) (str "float64")))
  | _ =>
    (some j, (badNumber T j).map (fun raw =>
      .unmarshalTypeError (str "number " ++ raw) (str "float64")))

/-- A JSON value decoded into one field of a `Field`, for every field but `Fields`. -/
def decodeFieldAttr (T : Tables) (a : FieldAttr) (j : JSON) (v : Field) : Field × Outcome :=
  match a with
  | .Name => let r := decodeString j v.Name; ({ v with Name := r.1 }, .ok r.2)
  | .«Type» => let r := decodeString j v.«Type»; ({ v with «Type» := r.1 }, .ok r.2)
  | .Versions => let r := decodeRange T j v.Versions; ({ v with Versions := r.1 }, r.2)
  | .TaggedVersions =>
    let r := decodeRange T j v.TaggedVersions; ({ v with TaggedVersions := r.1 }, r.2)
  | .NullableVersions =>
    let r := decodeRange T j v.NullableVersions; ({ v with NullableVersions := r.1 }, r.2)
  | .FlexibleVersions =>
    let r := decodeRange T j v.FlexibleVersions; ({ v with FlexibleVersions := r.1 }, r.2)
  | .Ignorable => let r := decodeBool j v.Ignorable; ({ v with Ignorable := r.1 }, .ok r.2)
  | .About => let r := decodeString j v.About; ({ v with About := r.1 }, .ok r.2)
  | .Tag => let r := decodeInt j v.Tag; ({ v with Tag := r.1 }, .ok r.2)
  | .MapKey => let r := decodeBool j v.MapKey; ({ v with MapKey := r.1 }, .ok r.2)
  | .Fields => (v, .ok none)
  | .Default => let r := decodeDefault T j v.Default; ({ v with Default := r.1 }, .ok r.2)
  | .EntityType => let r := decodeString j v.EntityType; ({ v with EntityType := r.1 }, .ok r.2)
  | .ZeroCopy => let r := decodeBool j v.ZeroCopy; ({ v with ZeroCopy := r.1 }, .ok r.2)

mutual
/-- A JSON value decoded into a `Field`: `null` leaves it as it is, an object is
decoded member by member, anything else is a type error. -/
def decodeField (T : Tables) (strict : Bool) : JSON → Field → Field × Outcome
  | .null, v => (v, .ok none)
  | .object _ members, v => decodeFieldMembers T strict members v
  | .bool _, v => (v, .ok (some (.unmarshalTypeError (str "bool") (str "message.Field"))))
  | .number _, v => (v, .ok (some (.unmarshalTypeError (str "number") (str "message.Field"))))
  | .string _ _, v => (v, .ok (some (.unmarshalTypeError (str "string") (str "message.Field"))))
  | .array _ _, v => (v, .ok (some (.unmarshalTypeError (str "array") (str "message.Field"))))
termination_by structural j => j
/-- The members of an object decoded into a `Field`, in the order of the
document. A key that selects no field is skipped, and with
`DisallowUnknownFields` (`strict`) an error is saved for it. -/
def decodeFieldMembers (T : Tables) (strict : Bool) :
    List (Bytes × JSON) → Field → Field × Outcome
  | [], v => (v, .ok none)
  | (key, j) :: ms, v =>
    match lookup T fieldNames key with
    | none =>
      let rs := decodeFieldMembers T strict ms v
      (rs.1, Outcome.andThen (.ok (if strict then some (.unknownField key) else none)) rs.2)
    | some .Fields =>
      let r := decodeFieldSlice T strict j v.Fields
      match r.2 with
      | .error e => ({ v with Fields := r.1 }, .error e)
      | .ok s =>
        let rs := decodeFieldMembers T strict ms { v with Fields := r.1 }
        (rs.1, Outcome.andThen (.ok s) rs.2)
    | some a =>
      let r := decodeFieldAttr T a j v
      match r.2 with
      | .error e => (r.1, .error e)
      | .ok s =>
        let rs := decodeFieldMembers T strict ms r.1
        (rs.1, Outcome.andThen (.ok s) rs.2)
termination_by structural ms => ms
/-- A JSON value decoded into a `[]Field`: `null` gives the nil slice, an array
is decoded element by element, anything else is a type error. -/
def decodeFieldSlice (T : Tables) (strict : Bool) : JSON → List Field → List Field × Outcome
  | .null, _ => ([], .ok none)
  | .array _ elems, v => decodeFieldElems T strict elems v
  | .bool _, v => (v, .ok (some (.unmarshalTypeError (str "bool") (str "[]message.Field"))))
  | .number _, v => (v, .ok (some (.unmarshalTypeError (str "number") (str "[]message.Field"))))
  | .string _ _, v => (v, .ok (some (.unmarshalTypeError (str "string") (str "[]message.Field"))))
  | .object _ _, v => (v, .ok (some (.unmarshalTypeError (str "object") (str "[]message.Field"))))
termination_by structural j => j
/-- The elements of a JSON array decoded into a `[]Field`: an element is decoded
into the element the slice has at that place, and into a zero one beyond the
length of the slice (a slice that was never cut short has nothing else there);
the slice ends with the array. -/
def decodeFieldElems (T : Tables) (strict : Bool) :
    List JSON → List Field → List Field × Outcome
  | [], _ => ([], .ok none)
  | j :: js, v =>
    let r := decodeField T strict j (v.headD Field.zero)
    match r.2 with
    | .error e => (r.1 :: v.tail, .error e)
    | .ok s =>
      let rs := decodeFieldElems T strict js v.tail
      (r.1 :: rs.1, Outcome.andThen (.ok s) rs.2)
termination_by structural js => js
end

/-- A JSON value decoded into one field of a `Message`. -/
def decodeMessageAttr (T : Tables) (strict : Bool) (a : MessageAttr) (j : JSON) (v : Message) :
    Message × Outcome :=
  match a with
  | .ApiKey => let r := decodeInt j v.ApiKey; ({ v with ApiKey := r.1 }, .ok r.2)
  | .«Type» => let r := decodeString j v.«Type»; ({ v with «Type» := r.1 }, .ok r.2)
  | .Listeners => let r := decodeStrings j v.Listeners; ({ v with Listeners := r.1 }, .ok r.2)
  | .Name => let r := decodeString j v.Name; ({ v with Name := r.1 }, .ok r.2)
  | .ValidVersions =>
    let r := decodeRange T j v.ValidVersions; ({ v with ValidVersions := r.1 }, r.2)
  | .LatestVersionUnstable =>
    let r := decodeBool j v.LatestVersionUnstable
    ({ v with LatestVersionUnstable := r.1 }, .ok r.2)
  | .FlexibleVersions =>
    let r := decodeRange T j v.FlexibleVersions; ({ v with FlexibleVersions := r.1 }, r.2)
  | .Fields =>
    let r := decodeFieldSlice T strict j v.Fields; ({ v with Fields := r.1 }, r.2)
  | .CommonStructs =>
    let r := decodeFieldSlice T strict j v.CommonStructs; ({ v with CommonStructs := r.1 }, r.2)

/-- The members of an object decoded into a `Message`, in the order of the
document. -/
def decodeMessageMembers (T : Tables) (strict : Bool) :
    List (Bytes × JSON) → Message → Message × Outcome
  | [], v => (v, .ok none)
  | (key, j) :: ms, v =>
    match lookup T messageNames key with
    | none =>
      let rs := decodeMessageMembers T strict ms v
      (rs.1, Outcome.andThen (.ok (if strict then some (.unknownField key) else none)) rs.2)
    | some a =>
      let r := decodeMessageAttr T strict a j v
      match r.2 with
      | .error e => (r.1, .error e)
      | .ok s =>
        let rs := decodeMessageMembers T strict ms r.1
        (rs.1, Outcome.andThen (.ok s) rs.2)

/-- A JSON value decoded into a `Message`. -/
def decodeMessage (T : Tables) (strict : Bool) (j : JSON) (v : Message) : Message × Outcome :=
  match j with
  | .null => (v, .ok none)
  | .object _ members => decodeMessageMembers T strict members v
  | _ => (v, .ok (some (.unmarshalTypeError j.kind (str "message.Message"))))

/-- The method `Decode(&msg)` of a `json.Decoder`, with `DisallowUnknownFields`
when `strict` is set: the message after the call and the error returned, which is
the error that ended the decoding if one did, and the first saved error
otherwise. With a decoder that goes on after the error of an `UnmarshalJSON`
method, this is the first error of the document. -/
def Decode (T : Tables) (strict : Bool) (msg : Message) (doc : JSON) : Message × Option Error :=
  match decodeMessage T strict doc msg with
  | (m, .error e) => (m, some e)
  | (m, .ok s) => (m, s)

/-- The error `fmt.Errorf("failed to unmarshal JSON %s: %w", path, err)` of
`main.go`: it names the file and wraps `err`. -/
structure WrapError where
  path : Bytes
  err : Error
deriving Repr, DecidableEq

/-- The decoding step of the callback of `main.go`: a zero `msg` is declared and
decoded into with `DisallowUnknownFields`; on an error the callback returns the
wrapped error, and otherwise it goes on with `msg` as the parsed data. -/
def parseFile (T : Tables) (path : Bytes) (doc : JSON) : Except WrapError Message :=
  match Decode T true Message.zero doc with
  | (_, some err) => .error ⟨path, err⟩
  | (msg, none) => .ok msg

/-! ## Words of the specification -/

/-- A non-empty string of ASCII decimal digits. -/
def IsDigits (d : Bytes) : Prop := d ≠ [] ∧ ∀ c ∈ d, isDigit c = true

instance (d : Bytes) : Decidable (IsDigits d) := by
  unfold IsDigits; exact inferInstance

/-- The string `d` of ASCII decimal digits denotes the number `b` (in base ten,
the most significant digit first; leading zeros are allowed). -/
def Denotes (d : Bytes) (b : Nat) : Prop :=
  IsDigits d ∧ Nat.ofDigits 10 ((d.map (fun c => c.toNat - 48)).reverse) = b

/-- The declarative reading of a pattern: the word `w` belongs to the language of
the pattern, with the capturing groups holding `caps`. -/
def Regexp.Matches : Regexp → Bytes → List Bytes → Prop
  | .byte c, w, caps => w = [c] ∧ caps = []
  | .digits, w, caps => IsDigits w ∧ caps = []
  | .opt r, w, caps => r.Matches w caps ∨ (w = [] ∧ caps = List.replicate r.numSubexp [])
  | .cat r s, w, caps =>
    ∃ w1 w2 c1 c2, w = w1 ++ w2 ∧ caps = c1 ++ c2 ∧ r.Matches w1 c1 ∧ s.Matches w2 c2
  | .group r, w, caps => ∃ c, caps = w :: c ∧ r.Matches w c

/-- An optional double quote: nothing, or one `"`. -/
def OptQuote (q : Bytes) : Prop := q = [] ∨ q = [quote]

instance (q : Bytes) : Decidable (OptQuote q) := by
  unfold OptQuote; exact inferInstance

/-- The shape all three patterns share: `"?(body)"?`. -/
def quotedRe (body : Regexp) : Regexp :=
  .cat (.opt (.byte quote)) (.cat (.group body) (.opt (.byte quote)))

/-- The open-ended form `digits+`. -/
def IsOnlyStart (m : Bytes) : Prop := ∃ d, IsDigits d ∧ m = d ++ [43]

/-- The closed form `digits-digits`. -/
def IsStartStop (m : Bytes) : Prop := ∃ d e, IsDigits d ∧ IsDigits e ∧ m = d ++ 45 :: e

/-- A word of the language `P`, with an optional `"` before it and an optional
`"` after it, each independently of the other. -/
def Quoted (P : Bytes → Prop) (w : Bytes) : Prop :=
  ∃ ql m qr, OptQuote ql ∧ OptQuote qr ∧ P m ∧ w = ql ++ m ++ qr

instance (d : Bytes) (b : Nat) : Decidable (Denotes d b) := by
  unfold Denotes; exact inferInstance

/-- One of the four grammar forms `digits+`, `digits-digits`, `digits`, `none`,
with nothing around it. -/
def IsForm (m : Bytes) : Prop := IsOnlyStart m ∨ IsStartStop m ∨ IsDigits m ∨ m = str "none"

/-- A word of the language `P`, either bare or enclosed in one matching pair of
double quotes. -/
def BareOrPaired (P : Bytes → Prop) (t : Bytes) : Prop :=
  P t ∨ ∃ m, P m ∧ t = quote :: m ++ [quote]

/-- The tokens the parser has a branch for: `none`, `"none"`, and the three
numeric forms with an optional `"` on either side. -/
def HasBranch (t : Bytes) : Prop :=
  Quoted IsOnlyStart t ∨ Quoted IsStartStop t ∨ Quoted IsDigits t ∨
    t = str "none" ∨ t = str "\"none\""

/-- The number a string of decimal digits denotes. -/
def decVal (d : Bytes) : Nat := Nat.ofDigits 10 ((d.map (fun c => c.toNat - 48)).reverse)

mutual
/-- Some object of a value decoded into a `Field` (the value itself, or a `Field`
nested under `fields` at any depth) holds a key that selects no field of `Field`. -/
def fieldHasUnknown (T : Tables) : JSON → Bool
  | .object _ members => fieldMembersHaveUnknown T members
  | _ => false
termination_by structural j => j
/-- The members of an object decoded into a `Field` hold such a key, at any depth. -/
def fieldMembersHaveUnknown (T : Tables) : List (Bytes × JSON) → Bool
  | [] => false
  | (key, j) :: ms =>
    (match lookup T fieldNames key with
      | none => true
      | some .Fields => sliceHasUnknown T j
      | some _ => false) || fieldMembersHaveUnknown T ms
termination_by structural ms => ms
/-- Some element of a value decoded into a `[]Field` holds such a key, at any depth. -/
def sliceHasUnknown (T : Tables) : JSON → Bool
  | .array _ elems => elemsHaveUnknown T elems
  | _ => false
termination_by structural j => j
/-- Some of the elements of an array decoded into a `[]Field` holds such a key. -/
def elemsHaveUnknown (T : Tables) : List JSON → Bool
  | [] => false
  | j :: js => fieldHasUnknown T j || elemsHaveUnknown T js
termination_by structural js => js
end

/-- The members of an object decoded into a `Message` hold a key that selects no
field of `Message`, or an element of `fields` or `commonStructs` holds, at any
depth, a key that selects no field of `Field`. -/
def messageMembersHaveUnknown (T : Tables) : List (Bytes × JSON) → Bool
  | [] => false
  | (key, j) :: ms =>
    (match lookup T messageNames key with
      | none => true
      | some .Fields => sliceHasUnknown T j
      | some .CommonStructs => sliceHasUnknown T j
      | some _ => false) || messageMembersHaveUnknown T ms

/-- Some object of the document (the top-level message, an element of `fields`
or `commonStructs`, or a `Field` nested to any depth under `fields`) holds an
attribute name that the decoder does not recognise. -/
def messageHasUnknown (T : Tables) : JSON → Bool
  | .object _ members => messageMembersHaveUnknown T members
  | _ => false

/-- The second value is the first with one more attribute, of a name that selects
no field of `Field`, in one object: the value itself or a `Field` nested under
`fields` at any depth. The texts of the values on the way may differ. -/
inductive FieldAdds (T : Tables) (key : Bytes) : JSON → JSON → Prop where
  | here (raw raw' : Bytes) (pre post : List (Bytes × JSON)) (val : JSON) :
    lookup T fieldNames key = none →
    FieldAdds T key (.object raw (pre ++ post)) (.object raw' (pre ++ (key, val) :: post))
  | nested (raw raw' ra ra' : Bytes) (pre post : List (Bytes × JSON)) (k : Bytes)
    (epre epost : List JSON) (e e' : JSON) :
    lookup T fieldNames k = some .Fields → FieldAdds T key e e' →
    FieldAdds T key (.object raw (pre ++ (k, .array ra (epre ++ e :: epost)) :: post))
      (.object raw' (pre ++ (k, .array ra' (epre ++ e' :: epost)) :: post))

/-- The second document is the first with one more attribute, of a name the
decoder does not recognise, in one object: the top-level message, an element of
`fields` or `commonStructs`, or a `Field` nested to any depth under `fields`. -/
inductive MessageAdds (T : Tables) (key : Bytes) : JSON → JSON → Prop where
  | here (raw raw' : Bytes) (pre post : List (Bytes × JSON)) (val : JSON) :
    lookup T messageNames key = none →
    MessageAdds T key (.object raw (pre ++ post)) (.object raw' (pre ++ (key, val) :: post))
  | nested (raw raw' ra ra' : Bytes) (pre post : List (Bytes × JSON)) (k : Bytes)
    (epre epost : List JSON) (e e' : JSON) :
    (lookup T messageNames k = some .Fields ∨ lookup T messageNames k = some .CommonStructs) →
    FieldAdds T key e e' →
    MessageAdds T key (.object raw (pre ++ (k, .array ra (epre ++ e :: epost)) :: post))
      (.object raw' (pre ++ (k, .array ra' (epre ++ e' :: epost)) :: post))

/-- Tables for documents in ASCII: no folding beyond ASCII, every number literal
accepted as a float, and a decoder that goes on after the error of an
`UnmarshalJSON` method. -/
def asciiTables : Tables := ⟨fun b => b, fun _ => true, false⟩

/-- The same tables with a decoder that stops at the error of an `UnmarshalJSON`
method. -/
def asciiTablesStop : Tables := ⟨fun b => b, fun _ => true, true⟩

/-- The JSON string with the given ASCII text, which needs no escape. -/
def jstring (s : String) : JSON := .string (quote :: str s ++ [quote]) (str s)

/-- The JSON array of the given elements, written without white space. -/
def jarray (elems : List JSON) : JSON :=
  .array (str "[" ++ (str ",").intercalate (elems.map JSON.text) ++ str "]") elems

/-- The JSON object of the given members, written without white space. -/
def jobject (members : List (String × JSON)) : JSON :=
  .object
    (str "\x7b" ++ (str ",").intercalate
      (members.map (fun m => quote :: str m.1 ++ [quote] ++ str ":" ++ m.2.text)) ++ str "\x7d")
    (members.map (fun m => (str m.1, m.2)))

/-- A document with fields nested three levels deep. -/
def nestedDoc : JSON :=
  jobject [("name", jstring "X"), ("fields", jarray [
    jobject [("name", jstring "A"), ("fields", jarray [
      jobject [("name", jstring "B"), ("fields", jarray [
        jobject [("name", jstring "C"), ("versions", jstring "3+")]])]])]])]

/-- The same document with the attribute `bogus` in the innermost field. -/
def nestedDocBogus : JSON :=
  jobject [("name", jstring "X"), ("fields", jarray [
    jobject [("name", jstring "A"), ("fields", jarray [
      jobject [("name", jstring "B"), ("fields", jarray [
        jobject [("name", jstring "C"), ("bogus", .number (str "1")),
          ("versions", jstring "3+")]])]])]])]

/-- The four branches of the `if ... else if ...` chain of `Range.UnmarshalJSON`. -/
inductive Branch where
  | onlyStart
  | startStop
  | exact
  | noneLit
deriving Repr, DecidableEq

/-- One branch of `Range.UnmarshalJSON` taken on its own: `none` when its
condition fails, and otherwise the receiver its body leaves and the error it
returns. -/
def Branch.attempt (b : Branch) (r : Range) (bytes : Bytes) : Option (Range × Option Error) :=
  match b with
  | .onlyStart =>
    let subs := onlyStartRe.FindSubmatch bytes
    if subs.length = 3 then
      let r := { r with Value := subs.getD 1 [] }
      match Atoi (subs.getD 2 []) with
      | .error err => some (r, some err)
      | .ok begin => some ({ r with Begin := begin }, none)
    else none
  | .startStop =>
    let subs := startStopRe.FindSubmatch bytes
    if subs.length = 4 then
      let r := { r with Value := subs.getD 1 [] }
      match Atoi (subs.getD 2 []) with
      | .error err => some (r, some err)
      | .ok begin =>
        let r := { r with Begin := begin }
        match Atoi (subs.getD 3 []) with
        | .error err => some (r, some err)
        | .ok «end» => some ({ r with End := «end» }, none)
    else none
  | .exact =>
    let subs := exactRe.FindSubmatch bytes
    if subs.length = 2 then
      let r := { r with Value := subs.getD 1 [] }
      match Atoi (subs.getD 1 []) with
      | .error err => some (r, some err)
      | .ok begin => some ({ r with Begin := begin, End := begin }, none)
    else none
  | .noneLit =>
    if bytes = str "none" ∨ bytes = str "\"none\"" then some ({ r with Value := str "none" }, none)
    else none

/-- The method `Range.UnmarshalJSON` with its branches tried in the given order:
the first branch whose condition holds decides, and when none does the method
returns the error `invalid range: ...`. -/
def Range.UnmarshalJSONInOrder (order : List Branch) (r : Range) (bytes : Bytes) :
    Range × Option Error :=
  match order with
  | [] => (r, some (.errorf (str "invalid range: " ++ bytes)))
  | b :: bs =>
    match b.attempt r bytes with
    | some res => res
    | none => Range.UnmarshalJSONInOrder bs r bytes

/-- The fields of `Field` of type `Range`. -/
def FieldAttr.isRange : FieldAttr → Bool
  | .Versions => true
  | .TaggedVersions => true
  | .NullableVersions => true
  | .FlexibleVersions => true
  | _ => false

mutual
/-- The texts of the values of the range-valued attributes (`versions`,
`taggedVersions`, `nullableVersions`, `flexibleVersions`) of a value decoded into
a `Field` and of the fields nested in it at any depth, in the order of the
document. -/
def fieldRangeTokens (T : Tables) : JSON → List Bytes
  | .object _ members => fieldMembersRangeTokens T members
  | _ => []
termination_by structural j => j
/-- The same for the members of an object decoded into a `Field`. -/
def fieldMembersRangeTokens (T : Tables) : List (Bytes × JSON) → List Bytes
  | [] => []
  | (key, j) :: ms =>
    (match lookup T fieldNames key with
      | none => []
      | some .Fields => sliceRangeTokens T j
      | some a => if a.isRange then [j.text] else []) ++ fieldMembersRangeTokens T ms
termination_by structural ms => ms
/-- The same for a value decoded into a `[]Field`. -/
def sliceRangeTokens (T : Tables) : JSON → List Bytes
  | .array _ elems => elemsRangeTokens T elems
  | _ => []
termination_by structural j => j
/-- The same for the elements of an array decoded into a `[]Field`. -/
def elemsRangeTokens (T : Tables) : List JSON → List Bytes
  | [] => []
  | j :: js => fieldRangeTokens T j ++ elemsRangeTokens T js
termination_by structural js => js
end

/-- The texts of the range values that an attribute of a `Message` holds: the
text of its value for `validVersions` and `flexibleVersions`, and those of the
fields under it for `fields` and `commonStructs`. -/
def messageAttrRangeTokens (T : Tables) (a : MessageAttr) (j : JSON) : List Bytes :=
  match a with
  | .ValidVersions => [j.text]
  | .FlexibleVersions => [j.text]
  | .Fields => sliceRangeTokens T j
  | .CommonStructs => sliceRangeTokens T j
  | _ => []

/-- The texts of the values of the range-valued attributes of the members of an
object decoded into a `Message` and of the fields under `fields` and
`commonStructs`, in the order of the document. -/
def messageMembersRangeTokens (T : Tables) : List (Bytes × JSON) → List Bytes
  | [] => []
  | (key, j) :: ms =>
    (match lookup T messageNames key with
      | some a => messageAttrRangeTokens T a j
      | none => []) ++ messageMembersRangeTokens T ms

/-- The texts of the values of all range-valued attributes of a document, of the
message and of its fields at any depth, in the order of the document. -/
def messageRangeTokens (T : Tables) : JSON → List Bytes
  | .object _ members => messageMembersRangeTokens T members
  | _ => []

/-- The error of the range parser on the first token of the list that it rejects. -/
def firstRejected (toks : List Bytes) : Option Error :=
  toks.findSome? (fun tok => (Range.zero.UnmarshalJSON tok).2)

/-- The error that ended the decoding, if one did. -/
def Outcome.hard : Outcome → Option Error
  | .error e => some e
  | .ok _ => none

/-- A document with a malformed range on a nested field. -/
def bogusDoc : JSON :=
  jobject [("name", jstring "X"), ("validVersions", jstring "0-4"), ("fields", jarray [
    jobject [("name", jstring "A"), ("fields", jarray [
      jobject [("name", jstring "B"), ("versions", jstring "bogus")]])]])]

/-- Two values of `Field` hold the same in the given field. -/
def Field.sameAt (a : FieldAttr) (f g : Field) : Prop :=
  match a with
  | .Name => f.Name = g.Name
  | .«Type» => f.«Type» = g.«Type»
  | .Versions => f.Versions = g.Versions
  | .TaggedVersions => f.TaggedVersions = g.TaggedVersions
  | .NullableVersions => f.NullableVersions = g.NullableVersions
  | .FlexibleVersions => f.FlexibleVersions = g.FlexibleVersions
  | .Ignorable => f.Ignorable = g.Ignorable
  | .About => f.About = g.About
  | .Tag => f.Tag = g.Tag
  | .MapKey => f.MapKey = g.MapKey
  | .Fields => f.Fields = g.Fields
  | .Default => f.Default = g.Default
  | .EntityType => f.EntityType = g.EntityType
  | .ZeroCopy => f.ZeroCopy = g.ZeroCopy

/-- Two values of `Message` hold the same in the given field. -/
def Message.sameAt (a : MessageAttr) (m n : Message) : Prop :=
  match a with
  | .ApiKey => m.ApiKey = n.ApiKey
  | .«Type» => m.«Type» = n.«Type»
  | .Listeners => m.Listeners = n.Listeners
  | .Name => m.Name = n.Name
  | .ValidVersions => m.ValidVersions = n.ValidVersions
  | .LatestVersionUnstable => m.LatestVersionUnstable = n.LatestVersionUnstable
  | .FlexibleVersions => m.FlexibleVersions = n.FlexibleVersions
  | .Fields => m.Fields = n.Fields
  | .CommonStructs => m.CommonStructs = n.CommonStructs

/-- The `Range` a `Field` holds in one of its range-valued fields. -/
def Field.range (a : FieldAttr) (f : Field) : Range :=
  match a with
  | .Versions => f.Versions
  | .TaggedVersions => f.TaggedVersions
  | .NullableVersions => f.NullableVersions
  | .FlexibleVersions => f.FlexibleVersions
  | _ => Range.zero

/-- What `decodeFieldMembers` does with the value of a member whose key selects
the field `a`. -/
def fieldStep (T : Tables) (strict : Bool) (a : FieldAttr) (j : JSON) (v : Field) :
    Field × Outcome :=
  match a with
  | .Fields =>
    ({ v with Fields := (decodeFieldSlice T strict j v.Fields).1 },
      (decodeFieldSlice T strict j v.Fields).2)
  | a => decodeFieldAttr T a j v

/-- No member of the list selects the field `a`: the attribute is absent. -/
def Absent {α : Type} (T : Tables) (names : List (α × Bytes)) (a : α)
    (ms : List (Bytes × JSON)) : Prop :=
  ∀ p ∈ ms, lookup T names p.1 ≠ some a

mutual
/-- No object of a value decoded into a `Field` (the value itself, or a `Field`
nested under `fields` at any depth) gives the same attribute twice. -/
def fieldNoRepeat (T : Tables) : JSON → Bool
  | .object _ members => fieldMembersNoRepeat T members
  | _ => true
termination_by structural j => j
/-- The same for the members of an object decoded into a `Field`. -/
def fieldMembersNoRepeat (T : Tables) : List (Bytes × JSON) → Bool
  | [] => true
  | (key, j) :: ms =>
    (match lookup T fieldNames key with
      | none => true
      | some .Fields =>
        ms.all (fun p => decide (lookup T fieldNames p.1 ≠ some .Fields)) && sliceNoRepeat T j
      | some a => ms.all (fun p => decide (lookup T fieldNames p.1 ≠ some a))) &&
      fieldMembersNoRepeat T ms
termination_by structural ms => ms
/-- The same for a value decoded into a `[]Field`. -/
def sliceNoRepeat (T : Tables) : JSON → Bool
  | .array _ elems => elemsNoRepeat T elems
  | _ => true
termination_by structural j => j
/-- The same for the elements of an array decoded into a `[]Field`. -/
def elemsNoRepeat (T : Tables) : List JSON → Bool
  | [] => true
  | j :: js => fieldNoRepeat T j && elemsNoRepeat T js
termination_by structural js => js
end

/-- No two members of an object decoded into a `Message` select the same field,
and no object under `fields` or `commonStructs` gives the same attribute twice. -/
def messageMembersNoRepeat (T : Tables) : List (Bytes × JSON) → Bool
  | [] => true
  | (key, j) :: ms =>
    (match lookup T messageNames key with
      | none => true
      | some a =>
        ms.all (fun p => decide (lookup T messageNames p.1 ≠ some a)) &&
          (if a = .Fields ∨ a = .CommonStructs then sliceNoRepeat T j else true)) &&
      messageMembersNoRepeat T ms

/-- No object of the document (the top-level message, or a field at any depth)
gives the same attribute twice. -/
def messageNoRepeat (T : Tables) : JSON → Bool
  | .object _ members => messageMembersNoRepeat T members
  | _ => true

mutual
/-- The property `P` holds of every object that is decoded into a `Field` (the
value itself and the fields nested under `fields` at any depth), taken together
with the `Field` decoded from it. -/
def fieldAll (T : Tables) (P : List (Bytes × JSON) → Field → Prop) : JSON → Field → Prop
  | .object _ members, f => P members f ∧ fieldMembersAll T P members f
  | _, _ => True
termination_by structural j => j
/-- The same for the fields nested under the members of an object. -/
def fieldMembersAll (T : Tables) (P : List (Bytes × JSON) → Field → Prop) :
    List (Bytes × JSON) → Field → Prop
  | [], _ => True
  | (key, j) :: ms, f =>
    (match lookup T fieldNames key with
      | some .Fields => sliceAll T P j f.Fields
      | _ => True) ∧ fieldMembersAll T P ms f
termination_by structural ms => ms
/-- The same for a value decoded into a `[]Field`. -/
def sliceAll (T : Tables) (P : List (Bytes × JSON) → Field → Prop) :
    JSON → List Field → Prop
  | .array _ elems, fs => elemsAll T P elems fs
  | _, _ => True
termination_by structural j => j
/-- The same for the elements of an array and the elements of the slice decoded
from it, one by one. -/
def elemsAll (T : Tables) (P : List (Bytes × JSON) → Field → Prop) :
    List JSON → List Field → Prop
  | [], fs => fs = []
  | j :: js, fs =>
    match fs with
    | [] => False
    | f :: fs' => fieldAll T P j f ∧ elemsAll T P js fs'
termination_by structural js => js
end

/-- The property `P` holds of every object of the document that is decoded into a
`Field`, under `fields` or `commonStructs` at any depth, taken together with the
`Field` decoded from it. -/
def messageMembersAll (T : Tables) (P : List (Bytes × JSON) → Field → Prop) :
    List (Bytes × JSON) → Message → Prop
  | [], _ => True
  | (key, j) :: ms, m =>
    (match lookup T messageNames key with
      | some .Fields => sliceAll T P j m.Fields
      | some .CommonStructs => sliceAll T P j m.CommonStructs
      | _ => True) ∧ messageMembersAll T P ms m

/-- The same for a document and the `Message` decoded from it. -/
def messageAll (T : Tables) (P : List (Bytes × JSON) → Field → Prop) : JSON → Message → Prop
  | .object _ members, m => messageMembersAll T P members m
  | _, _ => True

/-- Every range-valued attribute that an object gives holds, in the `Field`
decoded from it, what `Range.UnmarshalJSON` leaves in a zero-valued `Range` on the
text of the value of the attribute. -/
def fieldRangesParsed (T : Tables) (ms : List (Bytes × JSON)) (f : Field) : Prop :=
  ∀ p ∈ ms, ∀ a, lookup T fieldNames p.1 = some a → a.isRange = true →
    f.range a = (Range.zero.UnmarshalJSON p.2.text).1

/-- The same for the two range-valued attributes of a `Message`. -/
def messageRangesParsed (T : Tables) (ms : List (Bytes × JSON)) (m : Message) : Prop :=
  ∀ p ∈ ms,
    (lookup T messageNames p.1 = some .ValidVersions →
      m.ValidVersions = (Range.zero.UnmarshalJSON p.2.text).1) ∧
    (lookup T messageNames p.1 = some .FlexibleVersions →
      m.FlexibleVersions = (Range.zero.UnmarshalJSON p.2.text).1)

/-- Every attribute that an object does not give holds, in the `Field` decoded
from it, the zero value. -/
def fieldAbsentZero (T : Tables) (ms : List (Bytes × JSON)) (f : Field) : Prop :=
  ∀ a, Absent T fieldNames a ms → Field.sameAt a f Field.zero

/-- The members of a JSON object; any other value has none. -/
def JSON.members : JSON → List (Bytes × JSON)
  | .object _ members => members
  | _ => []

/-- The document of the concrete scenario of the specification. -/
def scenarioDoc : JSON :=
  jobject [("apiKey", .number (str "18")), ("type", jstring "request"), ("name", jstring "X"),
    ("validVersions", jstring "0-4"), ("flexibleVersions", jstring "3+"),
    ("fields", jarray [
      jobject [("name", jstring "A"), ("type", jstring "string"), ("versions", jstring "3+"),
        ("ignorable", .bool true), ("about", jstring "d")]])]

/-- The `Message` the scenario expects. -/
def scenarioMessage : Message :=
  { Message.zero with
    ApiKey := 18, «Type» := str "request", Name := str "X",
    ValidVersions := ⟨str "0-4", 0, 4⟩, FlexibleVersions := ⟨str "3+", 3, 0⟩,
    Fields := [{ Field.zero with
      Name := str "A", «Type» := str "string", Versions := ⟨str "3+", 3, 0⟩,
      Ignorable := true, About := str "d" }] }

/-- A document that gives `validVersions` twice. -/
def twiceRangeDoc : JSON :=
  jobject [("validVersions", jstring "0-4"), ("validVersions", jstring "3+")]

/-- A document that gives `fields` twice, the second time with an empty object. -/
def twiceFieldsDoc : JSON :=
  jobject [("fields", jarray [jobject [("name", jstring "A")]]),
    ("fields", jarray [jobject []])]

/-- The token `tok` is the text of the value of a range-valued attribute of a
value decoded into a `Field`, in the value itself or in a `Field` nested under
`fields` at any depth, and nothing that comes before it in the value is in error:
the members before it, and the elements before it in an array, decode without an
error. -/
inductive FieldFirstBad (T : Tables) (strict : Bool) (tok : Bytes) : JSON → Prop where
  | here (raw : Bytes) (pre post : List (Bytes × JSON)) (key : Bytes) (a : FieldAttr)
    (val : JSON) :
    lookup T fieldNames key = some a → a.isRange = true → val.text = tok →
    (decodeFieldMembers T strict pre Field.zero).2 = .ok none →
    FieldFirstBad T strict tok (.object raw (pre ++ (key, val) :: post))
  | nested (raw ra : Bytes) (pre post : List (Bytes × JSON)) (k : Bytes)
    (epre epost : List JSON) (x : JSON) :
    lookup T fieldNames k = some .Fields →
    (decodeFieldMembers T strict pre Field.zero).2 = .ok none →
    (decodeFieldElems T strict epre []).2 = .ok none →
    FieldFirstBad T strict tok x →
    FieldFirstBad T strict tok (.object raw (pre ++ (k, .array ra (epre ++ x :: epost)) :: post))

/-- The token `tok` is the text of the value of a range-valued attribute of the
document, of the message or of a field at any depth, and nothing that comes
before it in the document is in error. -/
inductive MessageFirstBad (T : Tables) (strict : Bool) (tok : Bytes) : JSON → Prop where
  | here (raw : Bytes) (pre post : List (Bytes × JSON)) (key : Bytes) (val : JSON) :
    (lookup T messageNames key = some .ValidVersions ∨
      lookup T messageNames key = some .FlexibleVersions) →
    val.text = tok →
    (decodeMessageMembers T strict pre Message.zero).2 = .ok none →
    MessageFirstBad T strict tok (.object raw (pre ++ (key, val) :: post))
  | nested (raw ra : Bytes) (pre post : List (Bytes × JSON)) (k : Bytes)
    (epre epost : List JSON) (x : JSON) :
    (lookup T messageNames k = some .Fields ∨ lookup T messageNames k = some .CommonStructs) →
    (decodeMessageMembers T strict pre Message.zero).2 = .ok none →
    (decodeFieldElems T strict epre []).2 = .ok none →
    FieldFirstBad T strict tok x →
    MessageFirstBad T strict tok
      (.object raw (pre ++ (k, .array ra (epre ++ x :: epost)) :: post))

/-- A document with an unknown attribute before a malformed range. -/
def unknownFirstDoc : JSON :=
  jobject [("zzz", .number (str "1")), ("validVersions", jstring "bogus"),
    ("name", jstring "X")]

/-! ## The matcher against the declarative reading -/

theorem digitPrefixes_mem (s u r : Bytes) :
    (u, r) ∈ digitPrefixes s ↔ IsDigits u ∧ s = u ++ r := by
  induction s generalizing u r with
  | nil =>
    simp only [digitPrefixes, List.not_mem_nil, false_iff, not_and]
    intro h heq
    cases u with
    | nil => exact h.1 rfl
    | cons x xs => simp at heq
  | cons c cs ih =>
    unfold digitPrefixes
    by_cases hc : isDigit c = true
    · rw [if_pos hc]
      simp only [List.mem_append, List.mem_map, List.mem_singleton, Prod.mk.injEq,
        Prod.exists]
      constructor
      · rintro (⟨a, b, hab, rfl, rfl⟩ | ⟨rfl, rfl⟩)
        · obtain ⟨⟨_, h2⟩, rfl⟩ := (ih a b).1 hab
          refine ⟨⟨by simp, ?_⟩, by simp⟩
          intro x hx
          rcases List.mem_cons.1 hx with rfl | hx
          · exact hc
          · exact h2 x hx
        · exact ⟨⟨by simp, by simpa using hc⟩, by simp⟩
      · rintro ⟨⟨hne, hall⟩, heq⟩
        cases u with
        | nil => exact absurd rfl hne
        | cons x xs =>
          simp only [List.cons_append, List.cons.injEq] at heq
          obtain ⟨rfl, rfl⟩ := heq
          cases xs with
          | nil => right; simp
          | cons y ys =>
            left
            refine ⟨y :: ys, r, (ih _ _).2 ⟨⟨by simp, ?_⟩, rfl⟩, rfl, rfl⟩
            intro z hz
            exact hall z (List.mem_cons_of_mem _ hz)
    · rw [if_neg hc]
      simp only [List.not_mem_nil, false_iff, not_and]
      rintro ⟨hne, hall⟩ heq
      cases u with
      | nil => exact hne rfl
      | cons x xs =>
        simp only [List.cons_append, List.cons.injEq] at heq
        exact hc (heq.1 ▸ hall x (List.mem_cons_self _ _))

theorem mem_run (re : Regexp) (input : Bytes) (t : Thread) :
    t ∈ re.run input ↔ input = t.consumed ++ t.rest ∧ re.Matches t.consumed t.caps := by
  induction re generalizing input t with
  | byte c =>
    obtain ⟨w, r, caps⟩ := t
    cases input with
    | nil => simp [Regexp.run, Regexp.Matches]; intro h; simp [h]
    | cons x xs =>
      simp only [Regexp.run, Regexp.Matches]
      by_cases hx : x = c
      · subst hx
        simp only [if_true, List.mem_singleton, Thread.mk.injEq]
        constructor
        · rintro ⟨rfl, rfl, rfl⟩; simp
        · rintro ⟨h1, rfl, rfl⟩
          simp only [List.singleton_append, List.cons.injEq, true_and] at h1
          simp [h1]
      · simp only [hx, if_false, List.not_mem_nil, false_iff, not_and]
        rintro h1 rfl _
        simp only [List.singleton_append, List.cons.injEq] at h1
        exact hx h1.1
  | digits =>
    obtain ⟨w, r, caps⟩ := t
    simp only [Regexp.run, Regexp.Matches, List.mem_map, Prod.exists, Thread.mk.injEq]
    constructor
    · rintro ⟨a, b, hab, rfl, rfl, rfl⟩
      obtain ⟨h1, h2⟩ := (digitPrefixes_mem _ _ _).1 hab
      exact ⟨h2, h1, rfl⟩
    · rintro ⟨h1, h2, rfl⟩
      exact ⟨w, r, (digitPrefixes_mem _ _ _).2 ⟨h2, h1⟩, rfl, rfl, rfl⟩
  | opt r ih =>
    obtain ⟨w, rest, caps⟩ := t
    simp only [Regexp.run, Regexp.Matches, List.mem_append, List.mem_singleton, ih,
      Thread.mk.injEq]
    constructor
    · rintro (⟨h1, h2⟩ | ⟨rfl, rfl, rfl⟩)
      · exact ⟨h1, Or.inl h2⟩
      · exact ⟨rfl, Or.inr ⟨rfl, rfl⟩⟩
    · rintro ⟨h1, h2 | ⟨rfl, rfl⟩⟩
      · exact Or.inl ⟨h1, h2⟩
      · right; simp [h1]
  | cat r s ihr ihs =>
    obtain ⟨w, rest, caps⟩ := t
    simp only [Regexp.run, Regexp.Matches, List.mem_flatMap, List.mem_map, ihr, ihs,
      Thread.mk.injEq]
    constructor
    · rintro ⟨a, ⟨h1, h2⟩, b, ⟨h3, h4⟩, rfl, rfl, rfl⟩
      refine ⟨?_, a.consumed, b.consumed, a.caps, b.caps, rfl, rfl, h2, h4⟩
      rw [h1, h3, List.append_assoc]
    · rintro ⟨h1, w1, w2, c1, c2, rfl, rfl, h2, h3⟩
      refine ⟨⟨w1, w2 ++ rest, c1⟩, ⟨by simp [h1], h2⟩, ⟨w2, rest, c2⟩, ⟨rfl, h3⟩, rfl, rfl, rfl⟩
  | group r ih =>
    obtain ⟨w, rest, caps⟩ := t
    simp only [Regexp.run, Regexp.Matches, List.mem_map, ih, Thread.mk.injEq]
    constructor
    · rintro ⟨a, ⟨h1, h2⟩, rfl, rfl, rfl⟩
      exact ⟨h1, a.caps, rfl, h2⟩
    · rintro ⟨h1, c, rfl, h2⟩
      exact ⟨⟨w, rest, c⟩, ⟨h1, h2⟩, rfl, rfl, rfl⟩

theorem FindSubmatch_eq_nil (re : Regexp) (b : Bytes) :
    re.FindSubmatch b = [] ↔ ∀ caps, ¬ re.Matches b caps := by
  unfold Regexp.FindSubmatch
  cases hf : (re.run b).find? (fun t => t.rest.isEmpty) with
  | none =>
    simp only [true_iff]
    intro caps hm
    have hmem : (⟨b, [], caps⟩ : Thread) ∈ re.run b := (mem_run _ _ _).2 ⟨by simp, hm⟩
    have := List.find?_eq_none.1 hf _ hmem
    simp at this
  | some t =>
    simp only [false_iff, not_forall, not_not, reduceCtorEq]
    have hmem := (mem_run _ _ _).1 (List.mem_of_find?_eq_some hf)
    have hr := List.find?_some hf
    simp only [List.isEmpty_iff] at hr
    rw [hr, List.append_nil] at hmem
    exact ⟨t.caps, hmem.1 ▸ hmem.2⟩

theorem FindSubmatch_of_unique (re : Regexp) (b : Bytes) (caps : List Bytes)
    (hm : re.Matches b caps) (hu : ∀ c, re.Matches b c → c = caps) :
    re.FindSubmatch b = b :: caps := by
  unfold Regexp.FindSubmatch
  cases hf : (re.run b).find? (fun t => t.rest.isEmpty) with
  | none =>
    have hmem : (⟨b, [], caps⟩ : Thread) ∈ re.run b := (mem_run _ _ _).2 ⟨by simp, hm⟩
    have := List.find?_eq_none.1 hf _ hmem
    simp at this
  | some t =>
    have hmem := (mem_run _ _ _).1 (List.mem_of_find?_eq_some hf)
    have hr := List.find?_some hf
    simp only [List.isEmpty_iff] at hr
    rw [hr, List.append_nil] at hmem
    have hc : t.caps = caps := hu _ (hmem.1 ▸ hmem.2)
    simp only [hc, ← hmem.1]

theorem isDigit_quote : isDigit quote = false := by decide

theorem IsDigits.ne_nil {d : Bytes} (h : IsDigits d) : d ≠ [] := h.1

theorem IsDigits.not_mem {d : Bytes} (h : IsDigits d) {c : UInt8} (hc : isDigit c = false) :
    c ∉ d := by
  intro hmem
  have := h.2 c hmem
  rw [hc] at this
  exact Bool.false_ne_true this

theorem optQuote_tail {m qr m' qr' : Bytes} (hqr : OptQuote qr) (hqr' : OptQuote qr')
    (hm : quote ∉ m) (hm' : quote ∉ m') (h : m ++ qr = m' ++ qr') : m = m' ∧ qr = qr' := by
  rcases hqr with rfl | rfl <;> rcases hqr' with rfl | rfl
  · simpa using h
  · exfalso; apply hm
    rw [List.append_nil] at h
    rw [h]; simp
  · exfalso; apply hm'
    rw [List.append_nil] at h
    rw [← h]; simp
  · exact ⟨List.append_cancel_right h, rfl⟩

theorem optQuote_split {ql m qr ql' m' qr' : Bytes} (hql : OptQuote ql) (hqr : OptQuote qr)
    (hql' : OptQuote ql') (hqr' : OptQuote qr') (hm : quote ∉ m) (hm' : quote ∉ m')
    (hne : m ≠ []) (hne' : m' ≠ []) (h : ql ++ m ++ qr = ql' ++ m' ++ qr') :
    ql = ql' ∧ m = m' ∧ qr = qr' := by
  rcases hql with rfl | rfl <;> rcases hql' with rfl | rfl
  · simp only [List.nil_append] at h
    exact ⟨rfl, optQuote_tail hqr hqr' hm hm' h⟩
  · exfalso
    cases m with
    | nil => exact hne rfl
    | cons x xs =>
      simp only [List.nil_append, List.cons_append, List.cons.injEq, List.singleton_append] at h
      exact hm (h.1 ▸ List.mem_cons_self _ _)
  · exfalso
    cases m' with
    | nil => exact hne' rfl
    | cons x xs =>
      simp only [List.nil_append, List.cons_append, List.cons.injEq, List.singleton_append] at h
      exact hm' (h.1 ▸ List.mem_cons_self _ _)
  · simp only [List.singleton_append, List.cons_append, List.cons.injEq, true_and] at h
    exact ⟨rfl, optQuote_tail hqr hqr' hm hm' h⟩

/-- Two digit strings, each followed by a byte that is no digit: the splits agree. -/
theorem digits_split {d d' r r' : Bytes} {c c' : UInt8} (hd : ∀ x ∈ d, isDigit x = true)
    (hd' : ∀ x ∈ d', isDigit x = true) (hc : isDigit c = false) (hc' : isDigit c' = false)
    (h : d ++ c :: r = d' ++ c' :: r') : d = d' ∧ c = c' ∧ r = r' := by
  induction d generalizing d' with
  | nil =>
    cases d' with
    | nil => simpa using h
    | cons y ys =>
      exfalso
      simp only [List.nil_append, List.cons_append, List.cons.injEq] at h
      have := hd' y (List.mem_cons_self _ _)
      rw [← h.1, hc] at this
      exact Bool.false_ne_true this
  | cons x xs ih =>
    cases d' with
    | nil =>
      exfalso
      simp only [List.nil_append, List.cons_append, List.cons.injEq] at h
      have := hd x (List.mem_cons_self _ _)
      rw [h.1, hc'] at this
      exact Bool.false_ne_true this
    | cons y ys =>
      simp only [List.cons_append, List.cons.injEq] at h
      obtain ⟨h1, h2, h3⟩ := ih (fun z hz => hd z (List.mem_cons_of_mem _ hz))
        (fun z hz => hd' z (List.mem_cons_of_mem _ hz)) h.2
      exact ⟨by rw [h.1, h1], h2, h3⟩

theorem matches_quotedRe (body : Regexp) (w : Bytes) (caps : List Bytes) :
    (quotedRe body).Matches w caps ↔
      ∃ ql m qr c, OptQuote ql ∧ OptQuote qr ∧ w = ql ++ m ++ qr ∧ body.Matches m c ∧
        caps = m :: c := by
  simp only [quotedRe, Regexp.Matches, Regexp.numSubexp, List.replicate_zero]
  constructor
  · rintro ⟨w1, w2, c1, c2, rfl, rfl, h1, w3, w4, c3, c4, rfl, rfl, ⟨c, rfl, hb⟩, h4⟩
    refine ⟨w1, w3, w4, c, ?_, ?_, by simp, hb, ?_⟩
    · rcases h1 with ⟨rfl, -⟩ | ⟨rfl, -⟩
      · exact Or.inr rfl
      · exact Or.inl rfl
    · rcases h4 with ⟨rfl, -⟩ | ⟨rfl, -⟩
      · exact Or.inr rfl
      · exact Or.inl rfl
    · rcases h1 with ⟨-, rfl⟩ | ⟨-, rfl⟩ <;> rcases h4 with ⟨-, rfl⟩ | ⟨-, rfl⟩ <;> simp
  · rintro ⟨ql, m, qr, c, hql, hqr, rfl, hb, rfl⟩
    refine ⟨ql, m ++ qr, [], m :: c, by simp, by simp, ?_, m, qr, m :: c, [], rfl, by simp,
      ⟨c, rfl, hb⟩, ?_⟩
    · rcases hql with rfl | rfl
      · exact Or.inr ⟨rfl, rfl⟩
      · exact Or.inl ⟨rfl, rfl⟩
    · rcases hqr with rfl | rfl
      · exact Or.inr ⟨rfl, rfl⟩
      · exact Or.inl ⟨rfl, rfl⟩

/-! ## The three patterns -/

theorem matches_onlyStartBody (m : Bytes) (c : List Bytes) :
    (Regexp.cat (.group .digits) (.byte 43)).Matches m c ↔
      ∃ d, IsDigits d ∧ m = d ++ [43] ∧ c = [d] := by
  simp only [Regexp.Matches]
  constructor
  · rintro ⟨w1, w2, c1, c2, rfl, rfl, ⟨c, rfl, hd, rfl⟩, rfl, rfl⟩
    exact ⟨w1, hd, rfl, rfl⟩
  · rintro ⟨d, hd, rfl, rfl⟩
    exact ⟨d, [43], [d], [], rfl, rfl, ⟨[], rfl, hd, rfl⟩, rfl, rfl⟩

theorem matches_startStopBody (m : Bytes) (c : List Bytes) :
    (Regexp.cat (.group .digits) (.cat (.byte 45) (.group .digits))).Matches m c ↔
      ∃ d e, IsDigits d ∧ IsDigits e ∧ m = d ++ 45 :: e ∧ c = [d, e] := by
  simp only [Regexp.Matches]
  constructor
  · rintro ⟨w1, w2, c1, c2, rfl, rfl, ⟨c, rfl, hd, rfl⟩, w3, w4, c3, c4, rfl, rfl, ⟨rfl, rfl⟩,
      c5, rfl, he, rfl⟩
    exact ⟨w1, w4, hd, he, rfl, rfl⟩
  · rintro ⟨d, e, hd, he, rfl, rfl⟩
    exact ⟨d, 45 :: e, [d], [e], rfl, rfl, ⟨[], rfl, hd, rfl⟩, [45], e, [], [e], rfl, rfl,
      ⟨rfl, rfl⟩, [], rfl, he, rfl⟩

theorem matches_exactRe (w : Bytes) (caps : List Bytes) :
    exactRe.Matches w caps ↔
      ∃ ql d qr, OptQuote ql ∧ OptQuote qr ∧ IsDigits d ∧ w = ql ++ d ++ qr ∧ caps = [d] := by
  show (quotedRe .digits).Matches w caps ↔ _
  rw [matches_quotedRe]
  simp only [Regexp.Matches]
  constructor
  · rintro ⟨ql, m, qr, c, hql, hqr, rfl, ⟨hd, rfl⟩, rfl⟩
    exact ⟨ql, m, qr, hql, hqr, hd, rfl, rfl⟩
  · rintro ⟨ql, d, qr, hql, hqr, hd, rfl, rfl⟩
    exact ⟨ql, d, qr, [], hql, hqr, rfl, ⟨hd, rfl⟩, rfl⟩

theorem matches_onlyStartRe (w : Bytes) (caps : List Bytes) :
    onlyStartRe.Matches w caps ↔
      ∃ ql d qr, OptQuote ql ∧ OptQuote qr ∧ IsDigits d ∧ w = ql ++ (d ++ [43]) ++ qr ∧
        caps = [d ++ [43], d] := by
  show (quotedRe (.cat (.group .digits) (.byte 43))).Matches w caps ↔ _
  rw [matches_quotedRe]
  simp only [matches_onlyStartBody]
  constructor
  · rintro ⟨ql, m, qr, c, hql, hqr, rfl, ⟨d, hd, rfl, rfl⟩, rfl⟩
    exact ⟨ql, d, qr, hql, hqr, hd, rfl, rfl⟩
  · rintro ⟨ql, d, qr, hql, hqr, hd, rfl, rfl⟩
    exact ⟨ql, d ++ [43], qr, [d], hql, hqr, rfl, ⟨d, hd, rfl, rfl⟩, rfl⟩

theorem matches_startStopRe (w : Bytes) (caps : List Bytes) :
    startStopRe.Matches w caps ↔
      ∃ ql d e qr, OptQuote ql ∧ OptQuote qr ∧ IsDigits d ∧ IsDigits e ∧
        w = ql ++ (d ++ 45 :: e) ++ qr ∧ caps = [d ++ 45 :: e, d, e] := by
  show (quotedRe (.cat (.group .digits) (.cat (.byte 45) (.group .digits)))).Matches w caps ↔ _
  rw [matches_quotedRe]
  simp only [matches_startStopBody]
  constructor
  · rintro ⟨ql, m, qr, c, hql, hqr, rfl, ⟨d, e, hd, he, rfl, rfl⟩, rfl⟩
    exact ⟨ql, d, e, qr, hql, hqr, hd, he, rfl, rfl⟩
  · rintro ⟨ql, d, e, qr, hql, hqr, hd, he, rfl, rfl⟩
    exact ⟨ql, d ++ 45 :: e, qr, [d, e], hql, hqr, rfl, ⟨d, e, hd, he, rfl, rfl⟩, rfl⟩

theorem IsDigits.digits_plain {d : Bytes} (h : IsDigits d) : quote ∉ d ∧ d ≠ [] :=
  ⟨h.not_mem isDigit_quote, h.1⟩

theorem IsOnlyStart.onlyStart_plain {m : Bytes} (h : IsOnlyStart m) : quote ∉ m ∧ m ≠ [] := by
  obtain ⟨d, hd, rfl⟩ := h
  refine ⟨?_, by simp⟩
  simp only [List.mem_append, List.mem_singleton, not_or]
  exact ⟨hd.not_mem isDigit_quote, by decide⟩

theorem IsStartStop.startStop_plain {m : Bytes} (h : IsStartStop m) : quote ∉ m ∧ m ≠ [] := by
  obtain ⟨d, e, hd, he, rfl⟩ := h
  refine ⟨?_, by simp⟩
  simp only [List.mem_append, List.mem_cons, not_or]
  exact ⟨hd.not_mem isDigit_quote, by decide, he.not_mem isDigit_quote⟩

theorem digits_not_onlyStart {m : Bytes} (h1 : IsDigits m) (h2 : IsOnlyStart m) : False := by
  obtain ⟨d, -, rfl⟩ := h2
  exact h1.not_mem (c := 43) (by decide) (by simp)

theorem digits_not_startStop {m : Bytes} (h1 : IsDigits m) (h2 : IsStartStop m) : False := by
  obtain ⟨d, e, -, -, rfl⟩ := h2
  exact h1.not_mem (c := 45) (by decide) (by simp)

theorem onlyStart_not_startStop {m : Bytes} (h1 : IsOnlyStart m) (h2 : IsStartStop m) :
    False := by
  obtain ⟨d, hd, rfl⟩ := h1
  obtain ⟨d', e, hd', -, h⟩ := h2
  have := (digits_split hd.2 hd'.2 (by decide) (by decide) h).2.1
  exact absurd this (by decide)

/-- Two quoted readings of the same token have the same word in the middle. -/
theorem quoted_excl {P Q : Bytes → Prop} (hP : ∀ m, P m → quote ∉ m ∧ m ≠ [])
    (hQ : ∀ m, Q m → quote ∉ m ∧ m ≠ []) (hPQ : ∀ m, P m → Q m → False) {w : Bytes}
    (h1 : Quoted P w) (h2 : Quoted Q w) : False := by
  obtain ⟨ql, m, qr, hql, hqr, hm, rfl⟩ := h1
  obtain ⟨ql', m', qr', hql', hqr', hm', h⟩ := h2
  obtain ⟨-, rfl, -⟩ := optQuote_split hql hqr hql' hqr' (hP _ hm).1 (hQ _ hm').1 (hP _ hm).2
    (hQ _ hm').2 h
  exact hPQ _ hm hm'

theorem exactRe_matches_iff (w : Bytes) : (∃ caps, exactRe.Matches w caps) ↔ Quoted IsDigits w := by
  simp only [matches_exactRe, Quoted]
  constructor
  · rintro ⟨caps, ql, d, qr, hql, hqr, hd, rfl, -⟩
    exact ⟨ql, d, qr, hql, hqr, hd, rfl⟩
  · rintro ⟨ql, d, qr, hql, hqr, hd, rfl⟩
    exact ⟨_, ql, d, qr, hql, hqr, hd, rfl, rfl⟩

theorem onlyStartRe_matches_iff (w : Bytes) :
    (∃ caps, onlyStartRe.Matches w caps) ↔ Quoted IsOnlyStart w := by
  simp only [matches_onlyStartRe, Quoted, IsOnlyStart]
  constructor
  · rintro ⟨caps, ql, d, qr, hql, hqr, hd, rfl, -⟩
    exact ⟨ql, _, qr, hql, hqr, ⟨d, hd, rfl⟩, rfl⟩
  · rintro ⟨ql, m, qr, hql, hqr, ⟨d, hd, rfl⟩, rfl⟩
    exact ⟨_, ql, d, qr, hql, hqr, hd, rfl, rfl⟩

theorem startStopRe_matches_iff (w : Bytes) :
    (∃ caps, startStopRe.Matches w caps) ↔ Quoted IsStartStop w := by
  simp only [matches_startStopRe, Quoted, IsStartStop]
  constructor
  · rintro ⟨caps, ql, d, e, qr, hql, hqr, hd, he, rfl, -⟩
    exact ⟨ql, _, qr, hql, hqr, ⟨d, e, hd, he, rfl⟩, rfl⟩
  · rintro ⟨ql, m, qr, hql, hqr, ⟨d, e, hd, he, rfl⟩, rfl⟩
    exact ⟨_, ql, d, e, qr, hql, hqr, hd, he, rfl, rfl⟩

theorem FindSubmatch_exactRe_nil (w : Bytes) :
    exactRe.FindSubmatch w = [] ↔ ¬ Quoted IsDigits w := by
  rw [FindSubmatch_eq_nil, ← exactRe_matches_iff, not_exists]

theorem FindSubmatch_onlyStartRe_nil (w : Bytes) :
    onlyStartRe.FindSubmatch w = [] ↔ ¬ Quoted IsOnlyStart w := by
  rw [FindSubmatch_eq_nil, ← onlyStartRe_matches_iff, not_exists]

theorem FindSubmatch_startStopRe_nil (w : Bytes) :
    startStopRe.FindSubmatch w = [] ↔ ¬ Quoted IsStartStop w := by
  rw [FindSubmatch_eq_nil, ← startStopRe_matches_iff, not_exists]

theorem FindSubmatch_exactRe {ql d qr : Bytes} (hql : OptQuote ql) (hqr : OptQuote qr)
    (hd : IsDigits d) : exactRe.FindSubmatch (ql ++ d ++ qr) = [ql ++ d ++ qr, d] := by
  apply FindSubmatch_of_unique
  · exact (matches_exactRe _ _).2 ⟨ql, d, qr, hql, hqr, hd, rfl, rfl⟩
  · intro c hc
    obtain ⟨ql', d', qr', hql', hqr', hd', h, rfl⟩ := (matches_exactRe _ _).1 hc
    obtain ⟨-, rfl, -⟩ := optQuote_split hql hqr hql' hqr' hd.digits_plain.1 hd'.digits_plain.1 hd.digits_plain.2
      hd'.digits_plain.2 h
    rfl

theorem FindSubmatch_onlyStartRe {ql d qr : Bytes} (hql : OptQuote ql) (hqr : OptQuote qr)
    (hd : IsDigits d) :
    onlyStartRe.FindSubmatch (ql ++ (d ++ [43]) ++ qr) = [ql ++ (d ++ [43]) ++ qr, d ++ [43], d] := by
  apply FindSubmatch_of_unique
  · exact (matches_onlyStartRe _ _).2 ⟨ql, d, qr, hql, hqr, hd, rfl, rfl⟩
  · intro c hc
    obtain ⟨ql', d', qr', hql', hqr', hd', h, rfl⟩ := (matches_onlyStartRe _ _).1 hc
    have h1 : IsOnlyStart (d ++ [43]) := ⟨d, hd, rfl⟩
    have h2 : IsOnlyStart (d' ++ [43]) := ⟨d', hd', rfl⟩
    obtain ⟨-, hm, -⟩ := optQuote_split hql hqr hql' hqr' h1.onlyStart_plain.1 h2.onlyStart_plain.1 h1.onlyStart_plain.2
      h2.onlyStart_plain.2 h
    obtain ⟨rfl, -, -⟩ := digits_split hd.2 hd'.2 (by decide) (by decide) hm
    rfl

theorem FindSubmatch_startStopRe {ql d e qr : Bytes} (hql : OptQuote ql) (hqr : OptQuote qr)
    (hd : IsDigits d) (he : IsDigits e) :
    startStopRe.FindSubmatch (ql ++ (d ++ 45 :: e) ++ qr) =
      [ql ++ (d ++ 45 :: e) ++ qr, d ++ 45 :: e, d, e] := by
  apply FindSubmatch_of_unique
  · exact (matches_startStopRe _ _).2 ⟨ql, d, e, qr, hql, hqr, hd, he, rfl, rfl⟩
  · intro c hc
    obtain ⟨ql', d', e', qr', hql', hqr', hd', he', h, rfl⟩ := (matches_startStopRe _ _).1 hc
    have h1 : IsStartStop (d ++ 45 :: e) := ⟨d, e, hd, he, rfl⟩
    have h2 : IsStartStop (d' ++ 45 :: e') := ⟨d', e', hd', he', rfl⟩
    obtain ⟨-, hm, -⟩ := optQuote_split hql hqr hql' hqr' h1.startStop_plain.1 h2.startStop_plain.1 h1.startStop_plain.2
      h2.startStop_plain.2 h
    obtain ⟨rfl, -, rfl⟩ := digits_split hd.2 hd'.2 (by decide) (by decide) hm
    rfl

/-! ## `strconv.Atoi` on digit strings -/

theorem decVal_nil : decVal [] = 0 := by simp [decVal]

theorem decVal_cons (c : UInt8) (cs : Bytes) :
    decVal (c :: cs) = (c.toNat - 48) * 10 ^ cs.length + decVal cs := by
  simp only [decVal, List.map_cons, List.reverse_cons, Nat.ofDigits_append, Nat.ofDigits_singleton,
    List.length_reverse, List.length_map]
  ring

theorem isDigit_iff (c : UInt8) : isDigit c = true ↔ 48 ≤ c.toNat ∧ c.toNat ≤ 57 := by
  simp only [isDigit, Bool.and_eq_true, decide_eq_true_eq, UInt8.le_def, Fin.le_def]
  rfl

theorem decVal_lt (d : Bytes) (hd : ∀ c ∈ d, isDigit c = true) : decVal d < 10 ^ d.length := by
  induction d with
  | nil => simp [decVal_nil]
  | cons c cs ih =>
    have h1 := ih (fun z hz => hd z (List.mem_cons_of_mem _ hz))
    have h2 := (isDigit_iff c).1 (hd c (List.mem_cons_self _ _))
    rw [decVal_cons, List.length_cons, pow_succ]
    have h3 : c.toNat - 48 ≤ 9 := by omega
    nlinarith [Nat.mul_le_mul_right (10 ^ cs.length) h3]

theorem atoiLoop_digits (d : Bytes) (n : Nat) (hd : ∀ c ∈ d, isDigit c = true) :
    atoiLoop d n = some (n * 10 ^ d.length + decVal d) := by
  induction d generalizing n with
  | nil => simp [atoiLoop, decVal_nil]
  | cons c cs ih =>
    rw [atoiLoop, if_pos (hd c (List.mem_cons_self _ _)),
      ih _ (fun z hz => hd z (List.mem_cons_of_mem _ hz)), decVal_cons, List.length_cons, pow_succ]
    congr 1
    ring

theorem parseUintLoop_digits (d : Bytes) (n : Nat) (hn : n ≤ 2 ^ 64 - 1)
    (hd : ∀ c ∈ d, isDigit c = true) :
    parseUintLoop d n =
      if n * 10 ^ d.length + decVal d ≤ 2 ^ 64 - 1 then .ok (n * 10 ^ d.length + decVal d)
      else .error .ErrRange := by
  induction d generalizing n with
  | nil =>
    rw [parseUintLoop, List.length_nil, pow_zero, mul_one, decVal_nil, add_zero, if_pos hn]
  | cons c cs ih =>
    have hc := hd c (List.mem_cons_self _ _)
    have hpos : 0 < 10 ^ cs.length := Nat.pos_pow_of_pos _ (by norm_num)
    have hexp : n * 10 ^ (cs.length + 1) + decVal (c :: cs) =
        (n * 10 + (c.toNat - 48)) * 10 ^ cs.length + decVal cs := by
      rw [decVal_cons, pow_succ]; ring
    rw [parseUintLoop, List.length_cons, hexp]
    simp only [hc, Bool.not_true, Bool.false_eq_true, if_false]
    have hge : n * 10 + (c.toNat - 48) ≤ (n * 10 + (c.toNat - 48)) * 10 ^ cs.length :=
      Nat.le_mul_of_pos_right _ hpos
    by_cases h1 : n ≥ (2 ^ 64 - 1) / 10 + 1
    · rw [if_pos h1, if_neg]
      have : (2 ^ 64 - 1) / 10 + 1 = 1844674407370955162 := by norm_num
      rw [this] at h1
      have : (2 : Nat) ^ 64 - 1 = 18446744073709551615 := by norm_num
      rw [this]
      omega
    · rw [if_neg h1]
      by_cases h2 : n * 10 + (c.toNat - 48) > 2 ^ 64 - 1
      · rw [if_pos h2, if_neg]
        omega
      · rw [if_neg h2, ih _ (by omega) (fun z hz => hd z (List.mem_cons_of_mem _ hz))]

theorem head_not_sign (d : Bytes) (hd : IsDigits d) :
    ¬ (d.head? = some 43 ∨ d.head? = some 45) ∧ ¬ d.head? = some 45 := by
  obtain ⟨hne, hall⟩ := hd
  cases d with
  | nil => exact absurd rfl hne
  | cons x xs =>
    have hx := hall x (List.mem_cons_self _ _)
    simp only [List.head?_cons, Option.some.injEq]
    refine ⟨?_, ?_⟩
    · rintro (rfl | rfl) <;> exact absurd hx (by decide)
    · rintro rfl; exact absurd hx (by decide)

theorem ParseInt_digits (d : Bytes) (hd : IsDigits d) :
    ParseInt d = if decVal d < 2 ^ 63 then .ok (decVal d : Int) else .error .ErrRange := by
  obtain ⟨hs1, hs2⟩ := head_not_sign d hd
  have hne := hd.1
  have hall := hd.2
  have e63 : (2 : Nat) ^ 63 = 9223372036854775808 := by norm_num
  have e64 : (2 : Nat) ^ 64 - 1 = 18446744073709551615 := by norm_num
  unfold ParseInt
  dsimp only
  rw [if_neg hne, if_neg hs1, if_neg hne, parseUintLoop_digits d 0 (by norm_num) hall, zero_mul,
    zero_add]
  by_cases h2 : decVal d ≤ 2 ^ 64 - 1
  · rw [if_pos h2]
    dsimp only
    simp only [hs2, decide_False, Bool.not_false, Bool.true_and, Bool.false_and,
      decide_eq_true_eq, Bool.false_eq_true, if_false]
    by_cases h1 : decVal d < 2 ^ 63
    · rw [if_neg (by omega), if_pos h1]
    · rw [if_pos (by omega), if_neg h1]
  · rw [if_neg h2, if_neg (by omega)]

/-- On a string of digits `strconv.Atoi` returns the number it denotes when that
is at most `2^63 - 1`, and a range error otherwise. -/
theorem Atoi_digits (d : Bytes) (hd : IsDigits d) :
    Atoi d = if decVal d < 2 ^ 63 then .ok (decVal d : Int)
      else .error (.numError (str "Atoi") d .ErrRange) := by
  obtain ⟨hs1, hs2⟩ := head_not_sign d hd
  have hne := hd.1
  have hall := hd.2
  unfold Atoi
  by_cases hlen : 0 < d.length ∧ d.length < 19
  · rw [if_pos hlen]
    dsimp only
    rw [if_neg hs1, if_neg hne, atoiLoop_digits d 0 hall, zero_mul, zero_add]
    dsimp only
    have h1 := decVal_lt d hall
    have h2 : 10 ^ d.length ≤ 10 ^ 18 := Nat.pow_le_pow_right (by norm_num) (by omega)
    have h3 : (10 : Nat) ^ 18 < 2 ^ 63 := by norm_num
    rw [if_neg hs2, if_pos (lt_of_lt_of_le h1 (le_of_lt (lt_of_le_of_lt h2 h3)))]
  · rw [if_neg hlen, ParseInt_digits d hd]
    by_cases h1 : decVal d < 2 ^ 63
    · rw [if_pos h1, if_pos h1]
    · rw [if_neg h1, if_neg h1]

/-! ## The branches of `Range.UnmarshalJSON` -/

theorem UnmarshalJSON_onlyStart (r : Range) {ql d qr : Bytes} (hql : OptQuote ql)
    (hqr : OptQuote qr) (hd : IsDigits d) :
    r.UnmarshalJSON (ql ++ (d ++ [43]) ++ qr) =
      match Atoi d with
      | .error err => ({ r with Value := d ++ [43] }, some err)
      | .ok b => ({ r with Value := d ++ [43], Begin := b }, none) := by
  unfold Range.UnmarshalJSON
  dsimp only
  rw [FindSubmatch_onlyStartRe hql hqr hd]
  simp only [List.length_cons, List.length_nil, if_true, List.getD_cons_succ, List.getD_cons_zero]

theorem UnmarshalJSON_startStop (r : Range) {ql d e qr : Bytes} (hql : OptQuote ql)
    (hqr : OptQuote qr) (hd : IsDigits d) (he : IsDigits e) :
    r.UnmarshalJSON (ql ++ (d ++ 45 :: e) ++ qr) =
      match Atoi d with
      | .error err => ({ r with Value := d ++ 45 :: e }, some err)
      | .ok b =>
        match Atoi e with
        | .error err => ({ r with Value := d ++ 45 :: e, Begin := b }, some err)
        | .ok n => ({ r with Value := d ++ 45 :: e, Begin := b, End := n }, none) := by
  have hq : Quoted IsStartStop (ql ++ (d ++ 45 :: e) ++ qr) :=
    ⟨ql, _, qr, hql, hqr, ⟨d, e, hd, he, rfl⟩, rfl⟩
  have h1 : onlyStartRe.FindSubmatch (ql ++ (d ++ 45 :: e) ++ qr) = [] :=
    (FindSubmatch_onlyStartRe_nil _).2 (fun h =>
      quoted_excl (fun _ => IsOnlyStart.onlyStart_plain) (fun _ => IsStartStop.startStop_plain)
        (fun _ => onlyStart_not_startStop) h hq)
  unfold Range.UnmarshalJSON
  dsimp only
  rw [h1, FindSubmatch_startStopRe hql hqr hd he]
  simp only [List.length_cons, List.length_nil, if_true, List.getD_cons_succ, List.getD_cons_zero]
  rfl

theorem UnmarshalJSON_exact (r : Range) {ql d qr : Bytes} (hql : OptQuote ql)
    (hqr : OptQuote qr) (hd : IsDigits d) :
    r.UnmarshalJSON (ql ++ d ++ qr) =
      match Atoi d with
      | .error err => ({ r with Value := d }, some err)
      | .ok b => ({ r with Value := d, Begin := b, End := b }, none) := by
  have hq : Quoted IsDigits (ql ++ d ++ qr) := ⟨ql, _, qr, hql, hqr, hd, rfl⟩
  have h1 : onlyStartRe.FindSubmatch (ql ++ d ++ qr) = [] :=
    (FindSubmatch_onlyStartRe_nil _).2 (fun h =>
      quoted_excl (fun _ => IsDigits.digits_plain) (fun _ => IsOnlyStart.onlyStart_plain)
        (fun _ => digits_not_onlyStart) hq h)
  have h2 : startStopRe.FindSubmatch (ql ++ d ++ qr) = [] :=
    (FindSubmatch_startStopRe_nil _).2 (fun h =>
      quoted_excl (fun _ => IsDigits.digits_plain) (fun _ => IsStartStop.startStop_plain)
        (fun _ => digits_not_startStop) hq h)
  unfold Range.UnmarshalJSON
  dsimp only
  rw [h1, h2, FindSubmatch_exactRe hql hqr hd]
  simp only [List.length_cons, List.length_nil, if_true, List.getD_cons_succ, List.getD_cons_zero]
  rfl

theorem UnmarshalJSON_none (r : Range) (bytes : Bytes)
    (h : bytes = str "none" ∨ bytes = str "\"none\"") :
    r.UnmarshalJSON bytes = ({ r with Value := str "none" }, none) := by
  have h1 : onlyStartRe.FindSubmatch bytes = [] := by
    rcases h with rfl | rfl <;> decide
  have h2 : startStopRe.FindSubmatch bytes = [] := by
    rcases h with rfl | rfl <;> decide
  have h3 : exactRe.FindSubmatch bytes = [] := by
    rcases h with rfl | rfl <;> decide
  unfold Range.UnmarshalJSON
  dsimp only
  rw [h1, h2, h3]
  simp only [List.length_nil, if_pos h]
  rfl

theorem UnmarshalJSON_invalid (r : Range) (bytes : Bytes) (h1 : ¬ Quoted IsOnlyStart bytes)
    (h2 : ¬ Quoted IsStartStop bytes) (h3 : ¬ Quoted IsDigits bytes)
    (h4 : ¬ (bytes = str "none" ∨ bytes = str "\"none\"")) :
    r.UnmarshalJSON bytes = (r, some (.errorf (str "invalid range: " ++ bytes))) := by
  unfold Range.UnmarshalJSON
  dsimp only
  rw [(FindSubmatch_onlyStartRe_nil _).2 h1, (FindSubmatch_startStopRe_nil _).2 h2,
    (FindSubmatch_exactRe_nil _).2 h3]
  simp only [List.length_nil, if_neg h4]
  rfl

theorem quoted_wrap_iff {P : Bytes → Prop} (hP : ∀ m, P m → quote ∉ m ∧ m ≠ []) {t : Bytes} :
    Quoted P (quote :: t ++ [quote]) ↔ P t := by
  constructor
  · rintro ⟨ql, m, qr, hql, hqr, hm, h⟩
    obtain ⟨hq, hne⟩ := hP m hm
    rcases hql with rfl | rfl
    · exfalso
      cases m with
      | nil => exact hne rfl
      | cons x xs =>
        simp only [List.nil_append, List.cons_append, List.cons.injEq] at h
        exact hq (h.1 ▸ List.mem_cons_self _ _)
    · simp only [List.singleton_append, List.cons_append, List.cons.injEq, true_and] at h
      rcases hqr with rfl | rfl
      · exfalso
        have hm' : m = t ++ [quote] := by simpa using h.symm
        exact hq (hm' ▸ by simp)
      · exact (List.append_cancel_right h) ▸ hm
  · intro h
    exact ⟨[quote], t, [quote], Or.inr rfl, Or.inr rfl, h, by simp⟩

theorem quoted_plain_iff {P : Bytes → Prop} {t : Bytes} (ht : quote ∉ t) :
    Quoted P t ↔ P t := by
  constructor
  · rintro ⟨ql, m, qr, hql, hqr, hm, rfl⟩
    rcases hql with rfl | rfl
    · rcases hqr with rfl | rfl
      · simpa using hm
      · exact absurd (by simp) ht
    · exact absurd (by simp) ht
  · intro h
    exact ⟨[], t, [], Or.inl rfl, Or.inl rfl, h, by simp⟩

/-- The raw text stored for a token of one of the four forms is the token. -/
theorem UnmarshalJSON_value_of_form (r : Range) (t : Bytes) (hf : IsForm t) :
    (r.UnmarshalJSON t).1.Value = t := by
  rcases hf with ⟨d, hd, rfl⟩ | ⟨d, e, hd, he, rfl⟩ | hd | rfl
  · have h := @UnmarshalJSON_onlyStart r [] _ [] (Or.inl rfl) (Or.inl rfl) hd
    rw [List.nil_append, List.append_nil] at h
    rw [h]
    cases Atoi d <;> rfl
  · have h := @UnmarshalJSON_startStop r [] _ _ [] (Or.inl rfl) (Or.inl rfl) hd he
    rw [List.nil_append, List.append_nil] at h
    rw [h]
    cases Atoi d with
    | error _ => rfl
    | ok _ => cases Atoi e <;> rfl
  · have h := @UnmarshalJSON_exact r [] _ [] (Or.inl rfl) (Or.inl rfl) hd
    rw [List.nil_append, List.append_nil] at h
    rw [h]
    cases Atoi t <;> rfl
  · rw [UnmarshalJSON_none r _ (Or.inl rfl)]

/-- A token without a double quote and the same token in double quotes: either
the parser does the same on both, or it rejects both. -/
theorem UnmarshalJSON_quoted (r : Range) (t : Bytes) (ht : quote ∉ t) :
    (IsForm t ∧ r.UnmarshalJSON (quote :: t ++ [quote]) = r.UnmarshalJSON t) ∨
      ((r.UnmarshalJSON (quote :: t ++ [quote])).2 ≠ none ∧ (r.UnmarshalJSON t).2 ≠ none) := by
  have e : quote :: t ++ [quote] = [quote] ++ t ++ [quote] := by simp
  by_cases h1 : IsOnlyStart t
  · left
    refine ⟨Or.inl h1, ?_⟩
    obtain ⟨d, hd, rfl⟩ := h1
    have h := @UnmarshalJSON_onlyStart r [] _ [] (Or.inl rfl) (Or.inl rfl) hd
    rw [List.nil_append, List.append_nil] at h
    rw [e, h, UnmarshalJSON_onlyStart r (Or.inr rfl) (Or.inr rfl) hd]
  by_cases h2 : IsStartStop t
  · left
    refine ⟨Or.inr (Or.inl h2), ?_⟩
    obtain ⟨d, e', hd, he, rfl⟩ := h2
    have h := @UnmarshalJSON_startStop r [] _ _ [] (Or.inl rfl) (Or.inl rfl) hd he
    rw [List.nil_append, List.append_nil] at h
    rw [e, h, UnmarshalJSON_startStop r (Or.inr rfl) (Or.inr rfl) hd he]
  by_cases h3 : IsDigits t
  · left
    refine ⟨Or.inr (Or.inr (Or.inl h3)), ?_⟩
    have h := @UnmarshalJSON_exact r [] _ [] (Or.inl rfl) (Or.inl rfl) h3
    rw [List.nil_append, List.append_nil] at h
    rw [e, h, UnmarshalJSON_exact r (Or.inr rfl) (Or.inr rfl) h3]
  by_cases h4 : t = str "none"
  · left
    refine ⟨Or.inr (Or.inr (Or.inr h4)), ?_⟩
    subst h4
    rw [UnmarshalJSON_none r _ (Or.inl rfl), UnmarshalJSON_none r _ (Or.inr (by decide))]
  · right
    have hq : ¬ (quote :: t ++ [quote] = str "none" ∨ quote :: t ++ [quote] = str "\"none\"") := by
      rintro (h | h)
      · exact absurd h (by
          have : str "none" = [110, 111, 110, 101] := by decide
          rw [this]; simp [quote])
      · apply h4
        have h5 : str "\"none\"" = quote :: str "none" ++ [quote] := by decide
        rw [h5] at h
        simp only [List.cons_append, List.cons.injEq, true_and] at h
        exact List.append_cancel_right h
    have hn : ¬ (t = str "none" ∨ t = str "\"none\"") := by
      rintro (h | h)
      · exact h4 h
      · apply ht
        rw [h]; decide
    rw [UnmarshalJSON_invalid r _ (fun h => h1 ((quoted_wrap_iff (fun _ => IsOnlyStart.onlyStart_plain)).1 h))
        (fun h => h2 ((quoted_wrap_iff (fun _ => IsStartStop.startStop_plain)).1 h))
        (fun h => h3 ((quoted_wrap_iff (fun _ => IsDigits.digits_plain)).1 h)) hq,
      UnmarshalJSON_invalid r _ (fun h => h1 ((quoted_plain_iff ht).1 h))
        (fun h => h2 ((quoted_plain_iff ht).1 h)) (fun h => h3 ((quoted_plain_iff ht).1 h)) hn]
    exact ⟨by simp, by simp⟩

/-! ## The claims -/

/-- C1: for every number `b ≤ 2^63 - 1` and every string `d` of ASCII decimal
digits that denotes `b`, `Range.UnmarshalJSON` on the token `d` and a zero-valued
`Range` returns no error and leaves `Value = d`, `Begin = b` and `End = b`. -/
theorem C1_exact (b : Nat) (d : Bytes) (hb : b ≤ 2 ^ 63 - 1) (hd : Denotes d b) :
    Range.zero.UnmarshalJSON d = (⟨d, b, b⟩, none) := by
  obtain ⟨hdig, hval⟩ := hd
  have h := @UnmarshalJSON_exact Range.zero [] _ [] (Or.inl rfl) (Or.inl rfl) hdig
  rw [List.nil_append, List.append_nil] at h
  have hv : decVal d = b := hval
  rw [h, Atoi_digits d hdig, hv, if_pos (by omega)]

theorem C1_exact_witness :
    Denotes (str "007") 7 ∧ Range.zero.UnmarshalJSON (str "007") = (⟨str "007", 7, 7⟩, none) :=
  ⟨by decide, C1_exact 7 (str "007") (by decide) (by decide)⟩

/-- C2: for every number `b ≤ 2^63 - 1` and every string `d` of ASCII decimal
digits that denotes `b`, `Range.UnmarshalJSON` on the token `d` followed by `+`
and a zero-valued `Range` returns no error and leaves `Value = d ++ "+"`,
`Begin = b` and `End = 0`. -/
theorem C2_open_ended (b : Nat) (d : Bytes) (hb : b ≤ 2 ^ 63 - 1) (hd : Denotes d b) :
    Range.zero.UnmarshalJSON (d ++ str "+") = (⟨d ++ str "+", b, 0⟩, none) := by
  obtain ⟨hdig, hval⟩ := hd
  have h := @UnmarshalJSON_onlyStart Range.zero [] _ [] (Or.inl rfl) (Or.inl rfl)
    hdig
  rw [List.nil_append, List.append_nil] at h
  have hv : decVal d = b := hval
  have hs : str "+" = [43] := by decide
  rw [hs, h, Atoi_digits d hdig, hv, if_pos (by omega)]
  rfl

theorem C2_open_ended_witness :
    Denotes (str "1") 1 ∧
      Range.zero.UnmarshalJSON (str "1" ++ str "+") = (⟨str "1" ++ str "+", 1, 0⟩, none) :=
  ⟨by decide, C2_open_ended 1 (str "1") (by decide) (by decide)⟩

/-- C3: for all numbers `b, e ≤ 2^63 - 1` with digit strings `db`, `de` that
denote them, `Range.UnmarshalJSON` on the token `db ++ "-" ++ de` and a
zero-valued `Range` returns no error and leaves `Value` = the token, `Begin = b`
and `End = e`; no order between `b` and `e` is asked for. -/
theorem C3_closed (b e : Nat) (db de : Bytes) (hb : b ≤ 2 ^ 63 - 1) (he : e ≤ 2 ^ 63 - 1)
    (hdb : Denotes db b) (hde : Denotes de e) :
    Range.zero.UnmarshalJSON (db ++ str "-" ++ de) = (⟨db ++ str "-" ++ de, b, e⟩, none) := by
  obtain ⟨hdig, hval⟩ := hdb
  obtain ⟨hdig', hval'⟩ := hde
  have h := @UnmarshalJSON_startStop Range.zero [] _ _ [] (Or.inl rfl) (Or.inl rfl)
    hdig hdig'
  rw [List.nil_append, List.append_nil] at h
  have hv : decVal db = b := hval
  have hv' : decVal de = e := hval'
  have hs : db ++ str "-" ++ de = db ++ 45 :: de := by
    have : str "-" = [45] := by decide
    rw [this]; simp
  rw [hs, h, Atoi_digits db hdig, Atoi_digits de hdig', hv, hv', if_pos (by omega),
    if_pos (by omega)]

theorem C3_closed_witness :
    Denotes (str "4") 4 ∧ Denotes (str "2") 2 ∧
      Range.zero.UnmarshalJSON (str "4" ++ str "-" ++ str "2") =
        (⟨str "4" ++ str "-" ++ str "2", 4, 2⟩, none) :=
  ⟨by decide, by decide,
    C3_closed 4 2 (str "4") (str "2") (by decide) (by decide) (by decide) (by decide)⟩

/-- C4: the tokens `none` and `"none"` are equivalent: on a zero-valued `Range`
both return no error and both leave `Value = "none"`, `Begin = 0`, `End = 0`. -/
theorem C4_none :
    Range.zero.UnmarshalJSON (str "none") = (⟨str "none", 0, 0⟩, none) ∧
      Range.zero.UnmarshalJSON (str "\"none\"") = (⟨str "none", 0, 0⟩, none) :=
  ⟨UnmarshalJSON_none _ _ (Or.inl rfl), UnmarshalJSON_none _ _ (Or.inr rfl)⟩

/-- C5, as the specification words it, fails: the token of a double quote
followed by `7` is none of the four forms, neither bare nor in a matching pair of
double quotes, and yet the parser accepts it. -/
theorem C5_counterexample :
    ¬ BareOrPaired IsForm (str "\"7") ∧
      Range.zero.UnmarshalJSON (str "\"7") = (⟨str "7", 7, 7⟩, none) := by
  refine ⟨?_, by decide⟩
  have e : str "\"7" = [quote, 55] := by decide
  rw [e]
  rintro (h | ⟨m, -, h⟩)
  · have hq : quote ∉ [quote, 55] := by
      rcases h with h | h | h | h
      · exact h.onlyStart_plain.1
      · exact h.startStop_plain.1
      · exact h.digits_plain.1
      · exact absurd h (by decide)
    exact hq (by simp)
  · cases m with
    | nil => exact absurd h (by decide)
    | cons x xs =>
      simp only [List.cons_append, List.cons.injEq, true_and] at h
      have := h.2
      cases xs <;> simp at this

/-- C5, amended: for every token that is neither `none` nor `"none"` nor one of
the three numeric forms `digits+`, `digits-digits`, `digits` with at most one
double quote before it and at most one after it (each independently of the
other), `Range.UnmarshalJSON` returns the error whose message is
`invalid range: ` followed by the token. -/
theorem C5_rejects (r : Range) (t : Bytes) (h : ¬ HasBranch t) :
    (r.UnmarshalJSON t).2 = some (.errorf (str "invalid range: " ++ t)) := by
  unfold HasBranch at h
  rw [UnmarshalJSON_invalid r t (fun h1 => h (Or.inl h1)) (fun h2 => h (Or.inr (Or.inl h2)))
    (fun h3 => h (Or.inr (Or.inr (Or.inl h3)))) (fun h4 => h (Or.inr (Or.inr (Or.inr h4))))]

theorem C5_rejects_witness :
    ¬ HasBranch (str "bogus") ∧
      (Range.zero.UnmarshalJSON (str "bogus")).2 =
        some (.errorf (str "invalid range: " ++ str "bogus")) :=
  have h : ¬ HasBranch (str "bogus") := by
    rintro (h | h | h | h)
    · exact (FindSubmatch_onlyStartRe_nil _).1 (by decide) h
    · exact (FindSubmatch_startStopRe_nil _).1 (by decide) h
    · exact (FindSubmatch_exactRe_nil _).1 (by decide) h
    · exact absurd h (by decide)
  ⟨h, C5_rejects Range.zero (str "bogus") h⟩

/-- C6: for every token `t` without a double quote, `Range.UnmarshalJSON` on a
zero-valued `Range` succeeds on `t` enclosed in double quotes exactly when it
succeeds on `t`, and on success both calls leave the same `Range`, whose `Value`
holds no double quote. -/
theorem C6_quoting (t : Bytes) (ht : quote ∉ t) :
    ((Range.zero.UnmarshalJSON (quote :: t ++ [quote])).2 = none ↔
        (Range.zero.UnmarshalJSON t).2 = none) ∧
      ((Range.zero.UnmarshalJSON t).2 = none →
        (Range.zero.UnmarshalJSON (quote :: t ++ [quote])).1 = (Range.zero.UnmarshalJSON t).1 ∧
          quote ∉ (Range.zero.UnmarshalJSON t).1.Value) := by
  rcases UnmarshalJSON_quoted Range.zero t ht with ⟨hf, h⟩ | ⟨h1, h2⟩
  · rw [h, UnmarshalJSON_value_of_form _ _ hf]
    exact ⟨Iff.rfl, fun _ => ⟨rfl, ht⟩⟩
  · exact ⟨⟨fun h => absurd h h1, fun h => absurd h h2⟩, fun h => absurd h h2⟩

theorem C6_quoting_witness :
    quote ∉ str "7" ∧
      (((Range.zero.UnmarshalJSON (quote :: str "7" ++ [quote])).2 = none ↔
        (Range.zero.UnmarshalJSON (str "7")).2 = none) ∧
      ((Range.zero.UnmarshalJSON (str "7")).2 = none →
        (Range.zero.UnmarshalJSON (quote :: str "7" ++ [quote])).1 =
            (Range.zero.UnmarshalJSON (str "7")).1 ∧
          quote ∉ (Range.zero.UnmarshalJSON (str "7")).1.Value)) :=
  ⟨by decide, C6_quoting (str "7") (by decide)⟩

/-- C7: for every token `t` of one of the four grammar forms (`digits`,
`digits+`, `digits-digits`, `none`) on which `Range.UnmarshalJSON` succeeds, the
raw text stored is the token itself: `Value = t`. -/
theorem C7_raw_round_trip (r : Range) (t : Bytes) (hf : IsForm t)
    (_hs : (r.UnmarshalJSON t).2 = none) : (r.UnmarshalJSON t).1.Value = t :=
  UnmarshalJSON_value_of_form r t hf

theorem C7_raw_round_trip_witness :
    IsForm (str "007") ∧ (Range.zero.UnmarshalJSON (str "007")).2 = none ∧
      (Range.zero.UnmarshalJSON (str "007")).1.Value = str "007" :=
  have hf : IsForm (str "007") := Or.inr (Or.inr (Or.inl (by decide)))
  ⟨hf, by decide, C7_raw_round_trip Range.zero (str "007") hf (by decide)⟩

/-- C8, as the specification words it, fails: on the token `1+` the receiver's
`End` is left as it was, so two receivers that differ in `End` end up different. -/
theorem C8_counterexample :
    (Range.mk [] 0 5).UnmarshalJSON (str "1+") = (⟨str "1+", 1, 5⟩, none) ∧
      Range.zero.UnmarshalJSON (str "1+") = (⟨str "1+", 1, 0⟩, none) ∧
      ((Range.mk [] 0 5).UnmarshalJSON (str "1+")).1 ≠ (Range.zero.UnmarshalJSON (str "1+")).1 := by
  decide

/-- C8, amended: for every token, `Range.UnmarshalJSON` returns an error that the
token alone determines, and every field of the receiver is either assigned a value
that the token alone determines or left as it was: the token fixes the error and,
for each of `Value`, `Begin` and `End`, either the value assigned or that the
field is left alone, and this describes the call on every receiver. So for any two
receivers the error is the same, and two receivers that agree on a field before
the call agree on it after the call. -/
theorem C8_receiver (t : Bytes) :
    (∃ (e : Option Error) (v : Option Bytes) (b n : Option Int), ∀ r : Range,
      r.UnmarshalJSON t = (⟨v.getD r.Value, b.getD r.Begin, n.getD r.End⟩, e)) ∧
    ∀ r1 r2 : Range,
      (r1.UnmarshalJSON t).2 = (r2.UnmarshalJSON t).2 ∧
      (r1.Value = r2.Value → (r1.UnmarshalJSON t).1.Value = (r2.UnmarshalJSON t).1.Value) ∧
      (r1.Begin = r2.Begin → (r1.UnmarshalJSON t).1.Begin = (r2.UnmarshalJSON t).1.Begin) ∧
      (r1.End = r2.End → (r1.UnmarshalJSON t).1.End = (r2.UnmarshalJSON t).1.End) := by
  have key : ∃ (e : Option Error) (v : Option Bytes) (b n : Option Int), ∀ r : Range,
      r.UnmarshalJSON t = (⟨v.getD r.Value, b.getD r.Begin, n.getD r.End⟩, e) := by
    by_cases h1 : (onlyStartRe.FindSubmatch t).length = 3
    · cases hA : Atoi ((onlyStartRe.FindSubmatch t).getD 2 []) with
      | error err =>
        refine ⟨some err, some ((onlyStartRe.FindSubmatch t).getD 1 []), none, none, ?_⟩
        intro r
        unfold Range.UnmarshalJSON
        dsimp only
        rw [if_pos h1, hA]
        rfl
      | ok begin =>
        refine ⟨none, some ((onlyStartRe.FindSubmatch t).getD 1 []), some begin, none, ?_⟩
        intro r
        unfold Range.UnmarshalJSON
        dsimp only
        rw [if_pos h1, hA]
        rfl
    · by_cases h2 : (startStopRe.FindSubmatch t).length = 4
      · cases hA : Atoi ((startStopRe.FindSubmatch t).getD 2 []) with
        | error err =>
          refine ⟨some err, some ((startStopRe.FindSubmatch t).getD 1 []), none, none, ?_⟩
          intro r
          unfold Range.UnmarshalJSON
          dsimp only
          rw [if_neg h1, if_pos h2, hA]
          rfl
        | ok begin =>
          cases hB : Atoi ((startStopRe.FindSubmatch t).getD 3 []) with
          | error err =>
            refine ⟨some err, some ((startStopRe.FindSubmatch t).getD 1 []), some begin,
              none, ?_⟩
            intro r
            unfold Range.UnmarshalJSON
            dsimp only
            rw [if_neg h1, if_pos h2, hA]
            dsimp only
            rw [hB]
            rfl
          | ok stop =>
            refine ⟨none, some ((startStopRe.FindSubmatch t).getD 1 []), some begin,
              some stop, ?_⟩
            intro r
            unfold Range.UnmarshalJSON
            dsimp only
            rw [if_neg h1, if_pos h2, hA]
            dsimp only
            rw [hB]
            rfl
      · by_cases h3 : (exactRe.FindSubmatch t).length = 2
        · cases hA : Atoi ((exactRe.FindSubmatch t).getD 1 []) with
          | error err =>
            refine ⟨some err, some ((exactRe.FindSubmatch t).getD 1 []), none, none, ?_⟩
            intro r
            unfold Range.UnmarshalJSON
            dsimp only
            rw [if_neg h1, if_neg h2, if_pos h3, hA]
            rfl
          | ok begin =>
            refine ⟨none, some ((exactRe.FindSubmatch t).getD 1 []), some begin,
              some begin, ?_⟩
            intro r
            unfold Range.UnmarshalJSON
            dsimp only
            rw [if_neg h1, if_neg h2, if_pos h3, hA]
            rfl
        · by_cases h4 : t = str "none" ∨ t = str "\"none\""
          · refine ⟨none, some (str "none"), none, none, ?_⟩
            intro r
            unfold Range.UnmarshalJSON
            dsimp only
            rw [if_neg h1, if_neg h2, if_neg h3, if_pos h4]
            rfl
          · refine ⟨some (.errorf (str "invalid range: " ++ t)), none, none, none, ?_⟩
            intro r
            unfold Range.UnmarshalJSON
            dsimp only
            rw [if_neg h1, if_neg h2, if_neg h3, if_neg h4]
            rfl
  refine ⟨key, ?_⟩
  obtain ⟨e, v, b, n, h⟩ := key
  intro r1 r2
  rw [h r1, h r2]
  refine ⟨rfl, ?_, ?_, ?_⟩
  · intro hh
    cases v with
    | none => exact hh
    | some x => rfl
  · intro hh
    cases b with
    | none => exact hh
    | some x => rfl
  · intro hh
    cases n with
    | none => exact hh
    | some x => rfl

theorem C8_receiver_witness :
    ((Range.mk [] 0 5).UnmarshalJSON (str "1+")).2 = (Range.zero.UnmarshalJSON (str "1+")).2 ∧
      ((Range.mk [] 0 5).UnmarshalJSON (str "1+")).1.Begin =
        (Range.zero.UnmarshalJSON (str "1+")).1.Begin :=
  ⟨((C8_receiver (str "1+")).2 (Range.mk [] 0 5) Range.zero).1,
    ((C8_receiver (str "1+")).2 (Range.mk [] 0 5) Range.zero).2.2.1 rfl⟩

/-- C9, as the specification words it, fails: the token of twenty nines matches
the exact pattern, `strconv.Atoi` fails on it, and the error returned is the one
of `strconv.Atoi`, not the error `invalid range: ` followed by the token. -/
theorem C9_counterexample :
    exactRe.FindSubmatch (str "99999999999999999999") ≠ [] ∧
      (Range.zero.UnmarshalJSON (str "99999999999999999999")).2 =
        some (.numError (str "Atoi") (str "99999999999999999999") .ErrRange) ∧
      (Range.zero.UnmarshalJSON (str "99999999999999999999")).2 ≠
        some (.errorf (str "invalid range: " ++ str "99999999999999999999")) := by
  decide

/-- C9, amended: whenever the token matches one of the numeric grammars and
`strconv.Atoi` fails on a component, `Range.UnmarshalJSON` returns the error of
`strconv.Atoi` unchanged: the `*strconv.NumError` of the function `Atoi` that
holds the component and `ErrRange`. For the closed form this is the first
component when that one fails, and the second when only that one fails. -/
theorem C9_conversion_error (r : Range) (ql qr d e : Bytes) (err : Error) (hql : OptQuote ql)
    (hqr : OptQuote qr) (hd : IsDigits d) (he : IsDigits e) :
    (Atoi d = .error err →
      err = .numError (str "Atoi") d .ErrRange ∧
      (r.UnmarshalJSON (ql ++ (d ++ [43]) ++ qr)).2 = some err ∧
      (r.UnmarshalJSON (ql ++ (d ++ 45 :: e) ++ qr)).2 = some err ∧
      (r.UnmarshalJSON (ql ++ d ++ qr)).2 = some err) ∧
    (Atoi e = .error err → (∃ b, Atoi d = .ok b) →
      err = .numError (str "Atoi") e .ErrRange ∧
      (r.UnmarshalJSON (ql ++ (d ++ 45 :: e) ++ qr)).2 = some err) := by
  constructor
  · intro h
    refine ⟨?_, ?_, ?_, ?_⟩
    · rw [Atoi_digits d hd] at h
      split_ifs at h
      exact (Except.error.inj h).symm
    · rw [UnmarshalJSON_onlyStart r hql hqr hd, h]
    · rw [UnmarshalJSON_startStop r hql hqr hd he, h]
    · rw [UnmarshalJSON_exact r hql hqr hd, h]
  · rintro h ⟨b, hb⟩
    refine ⟨?_, ?_⟩
    · rw [Atoi_digits e he] at h
      split_ifs at h
      exact (Except.error.inj h).symm
    · rw [UnmarshalJSON_startStop r hql hqr hd he, hb, h]

theorem C9_conversion_error_witness :
    Atoi (str "99999999999999999999") =
        .error (.numError (str "Atoi") (str "99999999999999999999") .ErrRange) ∧
      (Range.zero.UnmarshalJSON ([] ++ (str "99999999999999999999" ++ [43]) ++ [])).2 =
        some (.numError (str "Atoi") (str "99999999999999999999") .ErrRange) :=
  ⟨by rfl,
    ((C9_conversion_error Range.zero [] [] (str "99999999999999999999") (str "1")
      (.numError (str "Atoi") (str "99999999999999999999") .ErrRange) (by decide) (by decide)
      (by decide) (by decide)).1 (by rfl)).2.1⟩

/-! ## Strict decoding -/

theorem andThen_ok_none (s : Option Error) (r : Outcome) :
    Outcome.andThen (.ok s) r = .ok none ↔ s = none ∧ r = .ok none := by
  cases s <;> cases r with
  | error e => simp [Outcome.andThen]
  | ok s' => cases s' <;> simp [Outcome.andThen, firstError]

theorem andThen_none_left (r : Outcome) : Outcome.andThen (.ok none) r = r := by
  cases r <;> simp [Outcome.andThen, firstError]

theorem decodeFieldMembers_cons_none (T : Tables) (strict : Bool) (key : Bytes) (j : JSON)
    (ms : List (Bytes × JSON)) (v : Field) (hl : lookup T fieldNames key = none) :
    decodeFieldMembers T strict ((key, j) :: ms) v =
      ((decodeFieldMembers T strict ms v).1,
        Outcome.andThen (.ok (if strict then some (.unknownField key) else none))
          (decodeFieldMembers T strict ms v).2) := by
  rw [decodeFieldMembers, hl]

theorem decodeFieldMembers_cons_fields (T : Tables) (strict : Bool) (key : Bytes) (j : JSON)
    (ms : List (Bytes × JSON)) (v : Field) (hl : lookup T fieldNames key = some .Fields) :
    decodeFieldMembers T strict ((key, j) :: ms) v =
      match (decodeFieldSlice T strict j v.Fields).2 with
      | .error e => ({ v with Fields := (decodeFieldSlice T strict j v.Fields).1 }, .error e)
      | .ok s =>
        ((decodeFieldMembers T strict ms
            { v with Fields := (decodeFieldSlice T strict j v.Fields).1 }).1,
          Outcome.andThen (.ok s) (decodeFieldMembers T strict ms
            { v with Fields := (decodeFieldSlice T strict j v.Fields).1 }).2) := by
  rw [decodeFieldMembers, hl]

theorem decodeFieldMembers_cons_attr (T : Tables) (strict : Bool) (key : Bytes) (j : JSON)
    (ms : List (Bytes × JSON)) (v : Field) (a : FieldAttr)
    (hl : lookup T fieldNames key = some a) (ha : a ≠ .Fields) :
    decodeFieldMembers T strict ((key, j) :: ms) v =
      match (decodeFieldAttr T a j v).2 with
      | .error e => ((decodeFieldAttr T a j v).1, .error e)
      | .ok s =>
        ((decodeFieldMembers T strict ms (decodeFieldAttr T a j v).1).1,
          Outcome.andThen (.ok s) (decodeFieldMembers T strict ms (decodeFieldAttr T a j v).1).2) := by
  rw [decodeFieldMembers, hl]
  cases a <;> first | rfl | exact absurd rfl ha

mutual
theorem decodeField_unknown (T : Tables) :
    ∀ (j : JSON) (v : Field), fieldHasUnknown T j = true → (decodeField T true j v).2 ≠ .ok none
  | .object _ members, v, h => by
    rw [fieldHasUnknown] at h
    rw [decodeField]
    exact decodeFieldMembers_unknown T members v h
  | .null, _, h => by simp [fieldHasUnknown] at h
  | .bool _, _, h => by simp [fieldHasUnknown] at h
  | .number _, _, h => by simp [fieldHasUnknown] at h
  | .string _ _, _, h => by simp [fieldHasUnknown] at h
  | .array _ _, _, h => by simp [fieldHasUnknown] at h
termination_by structural j => j
theorem decodeFieldMembers_unknown (T : Tables) :
    ∀ (ms : List (Bytes × JSON)) (v : Field), fieldMembersHaveUnknown T ms = true →
      (decodeFieldMembers T true ms v).2 ≠ .ok none
  | [], _, h => by simp [fieldMembersHaveUnknown] at h
  | (key, j) :: ms, v, h => by
    rw [fieldMembersHaveUnknown, Bool.or_eq_true] at h
    cases hl : lookup T fieldNames key with
    | none =>
      rw [decodeFieldMembers_cons_none T true key j ms v hl]
      intro hc
      have := (andThen_ok_none _ _).1 hc
      exact absurd this.1 (by simp)
    | some a =>
      by_cases ha : a = .Fields
      · subst ha
        rw [decodeFieldMembers_cons_fields T true key j ms v hl]
        simp only [hl] at h
        cases hr : (decodeFieldSlice T true j v.Fields).2 with
        | error e => simp
        | ok s =>
          simp only
          intro hc
          obtain ⟨hs, hrest⟩ := (andThen_ok_none _ _).1 hc
          rcases h with h | h
          · exact decodeFieldSlice_unknown T j v.Fields h (hs ▸ hr)
          · exact decodeFieldMembers_unknown T ms _ h hrest
      · have h' : fieldMembersHaveUnknown T ms = true := by
          rcases h with h | h
          · rw [hl] at h
            cases a <;> simp at h ha
          · exact h
        rw [decodeFieldMembers_cons_attr T true key j ms v a hl ha]
        cases hr : (decodeFieldAttr T a j v).2 with
        | error e => simp
        | ok s =>
          simp only
          intro hc
          exact decodeFieldMembers_unknown T ms _ h' ((andThen_ok_none _ _).1 hc).2
termination_by structural ms => ms
theorem decodeFieldSlice_unknown (T : Tables) :
    ∀ (j : JSON) (v : List Field), sliceHasUnknown T j = true →
      (decodeFieldSlice T true j v).2 ≠ .ok none
  | .array _ elems, v, h => by
    rw [sliceHasUnknown] at h
    rw [decodeFieldSlice]
    exact decodeFieldElems_unknown T elems v h
  | .null, _, h => by simp [sliceHasUnknown] at h
  | .bool _, _, h => by simp [sliceHasUnknown] at h
  | .number _, _, h => by simp [sliceHasUnknown] at h
  | .string _ _, _, h => by simp [sliceHasUnknown] at h
  | .object _ _, _, h => by simp [sliceHasUnknown] at h
termination_by structural j => j
theorem decodeFieldElems_unknown (T : Tables) :
    ∀ (js : List JSON) (v : List Field), elemsHaveUnknown T js = true →
      (decodeFieldElems T true js v).2 ≠ .ok none
  | [], _, h => by simp [elemsHaveUnknown] at h
  | j :: js, v, h => by
    rw [elemsHaveUnknown, Bool.or_eq_true] at h
    rw [decodeFieldElems]
    cases hr : (decodeField T true j (v.headD Field.zero)).2 with
    | error e => simp
    | ok s =>
      simp only
      intro hc
      obtain ⟨hs, hrest⟩ := (andThen_ok_none _ _).1 hc
      rcases h with h | h
      · exact decodeField_unknown T j _ h (hs ▸ hr)
      · exact decodeFieldElems_unknown T js _ h hrest
termination_by structural js => js
end

mutual
theorem decodeField_lenient (T : Tables) :
    ∀ (j : JSON) (v : Field), fieldHasUnknown T j = false →
      decodeField T true j v = decodeField T false j v
  | .object _ members, v, h => by
    rw [fieldHasUnknown] at h
    rw [decodeField, decodeField]
    exact decodeFieldMembers_lenient T members v h
  | .null, _, _ => by rw [decodeField, decodeField]
  | .bool _, _, _ => by rw [decodeField, decodeField]
  | .number _, _, _ => by rw [decodeField, decodeField]
  | .string _ _, _, _ => by rw [decodeField, decodeField]
  | .array _ _, _, _ => by rw [decodeField, decodeField]
termination_by structural j => j
theorem decodeFieldMembers_lenient (T : Tables) :
    ∀ (ms : List (Bytes × JSON)) (v : Field), fieldMembersHaveUnknown T ms = false →
      decodeFieldMembers T true ms v = decodeFieldMembers T false ms v
  | [], _, _ => by rw [decodeFieldMembers, decodeFieldMembers]
  | (key, j) :: ms, v, h => by
    rw [fieldMembersHaveUnknown, Bool.or_eq_false_iff] at h
    cases hl : lookup T fieldNames key with
    | none =>
      rw [hl] at h
      exact absurd h.1 (by simp)
    | some a =>
      by_cases ha : a = .Fields
      · subst ha
        rw [decodeFieldMembers_cons_fields T true key j ms v hl,
          decodeFieldMembers_cons_fields T false key j ms v hl]
        simp only [hl] at h
        rw [decodeFieldSlice_lenient T j v.Fields h.1]
        cases (decodeFieldSlice T false j v.Fields).2 with
        | error e => rfl
        | ok s =>
          simp only
          rw [decodeFieldMembers_lenient T ms _ h.2]
      · rw [decodeFieldMembers_cons_attr T true key j ms v a hl ha,
          decodeFieldMembers_cons_attr T false key j ms v a hl ha]
        cases (decodeFieldAttr T a j v).2 with
        | error e => rfl
        | ok s =>
          simp only
          rw [decodeFieldMembers_lenient T ms _ h.2]
termination_by structural ms => ms
theorem decodeFieldSlice_lenient (T : Tables) :
    ∀ (j : JSON) (v : List Field), sliceHasUnknown T j = false →
      decodeFieldSlice T true j v = decodeFieldSlice T false j v
  | .array _ elems, v, h => by
    rw [sliceHasUnknown] at h
    rw [decodeFieldSlice, decodeFieldSlice]
    exact decodeFieldElems_lenient T elems v h
  | .null, _, _ => by rw [decodeFieldSlice, decodeFieldSlice]
  | .bool _, _, _ => by rw [decodeFieldSlice, decodeFieldSlice]
  | .number _, _, _ => by rw [decodeFieldSlice, decodeFieldSlice]
  | .string _ _, _, _ => by rw [decodeFieldSlice, decodeFieldSlice]
  | .object _ _, _, _ => by rw [decodeFieldSlice, decodeFieldSlice]
termination_by structural j => j
theorem decodeFieldElems_lenient (T : Tables) :
    ∀ (js : List JSON) (v : List Field), elemsHaveUnknown T js = false →
      decodeFieldElems T true js v = decodeFieldElems T false js v
  | [], _, _ => by rw [decodeFieldElems, decodeFieldElems]
  | j :: js, v, h => by
    rw [elemsHaveUnknown, Bool.or_eq_false_iff] at h
    rw [decodeFieldElems, decodeFieldElems, decodeField_lenient T j _ h.1]
    cases (decodeField T false j (v.headD Field.zero)).2 with
    | error e => rfl
    | ok s =>
      simp only
      rw [decodeFieldElems_lenient T js _ h.2]
termination_by structural js => js
end

/-- Decoding the members after a common beginning: what holds of the ends holds
of the whole. -/
theorem decodeFieldMembers_append (T : Tables) (strict : Bool) (ms ms' : List (Bytes × JSON))
    (h : ∀ v, decodeFieldMembers T strict ms' v = decodeFieldMembers T strict ms v)
    (pre : List (Bytes × JSON)) (v : Field) :
    decodeFieldMembers T strict (pre ++ ms') v = decodeFieldMembers T strict (pre ++ ms) v := by
  induction pre generalizing v with
  | nil => exact h v
  | cons p pre ih =>
    obtain ⟨key, j⟩ := p
    simp only [List.cons_append]
    cases hl : lookup T fieldNames key with
    | none =>
      rw [decodeFieldMembers_cons_none T strict key j _ v hl,
        decodeFieldMembers_cons_none T strict key j _ v hl, ih]
    | some a =>
      by_cases ha : a = .Fields
      · subst ha
        rw [decodeFieldMembers_cons_fields T strict key j _ v hl,
          decodeFieldMembers_cons_fields T strict key j _ v hl]
        cases (decodeFieldSlice T strict j v.Fields).2 with
        | error e => rfl
        | ok s => simp only; rw [ih]
      · rw [decodeFieldMembers_cons_attr T strict key j _ v a hl ha,
          decodeFieldMembers_cons_attr T strict key j _ v a hl ha]
        cases (decodeFieldAttr T a j v).2 with
        | error e => rfl
        | ok s => simp only; rw [ih]

theorem decodeFieldElems_append (T : Tables) (strict : Bool) (es es' : List JSON)
    (h : ∀ v, decodeFieldElems T strict es' v = decodeFieldElems T strict es v)
    (pre : List JSON) (v : List Field) :
    decodeFieldElems T strict (pre ++ es') v = decodeFieldElems T strict (pre ++ es) v := by
  induction pre generalizing v with
  | nil => exact h v
  | cons j pre ih =>
    simp only [List.cons_append]
    rw [decodeFieldElems, decodeFieldElems]
    cases (decodeField T strict j (v.headD Field.zero)).2 with
    | error e => rfl
    | ok s => simp only; rw [ih]

/-- Without `DisallowUnknownFields` the added attribute changes nothing. -/
theorem decodeField_adds_lenient (T : Tables) (key : Bytes) (j j' : JSON)
    (h : FieldAdds T key j j') (v : Field) :
    decodeField T false j' v = decodeField T false j v := by
  induction h generalizing v with
  | here raw raw' pre post val hl =>
    rw [decodeField, decodeField]
    apply decodeFieldMembers_append
    intro w
    rw [decodeFieldMembers_cons_none T false key val post w hl]
    simp [andThen_none_left]
  | nested raw raw' ra ra' pre post k epre epost e e' hl _ ih =>
    rw [decodeField, decodeField]
    apply decodeFieldMembers_append
    intro w
    rw [decodeFieldMembers_cons_fields T false k _ post w hl,
      decodeFieldMembers_cons_fields T false k _ post w hl]
    have hs : decodeFieldSlice T false (.array ra' (epre ++ e' :: epost)) w.Fields =
        decodeFieldSlice T false (.array ra (epre ++ e :: epost)) w.Fields := by
      rw [decodeFieldSlice, decodeFieldSlice]
      apply decodeFieldElems_append
      intro u
      rw [decodeFieldElems, decodeFieldElems, ih]
    rw [hs]

theorem andThen_some_ok_none (E : Error) :
    Outcome.andThen (.ok (some E)) (.ok none) = .ok (some E) := rfl

theorem andThen_none_some (E : Error) :
    Outcome.andThen (.ok none) (.ok (some E)) = .ok (some E) := rfl

/-- Decoding the members after a common beginning, with `DisallowUnknownFields`:
an error that the second end adds to a faultless first end is added to the whole. -/
theorem decodeFieldMembers_append_error (T : Tables) (E : Error) (ms ms' : List (Bytes × JSON))
    (h : ∀ v, (decodeFieldMembers T true ms v).2 = .ok none →
      decodeFieldMembers T true ms' v = ((decodeFieldMembers T true ms v).1, .ok (some E)))
    (pre : List (Bytes × JSON)) (v : Field)
    (hok : (decodeFieldMembers T true (pre ++ ms) v).2 = .ok none) :
    decodeFieldMembers T true (pre ++ ms') v =
      ((decodeFieldMembers T true (pre ++ ms) v).1, .ok (some E)) := by
  induction pre generalizing v with
  | nil => exact h v hok
  | cons p pre ih =>
    obtain ⟨key, j⟩ := p
    simp only [List.cons_append] at hok ⊢
    cases hl : lookup T fieldNames key with
    | none =>
      rw [decodeFieldMembers_cons_none T true key j _ v hl] at hok
      exact absurd ((andThen_ok_none _ _).1 hok).1 (by simp)
    | some a =>
      by_cases ha : a = .Fields
      · subst ha
        rw [decodeFieldMembers_cons_fields T true key j _ v hl] at hok ⊢
        rw [decodeFieldMembers_cons_fields T true key j _ v hl]
        cases hr : (decodeFieldSlice T true j v.Fields).2 with
        | error e => rw [hr] at hok; simp at hok
        | ok s =>
          rw [hr] at hok
          simp only at hok ⊢
          obtain ⟨rfl, hrest⟩ := (andThen_ok_none _ _).1 hok
          rw [ih _ hrest, andThen_none_some]
      · rw [decodeFieldMembers_cons_attr T true key j _ v a hl ha] at hok ⊢
        rw [decodeFieldMembers_cons_attr T true key j _ v a hl ha]
        cases hr : (decodeFieldAttr T a j v).2 with
        | error e => rw [hr] at hok; simp at hok
        | ok s =>
          rw [hr] at hok
          simp only at hok ⊢
          obtain ⟨rfl, hrest⟩ := (andThen_ok_none _ _).1 hok
          rw [ih _ hrest, andThen_none_some]

theorem decodeFieldElems_append_error (T : Tables) (E : Error) (es es' : List JSON)
    (h : ∀ v, (decodeFieldElems T true es v).2 = .ok none →
      decodeFieldElems T true es' v = ((decodeFieldElems T true es v).1, .ok (some E)))
    (pre : List JSON) (v : List Field)
    (hok : (decodeFieldElems T true (pre ++ es) v).2 = .ok none) :
    decodeFieldElems T true (pre ++ es') v =
      ((decodeFieldElems T true (pre ++ es) v).1, .ok (some E)) := by
  induction pre generalizing v with
  | nil => exact h v hok
  | cons j pre ih =>
    simp only [List.cons_append] at hok ⊢
    rw [decodeFieldElems] at hok ⊢
    rw [decodeFieldElems]
    cases hr : (decodeField T true j (v.headD Field.zero)).2 with
    | error e => rw [hr] at hok; simp at hok
    | ok s =>
      rw [hr] at hok
      simp only at hok ⊢
      obtain ⟨rfl, hrest⟩ := (andThen_ok_none _ _).1 hok
      rw [ih _ hrest, andThen_none_some]

/-- With `DisallowUnknownFields` the added attribute turns a faultless decoding
into one that ends with the error for that attribute, and changes nothing else. -/
theorem decodeField_adds_strict (T : Tables) (key : Bytes) (j j' : JSON)
    (h : FieldAdds T key j j') (v : Field) (hok : (decodeField T true j v).2 = .ok none) :
    decodeField T true j' v = ((decodeField T true j v).1, .ok (some (.unknownField key))) := by
  induction h generalizing v with
  | here raw raw' pre post val hl =>
    rw [decodeField] at hok ⊢
    rw [decodeField]
    refine decodeFieldMembers_append_error T _ post _ ?_ pre v hok
    intro w hw
    rw [decodeFieldMembers_cons_none T true key val post w hl, hw]
    rfl
  | nested raw raw' ra ra' pre post k epre epost e e' hl _ ih =>
    rw [decodeField] at hok ⊢
    rw [decodeField]
    refine decodeFieldMembers_append_error T _ _ _ ?_ pre v hok
    intro w hw
    rw [decodeFieldMembers_cons_fields T true k _ post w hl] at hw ⊢
    rw [decodeFieldMembers_cons_fields T true k _ post w hl]
    rw [decodeFieldSlice] at hw ⊢
    rw [decodeFieldSlice]
    cases hr : (decodeFieldElems T true (epre ++ e :: epost) w.Fields).2 with
    | error e => rw [hr] at hw; simp at hw
    | ok s =>
      rw [hr] at hw
      simp only at hw ⊢
      obtain ⟨rfl, hrest⟩ := (andThen_ok_none _ _).1 hw
      have he := decodeFieldElems_append_error T (.unknownField key) (e :: epost) (e' :: epost)
        (by
          intro u hu
          rw [decodeFieldElems] at hu ⊢
          rw [decodeFieldElems]
          cases hr' : (decodeField T true e (u.headD Field.zero)).2 with
          | error e => rw [hr'] at hu; simp at hu
          | ok s' =>
            rw [hr'] at hu
            simp only at hu ⊢
            obtain ⟨rfl, hrest'⟩ := (andThen_ok_none _ _).1 hu
            rw [ih _ hr']
            simp only
            rw [hrest']
            rfl)
        epre w.Fields hr
      rw [he]
      simp only
      rw [hrest]
      rfl

theorem decodeMessageMembers_cons_none (T : Tables) (strict : Bool) (key : Bytes) (j : JSON)
    (ms : List (Bytes × JSON)) (v : Message) (hl : lookup T messageNames key = none) :
    decodeMessageMembers T strict ((key, j) :: ms) v =
      ((decodeMessageMembers T strict ms v).1,
        Outcome.andThen (.ok (if strict then some (.unknownField key) else none))
          (decodeMessageMembers T strict ms v).2) := by
  rw [decodeMessageMembers, hl]

theorem decodeMessageMembers_cons_attr (T : Tables) (strict : Bool) (key : Bytes) (j : JSON)
    (ms : List (Bytes × JSON)) (v : Message) (a : MessageAttr)
    (hl : lookup T messageNames key = some a) :
    decodeMessageMembers T strict ((key, j) :: ms) v =
      match (decodeMessageAttr T strict a j v).2 with
      | .error e => ((decodeMessageAttr T strict a j v).1, .error e)
      | .ok s =>
        ((decodeMessageMembers T strict ms (decodeMessageAttr T strict a j v).1).1,
          Outcome.andThen (.ok s)
            (decodeMessageMembers T strict ms (decodeMessageAttr T strict a j v).1).2) := by
  rw [decodeMessageMembers, hl]

theorem decodeMessageMembers_unknown (T : Tables) (ms : List (Bytes × JSON)) (v : Message)
    (h : messageMembersHaveUnknown T ms = true) :
    (decodeMessageMembers T true ms v).2 ≠ .ok none := by
  induction ms generalizing v with
  | nil => simp [messageMembersHaveUnknown] at h
  | cons p ms ih =>
    obtain ⟨key, j⟩ := p
    rw [messageMembersHaveUnknown, Bool.or_eq_true] at h
    cases hl : lookup T messageNames key with
    | none =>
      rw [decodeMessageMembers_cons_none T true key j ms v hl]
      intro hc
      exact absurd ((andThen_ok_none _ _).1 hc).1 (by simp)
    | some a =>
      rw [decodeMessageMembers_cons_attr T true key j ms v a hl]
      rw [hl] at h
      cases hr : (decodeMessageAttr T true a j v).2 with
      | error e => simp
      | ok s =>
        simp only
        intro hc
        obtain ⟨rfl, hrest⟩ := (andThen_ok_none _ _).1 hc
        rcases h with h | h
        · cases a <;> simp only [Bool.false_eq_true] at h
          · exact decodeFieldSlice_unknown T j v.Fields h hr
          · exact decodeFieldSlice_unknown T j v.CommonStructs h hr
        · exact ih _ h hrest

theorem decodeMessageMembers_lenient (T : Tables) (ms : List (Bytes × JSON)) (v : Message)
    (h : messageMembersHaveUnknown T ms = false) :
    decodeMessageMembers T true ms v = decodeMessageMembers T false ms v := by
  induction ms generalizing v with
  | nil => rw [decodeMessageMembers, decodeMessageMembers]
  | cons p ms ih =>
    obtain ⟨key, j⟩ := p
    rw [messageMembersHaveUnknown, Bool.or_eq_false_iff] at h
    cases hl : lookup T messageNames key with
    | none =>
      rw [hl] at h
      exact absurd h.1 (by simp)
    | some a =>
      rw [decodeMessageMembers_cons_attr T true key j ms v a hl,
        decodeMessageMembers_cons_attr T false key j ms v a hl]
      rw [hl] at h
      have ha : decodeMessageAttr T true a j v = decodeMessageAttr T false a j v := by
        cases a <;> first
          | rfl
          | (simp only [decodeMessageAttr]; rw [decodeFieldSlice_lenient T j _ h.1])
      rw [ha]
      cases (decodeMessageAttr T false a j v).2 with
      | error e => rfl
      | ok s => simp only; rw [ih _ h.2]

theorem decodeMessageMembers_append (T : Tables) (strict : Bool) (ms ms' : List (Bytes × JSON))
    (h : ∀ v, decodeMessageMembers T strict ms' v = decodeMessageMembers T strict ms v)
    (pre : List (Bytes × JSON)) (v : Message) :
    decodeMessageMembers T strict (pre ++ ms') v = decodeMessageMembers T strict (pre ++ ms) v := by
  induction pre generalizing v with
  | nil => exact h v
  | cons p pre ih =>
    obtain ⟨key, j⟩ := p
    simp only [List.cons_append]
    cases hl : lookup T messageNames key with
    | none =>
      rw [decodeMessageMembers_cons_none T strict key j _ v hl,
        decodeMessageMembers_cons_none T strict key j _ v hl, ih]
    | some a =>
      rw [decodeMessageMembers_cons_attr T strict key j _ v a hl,
        decodeMessageMembers_cons_attr T strict key j _ v a hl]
      cases (decodeMessageAttr T strict a j v).2 with
      | error e => rfl
      | ok s => simp only; rw [ih]

theorem decodeMessageMembers_append_error (T : Tables) (E : Error)
    (ms ms' : List (Bytes × JSON))
    (h : ∀ v, (decodeMessageMembers T true ms v).2 = .ok none →
      decodeMessageMembers T true ms' v = ((decodeMessageMembers T true ms v).1, .ok (some E)))
    (pre : List (Bytes × JSON)) (v : Message)
    (hok : (decodeMessageMembers T true (pre ++ ms) v).2 = .ok none) :
    decodeMessageMembers T true (pre ++ ms') v =
      ((decodeMessageMembers T true (pre ++ ms) v).1, .ok (some E)) := by
  induction pre generalizing v with
  | nil => exact h v hok
  | cons p pre ih =>
    obtain ⟨key, j⟩ := p
    simp only [List.cons_append] at hok ⊢
    cases hl : lookup T messageNames key with
    | none =>
      rw [decodeMessageMembers_cons_none T true key j _ v hl] at hok
      exact absurd ((andThen_ok_none _ _).1 hok).1 (by simp)
    | some a =>
      rw [decodeMessageMembers_cons_attr T true key j _ v a hl] at hok ⊢
      rw [decodeMessageMembers_cons_attr T true key j _ v a hl]
      cases hr : (decodeMessageAttr T true a j v).2 with
      | error e => rw [hr] at hok; simp at hok
      | ok s =>
        rw [hr] at hok
        simp only at hok ⊢
        obtain ⟨rfl, hrest⟩ := (andThen_ok_none _ _).1 hok
        rw [ih _ hrest, andThen_none_some]

/-- The elements of a `[]Field`, one of which gets the added attribute. -/
theorem decodeFieldSlice_adds_lenient (T : Tables) (key : Bytes) (ra ra' : Bytes)
    (epre epost : List JSON) (e e' : JSON) (h : FieldAdds T key e e') (w : List Field) :
    decodeFieldSlice T false (.array ra' (epre ++ e' :: epost)) w =
      decodeFieldSlice T false (.array ra (epre ++ e :: epost)) w := by
  rw [decodeFieldSlice, decodeFieldSlice]
  apply decodeFieldElems_append
  intro u
  rw [decodeFieldElems, decodeFieldElems, decodeField_adds_lenient T key e e' h]

theorem decodeFieldSlice_adds_strict (T : Tables) (key : Bytes) (ra ra' : Bytes)
    (epre epost : List JSON) (e e' : JSON) (h : FieldAdds T key e e') (w : List Field)
    (hok : (decodeFieldSlice T true (.array ra (epre ++ e :: epost)) w).2 = .ok none) :
    decodeFieldSlice T true (.array ra' (epre ++ e' :: epost)) w =
      ((decodeFieldSlice T true (.array ra (epre ++ e :: epost)) w).1,
        .ok (some (.unknownField key))) := by
  rw [decodeFieldSlice] at hok ⊢
  rw [decodeFieldSlice]
  refine decodeFieldElems_append_error T _ (e :: epost) (e' :: epost) ?_ epre w hok
  intro u hu
  rw [decodeFieldElems] at hu ⊢
  rw [decodeFieldElems]
  cases hr : (decodeField T true e (u.headD Field.zero)).2 with
  | error e => rw [hr] at hu; simp at hu
  | ok s =>
    rw [hr] at hu
    simp only at hu ⊢
    obtain ⟨rfl, hrest⟩ := (andThen_ok_none _ _).1 hu
    rw [decodeField_adds_strict T key e e' h _ hr]
    simp only
    rw [hrest]
    rfl

theorem decodeMessage_adds_lenient (T : Tables) (key : Bytes) (doc doc' : JSON)
    (h : MessageAdds T key doc doc') (v : Message) :
    decodeMessage T false doc' v = decodeMessage T false doc v := by
  cases h with
  | here raw raw' pre post val hl =>
    simp only [decodeMessage]
    apply decodeMessageMembers_append
    intro w
    rw [decodeMessageMembers_cons_none T false key val post w hl]
    simp [andThen_none_left]
  | nested raw raw' ra ra' pre post k epre epost e e' hl he =>
    simp only [decodeMessage]
    apply decodeMessageMembers_append
    intro w
    rcases hl with hl | hl
    · rw [decodeMessageMembers_cons_attr T false k _ post w _ hl,
        decodeMessageMembers_cons_attr T false k _ post w _ hl]
      simp only [decodeMessageAttr]
      rw [decodeFieldSlice_adds_lenient T key ra ra' epre epost e e' he]
    · rw [decodeMessageMembers_cons_attr T false k _ post w _ hl,
        decodeMessageMembers_cons_attr T false k _ post w _ hl]
      simp only [decodeMessageAttr]
      rw [decodeFieldSlice_adds_lenient T key ra ra' epre epost e e' he]

theorem decodeMessage_adds_strict (T : Tables) (key : Bytes) (doc doc' : JSON)
    (h : MessageAdds T key doc doc') (v : Message)
    (hok : (decodeMessage T true doc v).2 = .ok none) :
    decodeMessage T true doc' v =
      ((decodeMessage T true doc v).1, .ok (some (.unknownField key))) := by
  cases h with
  | here raw raw' pre post val hl =>
    simp only [decodeMessage] at hok ⊢
    refine decodeMessageMembers_append_error T _ post _ ?_ pre v hok
    intro w hw
    rw [decodeMessageMembers_cons_none T true key val post w hl, hw]
    rfl
  | nested raw raw' ra ra' pre post k epre epost e e' hl he =>
    simp only [decodeMessage] at hok ⊢
    refine decodeMessageMembers_append_error T _ _ _ ?_ pre v hok
    intro w hw
    rcases hl with hl | hl
    · rw [decodeMessageMembers_cons_attr T true k _ post w _ hl] at hw ⊢
      rw [decodeMessageMembers_cons_attr T true k _ post w _ hl]
      simp only [decodeMessageAttr] at hw ⊢
      cases hr : (decodeFieldSlice T true (.array ra (epre ++ e :: epost)) w.Fields).2 with
      | error e => rw [hr] at hw; simp at hw
      | ok s =>
        rw [hr] at hw
        simp only at hw
        obtain ⟨rfl, hrest⟩ := (andThen_ok_none _ _).1 hw
        rw [decodeFieldSlice_adds_strict T key ra ra' epre epost e e' he _ hr]
        simp only
        rw [hrest]
        rfl
    · rw [decodeMessageMembers_cons_attr T true k _ post w _ hl] at hw ⊢
      rw [decodeMessageMembers_cons_attr T true k _ post w _ hl]
      simp only [decodeMessageAttr] at hw ⊢
      cases hr : (decodeFieldSlice T true (.array ra (epre ++ e :: epost)) w.CommonStructs).2 with
      | error e => rw [hr] at hw; simp at hw
      | ok s =>
        rw [hr] at hw
        simp only at hw
        obtain ⟨rfl, hrest⟩ := (andThen_ok_none _ _).1 hw
        rw [decodeFieldSlice_adds_strict T key ra ra' epre epost e e' he _ hr]
        simp only
        rw [hrest]
        rfl

theorem Decode_error_none (T : Tables) (strict : Bool) (msg : Message) (doc : JSON) :
    (Decode T strict msg doc).2 = none ↔ (decodeMessage T strict doc msg).2 = .ok none := by
  unfold Decode
  rcases hd : decodeMessage T strict doc msg with ⟨m, r⟩
  cases r with
  | error e => simp
  | ok s => simp

theorem decodeMessage_lenient (T : Tables) (doc : JSON) (v : Message)
    (h : messageHasUnknown T doc = false) :
    decodeMessage T true doc v = decodeMessage T false doc v := by
  cases doc with
  | object raw members =>
    simp only [decodeMessage]
    exact decodeMessageMembers_lenient T members v h
  | _ => rfl

/-- A key selects no field exactly when it matches the name of no field, not even
without regard to case. -/
theorem lookup_eq_none {α : Type} (T : Tables) (names : List (α × Bytes)) (key : Bytes) :
    lookup T names key = none ↔ ∀ p ∈ names, foldName T p.2 ≠ foldName T key := by
  unfold lookup
  constructor
  · intro h
    cases h1 : names.find? (fun p => p.2 = key) with
    | some p => rw [h1] at h; simp at h
    | none =>
      rw [h1] at h
      cases h2 : names.find? (fun p => foldName T p.2 = foldName T key) with
      | some p => rw [h2] at h; simp at h
      | none =>
        intro p hp
        have := List.find?_eq_none.1 h2 p hp
        simpa using this
  · intro h
    have h1 : names.find? (fun p => p.2 = key) = none := by
      apply List.find?_eq_none.2
      intro p hp
      have := h p hp
      simp only [decide_eq_true_eq]
      intro hc
      exact this (by rw [hc])
    have h2 : names.find? (fun p => foldName T p.2 = foldName T key) = none := by
      apply List.find?_eq_none.2
      intro p hp
      simpa using h p hp
    rw [h1, h2]

/-- C10: decoding a document into a `Message` with `DisallowUnknownFields` fails
whenever some object in it (the top-level message, an element of `fields` or
`commonStructs`, or a `Field` nested to any depth under `fields`) holds an
attribute name that the decoder does not recognise as an attribute of `Message`
(resp. `Field`); and when such an attribute is all that is wrong with a document
(no other unrecognised attribute, and the decoding without
`DisallowUnknownFields` succeeds), the document without it decodes successfully.
Moreover a document that decodes successfully fails, once such an attribute is
added, with the error for just that attribute. A name is not recognised exactly
when it matches the name of no attribute, not even without regard to case. -/
theorem C10_strict_decoding (T : Tables) (msg : Message) :
    (∀ doc, messageHasUnknown T doc = true → (Decode T true msg doc).2 ≠ none) ∧
    (∀ key doc doc', MessageAdds T key doc doc' → messageHasUnknown T doc = false →
      (Decode T false msg doc').2 = none → (Decode T true msg doc).2 = none) ∧
    (∀ key doc doc', MessageAdds T key doc doc' → (Decode T true msg doc).2 = none →
      Decode T true msg doc' = ((Decode T true msg doc).1, some (.unknownField key))) ∧
    (∀ key, (lookup T messageNames key = none ↔
        ∀ p ∈ messageNames, foldName T p.2 ≠ foldName T key) ∧
      (lookup T fieldNames key = none ↔
        ∀ p ∈ fieldNames, foldName T p.2 ≠ foldName T key)) := by
  refine ⟨?_, ?_, ?_, fun key => ⟨lookup_eq_none T _ key, lookup_eq_none T _ key⟩⟩
  · intro doc h hc
    rw [Decode_error_none] at hc
    cases doc with
    | object raw members =>
      simp only [decodeMessage] at hc
      exact decodeMessageMembers_unknown T members msg h hc
    | _ => simp [messageHasUnknown] at h
  · intro key doc doc' ha hu hl
    rw [Decode_error_none] at hl ⊢
    rw [decodeMessage_lenient T doc msg hu, ← decodeMessage_adds_lenient T key doc doc' ha]
    exact hl
  · intro key doc doc' ha hok
    rw [Decode_error_none] at hok
    have h := decodeMessage_adds_strict T key doc doc' ha msg hok
    unfold Decode
    rw [h]
    rcases hd : decodeMessage T true doc msg with ⟨m, r⟩
    rw [hd] at hok
    simp only at hok
    subst hok
    rfl

theorem nestedDoc_adds : MessageAdds asciiTables (str "bogus") nestedDoc nestedDocBogus :=
  MessageAdds.nested _ _ _ _ [(str "name", jstring "X")] [] (str "fields") [] [] _ _
    (Or.inl (by decide))
    (FieldAdds.nested _ _ _ _ [(str "name", jstring "A")] [] (str "fields") [] [] _ _ (by decide)
      (FieldAdds.nested _ _ _ _ [(str "name", jstring "B")] [] (str "fields") [] [] _ _
        (by decide)
        (FieldAdds.here _ _ [(str "name", jstring "C")] [(str "versions", jstring "3+")]
          (.number (str "1")) (by decide))))

theorem C10_strict_decoding_witness :
    (messageHasUnknown asciiTables nestedDocBogus = true ∧
      (Decode asciiTables true Message.zero nestedDocBogus).2 ≠ none) ∧
    (MessageAdds asciiTables (str "bogus") nestedDoc nestedDocBogus ∧
      messageHasUnknown asciiTables nestedDoc = false ∧
      (Decode asciiTables false Message.zero nestedDocBogus).2 = none ∧
      (Decode asciiTables true Message.zero nestedDoc).2 = none) ∧
    Decode asciiTables true Message.zero nestedDocBogus =
      ((Decode asciiTables true Message.zero nestedDoc).1, some (.unknownField (str "bogus"))) :=
  have h := C10_strict_decoding asciiTables Message.zero
  have h1 : messageHasUnknown asciiTables nestedDocBogus = true := by decide
  have h2 : messageHasUnknown asciiTables nestedDoc = false := by decide
  have h3 : (Decode asciiTables false Message.zero nestedDocBogus).2 = none := by decide
  have h4 := h.2.1 _ _ _ nestedDoc_adds h2 h3
  ⟨⟨h1, h.1 _ h1⟩, ⟨nestedDoc_adds, h2, h3, h4⟩, h.2.2.1 _ _ _ nestedDoc_adds h4⟩

/-! ## The claims on the range parser, continued -/

/-- C14, as the specification words it, fails: the token `4-2` is of the closed
form, the parser accepts it, and leaves `Begin = 4` above `End = 2`. -/
theorem C14_counterexample :
    IsStartStop (str "4-2") ∧
      Range.zero.UnmarshalJSON (str "4-2") = (⟨str "4-2", 4, 2⟩, none) ∧
      ¬ (Range.zero.UnmarshalJSON (str "4-2")).1.Begin ≤
        (Range.zero.UnmarshalJSON (str "4-2")).1.End :=
  ⟨⟨str "4", str "2", by decide, by decide, by decide⟩, by decide, by decide⟩

/-- C14, amended: every `Range` that `Range.UnmarshalJSON` produces without error
on a zero-valued receiver has `Begin = End` when the token is of the exact form;
when the token is of the closed form `digits-digits`, `Begin` and `End` are the
two numbers in the order they are written, so that `Begin ≤ End` holds exactly
when the first number is at most the second (the parser checks no order). -/
theorem C14_invariant (t : Bytes) (hs : (Range.zero.UnmarshalJSON t).2 = none) :
    (Quoted IsDigits t →
      (Range.zero.UnmarshalJSON t).1.Begin = (Range.zero.UnmarshalJSON t).1.End) ∧
    (∀ ql d e qr, OptQuote ql → OptQuote qr → IsDigits d → IsDigits e →
      t = ql ++ (d ++ 45 :: e) ++ qr →
      (Range.zero.UnmarshalJSON t).1.Begin = (decVal d : Int) ∧
      (Range.zero.UnmarshalJSON t).1.End = (decVal e : Int) ∧
      ((Range.zero.UnmarshalJSON t).1.Begin ≤ (Range.zero.UnmarshalJSON t).1.End ↔
        decVal d ≤ decVal e)) := by
  constructor
  · rintro ⟨ql, d, qr, hql, hqr, hd, rfl⟩
    rw [UnmarshalJSON_exact _ hql hqr hd] at hs ⊢
    cases h : Atoi d with
    | error err => rw [h] at hs; simp at hs
    | ok b => rfl
  · intro ql d e qr hql hqr hd he ht
    subst ht
    rw [UnmarshalJSON_startStop _ hql hqr hd he] at hs ⊢
    rw [Atoi_digits d hd, Atoi_digits e he] at hs ⊢
    by_cases h1 : decVal d < 2 ^ 63
    · by_cases h2 : decVal e < 2 ^ 63
      · rw [if_pos h1, if_pos h2]
        exact ⟨rfl, rfl, Int.ofNat_le⟩
      · rw [if_pos h1, if_neg h2] at hs
        simp at hs
    · rw [if_neg h1] at hs
      simp at hs

theorem C14_invariant_witness :
    (Range.zero.UnmarshalJSON (str "2-4")).2 = none ∧
      (Range.zero.UnmarshalJSON (str "2-4")).1.Begin = (decVal (str "2") : Int) ∧
      (Range.zero.UnmarshalJSON (str "2-4")).1.End = (decVal (str "4") : Int) ∧
      ((Range.zero.UnmarshalJSON (str "2-4")).1.Begin ≤ (Range.zero.UnmarshalJSON (str "2-4")).1.End ↔
        decVal (str "2") ≤ decVal (str "4")) :=
  ⟨by decide, (C14_invariant (str "2-4") (by decide)).2 [] (str "2") (str "4") [] (by decide)
    (by decide) (by decide) (by decide) (by decide)⟩

/-- C16, as the specification words it, fails: the token of twenty nines and a
`+` matches `onlyStartRe`, and `strconv.Atoi` fails on the digit group it
captures, so the method returns through `if err != nil { return err }`. -/
theorem C16_counterexample :
    onlyStartRe.FindSubmatch (str "99999999999999999999+") =
        [str "99999999999999999999+", str "99999999999999999999+",
          str "99999999999999999999"] ∧
      Atoi (str "99999999999999999999") =
        .error (.numError (str "Atoi") (str "99999999999999999999") .ErrRange) ∧
      (Range.zero.UnmarshalJSON (str "99999999999999999999+")).2 =
        some (.numError (str "Atoi") (str "99999999999999999999") .ErrRange) :=
  ⟨by decide, by rfl, by decide⟩

/-- C16, amended: for every token that matches one of the three numeric
grammars, a `strconv.Atoi` call on a captured digit group succeeds exactly when
the group denotes a number of at most `2^63 - 1`, and fails with a range error
(never a syntax error) otherwise; so `Range.UnmarshalJSON` returns through one of
its `if err != nil { return err }` branches exactly when a captured group denotes
a larger number. -/
theorem C16_conversion_failure (r : Range) (ql qr d e : Bytes) (hql : OptQuote ql)
    (hqr : OptQuote qr) (hd : IsDigits d) (he : IsDigits e) :
    (Atoi d = .ok (decVal d : Int) ↔ decVal d ≤ 2 ^ 63 - 1) ∧
    (¬ decVal d ≤ 2 ^ 63 - 1 → Atoi d = .error (.numError (str "Atoi") d .ErrRange)) ∧
    ((r.UnmarshalJSON (ql ++ d ++ qr)).2 = none ↔ decVal d ≤ 2 ^ 63 - 1) ∧
    ((r.UnmarshalJSON (ql ++ (d ++ [43]) ++ qr)).2 = none ↔ decVal d ≤ 2 ^ 63 - 1) ∧
    ((r.UnmarshalJSON (ql ++ (d ++ 45 :: e) ++ qr)).2 = none ↔
      decVal d ≤ 2 ^ 63 - 1 ∧ decVal e ≤ 2 ^ 63 - 1) := by
  have e63 : (2 : Nat) ^ 63 = 9223372036854775808 := by norm_num
  rw [UnmarshalJSON_exact r hql hqr hd, UnmarshalJSON_onlyStart r hql hqr hd,
    UnmarshalJSON_startStop r hql hqr hd he, Atoi_digits d hd, Atoi_digits e he]
  by_cases h1 : decVal d < 2 ^ 63
  · have h1' : decVal d ≤ 2 ^ 63 - 1 := by omega
    rw [if_pos h1]
    by_cases h2 : decVal e < 2 ^ 63
    · have h2' : decVal e ≤ 2 ^ 63 - 1 := by omega
      rw [if_pos h2]
      exact ⟨⟨fun _ => h1', fun _ => rfl⟩, fun hn => absurd h1' hn, ⟨fun _ => h1', fun _ => rfl⟩,
        ⟨fun _ => h1', fun _ => rfl⟩, ⟨fun _ => ⟨h1', h2'⟩, fun _ => rfl⟩⟩
    · have h2' : ¬ decVal e ≤ 2 ^ 63 - 1 := by omega
      rw [if_neg h2]
      exact ⟨⟨fun _ => h1', fun _ => rfl⟩, fun hn => absurd h1' hn, ⟨fun _ => h1', fun _ => rfl⟩,
        ⟨fun _ => h1', fun _ => rfl⟩,
        ⟨fun hc => absurd hc (by simp), fun hc => absurd hc.2 h2'⟩⟩
  · have h1' : ¬ decVal d ≤ 2 ^ 63 - 1 := by omega
    rw [if_neg h1]
    exact ⟨⟨fun hc => absurd hc (by simp), fun hc => absurd hc h1'⟩, fun _ => rfl,
      ⟨fun hc => absurd hc (by simp), fun hc => absurd hc h1'⟩,
      ⟨fun hc => absurd hc (by simp), fun hc => absurd hc h1'⟩,
      ⟨fun hc => absurd hc (by simp), fun hc => absurd hc.1 h1'⟩⟩

theorem C16_conversion_failure_witness :
    (Range.zero.UnmarshalJSON ([] ++ (str "3" ++ 45 :: str "99999999999999999999") ++ [])).2 =
        none ↔
      decVal (str "3") ≤ 2 ^ 63 - 1 ∧ decVal (str "99999999999999999999") ≤ 2 ^ 63 - 1 :=
  (C16_conversion_failure Range.zero [] [] (str "3") (str "99999999999999999999") (by decide)
    (by decide) (by decide) (by decide)).2.2.2.2

/-- C17, as the specification words it, fails: on the token `1-` followed by
twenty nines the second `strconv.Atoi` fails, the method returns its error, and
the receiver has already got a new `Value` and a new `Begin`. -/
theorem C17_counterexample :
    Range.zero.UnmarshalJSON (str "1-99999999999999999999") =
        (⟨str "1-99999999999999999999", 1, 0⟩,
          some (.numError (str "Atoi") (str "99999999999999999999") .ErrRange)) ∧
      (Range.zero.UnmarshalJSON (str "1-99999999999999999999")).1 ≠ Range.zero := by
  decide

/-- C17, amended: if `Range.UnmarshalJSON` returns an error, then the receiver is
left exactly as it was when no branch matched the token (the error is then
`invalid range: ...`); when the error comes from `strconv.Atoi`, `Value` has
already been overwritten with the token without its quotes, `End` is left as it
was, and `Begin` is left as it was except for the closed form whose first number
converts, where `Begin` holds that number. -/
theorem C17_failure_state (r : Range) (t : Bytes) (h : (r.UnmarshalJSON t).2 ≠ none) :
    (¬ HasBranch t → (r.UnmarshalJSON t).1 = r) ∧
    (∀ ql d qr, OptQuote ql → OptQuote qr → IsDigits d → t = ql ++ d ++ qr →
      (r.UnmarshalJSON t).1 = { r with Value := d }) ∧
    (∀ ql d qr, OptQuote ql → OptQuote qr → IsDigits d → t = ql ++ (d ++ [43]) ++ qr →
      (r.UnmarshalJSON t).1 = { r with Value := d ++ [43] }) ∧
    (∀ ql d e qr, OptQuote ql → OptQuote qr → IsDigits d → IsDigits e →
      t = ql ++ (d ++ 45 :: e) ++ qr →
      (r.UnmarshalJSON t).1 =
        if decVal d ≤ 2 ^ 63 - 1 then { r with Value := d ++ 45 :: e, Begin := (decVal d : Int) }
        else { r with Value := d ++ 45 :: e }) := by
  have e63 : (2 : Nat) ^ 63 = 9223372036854775808 := by norm_num
  refine ⟨?_, ?_, ?_, ?_⟩
  · intro hb
    unfold HasBranch at hb
    rw [UnmarshalJSON_invalid r t (fun h1 => hb (Or.inl h1)) (fun h2 => hb (Or.inr (Or.inl h2)))
      (fun h3 => hb (Or.inr (Or.inr (Or.inl h3)))) (fun h4 => hb (Or.inr (Or.inr (Or.inr h4))))]
  · intro ql d qr hql hqr hd ht
    subst ht
    rw [UnmarshalJSON_exact r hql hqr hd] at h ⊢
    cases ha : Atoi d with
    | error err => rfl
    | ok b => rw [ha] at h; simp at h
  · intro ql d qr hql hqr hd ht
    subst ht
    rw [UnmarshalJSON_onlyStart r hql hqr hd] at h ⊢
    cases ha : Atoi d with
    | error err => rfl
    | ok b => rw [ha] at h; simp at h
  · intro ql d e qr hql hqr hd he ht
    subst ht
    rw [UnmarshalJSON_startStop r hql hqr hd he] at h ⊢
    rw [Atoi_digits d hd, Atoi_digits e he] at h ⊢
    by_cases h1 : decVal d < 2 ^ 63
    · have h1' : decVal d ≤ 2 ^ 63 - 1 := by omega
      rw [if_pos h1] at h ⊢
      rw [if_pos h1']
      by_cases h2 : decVal e < 2 ^ 63
      · rw [if_pos h2] at h; simp at h
      · rw [if_neg h2]
    · have h1' : ¬ decVal d ≤ 2 ^ 63 - 1 := by omega
      rw [if_neg h1, if_neg h1']

theorem C17_failure_state_witness :
    (Range.zero.UnmarshalJSON (str "bogus")).2 ≠ none ∧ ¬ HasBranch (str "bogus") ∧
      (Range.zero.UnmarshalJSON (str "bogus")).1 = Range.zero :=
  have hb : ¬ HasBranch (str "bogus") := by
    rintro (h | h | h | h)
    · exact (FindSubmatch_onlyStartRe_nil _).1 (by decide) h
    · exact (FindSubmatch_startStopRe_nil _).1 (by decide) h
    · exact (FindSubmatch_exactRe_nil _).1 (by decide) h
    · exact absurd h (by decide)
  ⟨by decide, hb, (C17_failure_state Range.zero (str "bogus") (by decide)).1 hb⟩

/-- C18: if `Range.UnmarshalJSON` returns no error on a token, then the token is
`none` or `"none"`, or it is a non-empty string of ASCII digits, such a string
followed by `+`, or two such strings joined by one `-`, with at most one double
quote before it and at most one after it, each independently of the other. In
particular the empty token and tokens with white space, a sign, other letters, a
lone quote around `none` or a trailing newline are rejected. -/
theorem C18_accepted_language :
    (∀ (r : Range) (t : Bytes), (r.UnmarshalJSON t).2 = none → HasBranch t) ∧
    (∀ tok ∈ [str "", str " 7", str "7 ", str "+7", str "-7", str "7\n", str "abc",
        str "None", str "\"none", str "none\"", str "7-", str "7+8", str "1.5"],
      (Range.zero.UnmarshalJSON tok).2 ≠ none) := by
  constructor
  · intro r t h
    by_contra hb
    have hb' := hb
    unfold HasBranch at hb'
    rw [UnmarshalJSON_invalid r t (fun h1 => hb' (Or.inl h1))
      (fun h2 => hb' (Or.inr (Or.inl h2))) (fun h3 => hb' (Or.inr (Or.inr (Or.inl h3))))
      (fun h4 => hb' (Or.inr (Or.inr (Or.inr h4))))] at h
    simp at h
  · decide

theorem C18_accepted_language_witness :
    (Range.zero.UnmarshalJSON (str "\"7")).2 = none ∧ HasBranch (str "\"7") :=
  ⟨by decide, C18_accepted_language.1 Range.zero (str "\"7") (by decide)⟩

/-! ## The order of the branches -/

theorem onlyStart_startStop_excl (t : Bytes) (h1 : onlyStartRe.FindSubmatch t ≠ [])
    (h2 : startStopRe.FindSubmatch t ≠ []) : False := by
  rw [ne_eq, FindSubmatch_onlyStartRe_nil, not_not] at h1
  rw [ne_eq, FindSubmatch_startStopRe_nil, not_not] at h2
  exact quoted_excl (fun _ => IsOnlyStart.onlyStart_plain) (fun _ => IsStartStop.startStop_plain)
    (fun _ => onlyStart_not_startStop) h1 h2

theorem onlyStart_exact_excl (t : Bytes) (h1 : onlyStartRe.FindSubmatch t ≠ [])
    (h2 : exactRe.FindSubmatch t ≠ []) : False := by
  rw [ne_eq, FindSubmatch_onlyStartRe_nil, not_not] at h1
  rw [ne_eq, FindSubmatch_exactRe_nil, not_not] at h2
  exact quoted_excl (fun _ => IsDigits.digits_plain) (fun _ => IsOnlyStart.onlyStart_plain)
    (fun _ => digits_not_onlyStart) h2 h1

theorem startStop_exact_excl (t : Bytes) (h1 : startStopRe.FindSubmatch t ≠ [])
    (h2 : exactRe.FindSubmatch t ≠ []) : False := by
  rw [ne_eq, FindSubmatch_startStopRe_nil, not_not] at h1
  rw [ne_eq, FindSubmatch_exactRe_nil, not_not] at h2
  exact quoted_excl (fun _ => IsDigits.digits_plain) (fun _ => IsStartStop.startStop_plain)
    (fun _ => digits_not_startStop) h2 h1

theorem none_no_match (t : Bytes) (h : t = str "none" ∨ t = str "\"none\"") :
    onlyStartRe.FindSubmatch t = [] ∧ startStopRe.FindSubmatch t = [] ∧
      exactRe.FindSubmatch t = [] := by
  rcases h with rfl | rfl <;> decide

theorem ne_nil_of_length {l : List Bytes} {n : Nat} (h : l.length = n + 1) : l ≠ [] := by
  intro hc
  rw [hc] at h
  simp at h

/-- A branch on its own either does not apply, or does what the method does. -/
theorem attempt_eq (b : Branch) (r : Range) (t : Bytes) :
    b.attempt r t = none ∨ b.attempt r t = some (r.UnmarshalJSON t) := by
  cases b with
  | onlyStart =>
    unfold Branch.attempt Range.UnmarshalJSON
    dsimp only
    by_cases c1 : (onlyStartRe.FindSubmatch t).length = 3
    · right
      rw [if_pos c1, if_pos c1]
      cases Atoi ((onlyStartRe.FindSubmatch t).getD 2 []) <;> rfl
    · left
      rw [if_neg c1]
  | startStop =>
    unfold Branch.attempt Range.UnmarshalJSON
    dsimp only
    by_cases c2 : (startStopRe.FindSubmatch t).length = 4
    · right
      have c1 : ¬ (onlyStartRe.FindSubmatch t).length = 3 := fun c1 =>
        onlyStart_startStop_excl t (ne_nil_of_length c1) (ne_nil_of_length c2)
      rw [if_pos c2, if_neg c1, if_pos c2]
      cases Atoi ((startStopRe.FindSubmatch t).getD 2 []) with
      | error e => rfl
      | ok b => cases Atoi ((startStopRe.FindSubmatch t).getD 3 []) <;> rfl
    · left
      rw [if_neg c2]
  | exact =>
    unfold Branch.attempt Range.UnmarshalJSON
    dsimp only
    by_cases c3 : (exactRe.FindSubmatch t).length = 2
    · right
      have c1 : ¬ (onlyStartRe.FindSubmatch t).length = 3 := fun c1 =>
        onlyStart_exact_excl t (ne_nil_of_length c1) (ne_nil_of_length c3)
      have c2 : ¬ (startStopRe.FindSubmatch t).length = 4 := fun c2 =>
        startStop_exact_excl t (ne_nil_of_length c2) (ne_nil_of_length c3)
      rw [if_pos c3, if_neg c1, if_neg c2, if_pos c3]
      cases Atoi ((exactRe.FindSubmatch t).getD 1 []) <;> rfl
    · left
      rw [if_neg c3]
  | noneLit =>
    unfold Branch.attempt
    by_cases c4 : t = str "none" ∨ t = str "\"none\""
    · right
      rw [if_pos c4, UnmarshalJSON_none r t c4]
    · left
      rw [if_neg c4]

/-- When no branch applies the method returns the error `invalid range: ...`. -/
theorem no_attempt (r : Range) (t : Bytes) (h : ∀ b : Branch, b.attempt r t = none) :
    r.UnmarshalJSON t = (r, some (.errorf (str "invalid range: " ++ t))) := by
  have h1 := h .onlyStart
  have h2 := h .startStop
  have h3 := h .exact
  have h4 := h .noneLit
  unfold Branch.attempt at h1 h2 h3 h4
  dsimp only at h1 h2 h3
  unfold Range.UnmarshalJSON
  dsimp only
  by_cases c1 : (onlyStartRe.FindSubmatch t).length = 3
  · rw [if_pos c1] at h1
    cases ha : Atoi ((onlyStartRe.FindSubmatch t).getD 2 []) <;> rw [ha] at h1 <;> simp at h1
  by_cases c2 : (startStopRe.FindSubmatch t).length = 4
  · rw [if_pos c2] at h2
    cases ha : Atoi ((startStopRe.FindSubmatch t).getD 2 []) with
    | error e => rw [ha] at h2; simp at h2
    | ok b =>
      rw [ha] at h2
      cases hb : Atoi ((startStopRe.FindSubmatch t).getD 3 []) <;> rw [hb] at h2 <;> simp at h2
  by_cases c3 : (exactRe.FindSubmatch t).length = 2
  · rw [if_pos c3] at h3
    cases ha : Atoi ((exactRe.FindSubmatch t).getD 1 []) <;> rw [ha] at h3 <;> simp at h3
  by_cases c4 : t = str "none" ∨ t = str "\"none\""
  · rw [if_pos c4] at h4
    simp at h4
  rw [if_neg c1, if_neg c2, if_neg c3, if_neg c4]

theorem inOrder_eq (order : List Branch) (r : Range) (t : Bytes) :
    Range.UnmarshalJSONInOrder order r t = r.UnmarshalJSON t ∨
      ((∀ b ∈ order, b.attempt r t = none) ∧
        Range.UnmarshalJSONInOrder order r t =
          (r, some (.errorf (str "invalid range: " ++ t)))) := by
  induction order with
  | nil =>
    right
    exact ⟨fun b hb => absurd hb (List.not_mem_nil b), rfl⟩
  | cons b bs ih =>
    unfold Range.UnmarshalJSONInOrder
    rcases attempt_eq b r t with h | h
    · rw [h]
      rcases ih with ih | ⟨ih1, ih2⟩
      · exact Or.inl ih
      · right
        refine ⟨?_, ih2⟩
        intro b' hb'
        rcases List.mem_cons.1 hb' with rfl | hb'
        · exact h
        · exact ih1 b' hb'
    · rw [h]
      exact Or.inl rfl

/-- C15: for every token at most one of `onlyStartRe`, `startStopRe`, `exactRe`
matches, and none of them matches `none` or `"none"`; so `Range.UnmarshalJSON`
with its four branches tried in any other order returns the same error and leaves
the same `Range`, for every token and every receiver. -/
theorem C15_precedence :
    (∀ t : Bytes,
      ¬ (onlyStartRe.FindSubmatch t ≠ [] ∧ startStopRe.FindSubmatch t ≠ []) ∧
      ¬ (onlyStartRe.FindSubmatch t ≠ [] ∧ exactRe.FindSubmatch t ≠ []) ∧
      ¬ (startStopRe.FindSubmatch t ≠ [] ∧ exactRe.FindSubmatch t ≠ [])) ∧
    (∀ t : Bytes, t = str "none" ∨ t = str "\"none\"" →
      onlyStartRe.FindSubmatch t = [] ∧ startStopRe.FindSubmatch t = [] ∧
        exactRe.FindSubmatch t = []) ∧
    (∀ order : List Branch, order.Perm [.onlyStart, .startStop, .exact, .noneLit] →
      ∀ (r : Range) (t : Bytes), Range.UnmarshalJSONInOrder order r t = r.UnmarshalJSON t) := by
  refine ⟨fun t => ⟨fun h => onlyStart_startStop_excl t h.1 h.2,
    fun h => onlyStart_exact_excl t h.1 h.2, fun h => startStop_exact_excl t h.1 h.2⟩,
    none_no_match, ?_⟩
  intro order hp r t
  rcases inOrder_eq order r t with h | ⟨h1, h2⟩
  · exact h
  · rw [h2, no_attempt r t]
    intro b
    apply h1
    rw [hp.mem_iff]
    cases b <;> simp

theorem C15_precedence_witness :
    Range.UnmarshalJSONInOrder [.noneLit, .exact, .startStop, .onlyStart] (Range.mk [] 0 5)
        (str "\"1+") = (Range.mk [] 0 5).UnmarshalJSON (str "\"1+") :=
  C15_precedence.2.2 [.noneLit, .exact, .startStop, .onlyStart] (by decide) _ _

/-! ## Malformed ranges in a document -/

/-- The error of the range parser does not depend on the receiver. -/
theorem UnmarshalJSON_error_receiver (r1 r2 : Range) (t : Bytes) :
    (r1.UnmarshalJSON t).2 = (r2.UnmarshalJSON t).2 := by
  unfold Range.UnmarshalJSON
  dsimp only
  split_ifs
  · cases Atoi _ <;> rfl
  · cases Atoi _ with
    | error _ => rfl
    | ok _ => cases Atoi _ <;> rfl
  · cases Atoi _ <;> rfl
  · rfl
  · rfl

theorem hard_decodeRange (T : Tables) (hT : T.stops = true) (j : JSON) (v : Range) :
    Outcome.hard (decodeRange T j v).2 = (Range.zero.UnmarshalJSON j.text).2 := by
  unfold decodeRange Outcome.ofMethod
  rw [UnmarshalJSON_error_receiver Range.zero v, hT]
  rcases h : v.UnmarshalJSON j.text with ⟨r, e⟩
  cases e <;> rfl

theorem firstRejected_append (a b : List Bytes) :
    firstRejected (a ++ b) = (firstRejected a).or (firstRejected b) := by
  unfold firstRejected
  rw [List.findSome?_append]

theorem firstRejected_single (tok : Bytes) :
    firstRejected [tok] = (Range.zero.UnmarshalJSON tok).2 := by
  unfold firstRejected
  cases h : (Range.zero.UnmarshalJSON tok).2 <;> simp [List.findSome?, h]

theorem hard_andThen_ok (s : Option Error) (r : Outcome) :
    Outcome.hard (Outcome.andThen (.ok s) r) = Outcome.hard r := by
  cases r <;> rfl

theorem hard_decodeFieldAttr (T : Tables) (hT : T.stops = true) (a : FieldAttr) (j : JSON) (v : Field)
    (ha : a ≠ .Fields) :
    Outcome.hard (decodeFieldAttr T a j v).2 =
      firstRejected (if a.isRange then [j.text] else []) := by
  cases a <;> first
    | exact absurd rfl ha
    | (simp only [decodeFieldAttr, FieldAttr.isRange, if_true, firstRejected_single]
       exact hard_decodeRange T hT _ _)
    | rfl

theorem fieldMembersRangeTokens_cons_attr (T : Tables) (key : Bytes) (j : JSON)
    (ms : List (Bytes × JSON)) (a : FieldAttr) (hl : lookup T fieldNames key = some a)
    (ha : a ≠ .Fields) :
    fieldMembersRangeTokens T ((key, j) :: ms) =
      (if a.isRange then [j.text] else []) ++ fieldMembersRangeTokens T ms := by
  rw [fieldMembersRangeTokens, hl]
  cases a <;> first | rfl | exact absurd rfl ha

mutual
theorem hard_decodeField (T : Tables) (hT : T.stops = true) (strict : Bool) :
    ∀ (j : JSON) (v : Field),
      Outcome.hard (decodeField T strict j v).2 = firstRejected (fieldRangeTokens T j)
  | .object _ members, v => by
    rw [decodeField, fieldRangeTokens]
    exact hard_decodeFieldMembers T hT strict members v
  | .null, _ => by simp [decodeField, fieldRangeTokens, Outcome.hard, firstRejected]
  | .bool _, _ => by simp [decodeField, fieldRangeTokens, Outcome.hard, firstRejected]
  | .number _, _ => by simp [decodeField, fieldRangeTokens, Outcome.hard, firstRejected]
  | .string _ _, _ => by simp [decodeField, fieldRangeTokens, Outcome.hard, firstRejected]
  | .array _ _, _ => by simp [decodeField, fieldRangeTokens, Outcome.hard, firstRejected]
termination_by structural j => j
theorem hard_decodeFieldMembers (T : Tables) (hT : T.stops = true) (strict : Bool) :
    ∀ (ms : List (Bytes × JSON)) (v : Field),
      Outcome.hard (decodeFieldMembers T strict ms v).2 =
        firstRejected (fieldMembersRangeTokens T ms)
  | [], _ => by rw [decodeFieldMembers, fieldMembersRangeTokens]; rfl
  | (key, j) :: ms, v => by
    cases hl : lookup T fieldNames key with
    | none =>
      rw [decodeFieldMembers_cons_none T strict key j ms v hl, fieldMembersRangeTokens, hl,
        hard_andThen_ok, List.nil_append]
      exact hard_decodeFieldMembers T hT strict ms v
    | some a =>
      by_cases ha : a = .Fields
      · subst ha
        rw [decodeFieldMembers_cons_fields T strict key j ms v hl, fieldMembersRangeTokens, hl,
          firstRejected_append, ← hard_decodeFieldSlice T hT strict j v.Fields]
        cases hr : (decodeFieldSlice T strict j v.Fields).2 with
        | error e => rfl
        | ok s =>
          dsimp only
          rw [hard_andThen_ok]
          exact hard_decodeFieldMembers T hT strict ms _
      · rw [decodeFieldMembers_cons_attr T strict key j ms v a hl ha,
          fieldMembersRangeTokens_cons_attr T key j ms a hl ha, firstRejected_append,
          ← hard_decodeFieldAttr T hT a j v ha]
        cases hr : (decodeFieldAttr T a j v).2 with
        | error e => rfl
        | ok s =>
          dsimp only
          rw [hard_andThen_ok]
          exact hard_decodeFieldMembers T hT strict ms _
termination_by structural ms => ms
theorem hard_decodeFieldSlice (T : Tables) (hT : T.stops = true) (strict : Bool) :
    ∀ (j : JSON) (v : List Field),
      Outcome.hard (decodeFieldSlice T strict j v).2 = firstRejected (sliceRangeTokens T j)
  | .array _ elems, v => by
    rw [decodeFieldSlice, sliceRangeTokens]
    exact hard_decodeFieldElems T hT strict elems v
  | .null, _ => by simp [decodeFieldSlice, sliceRangeTokens, Outcome.hard, firstRejected]
  | .bool _, _ => by simp [decodeFieldSlice, sliceRangeTokens, Outcome.hard, firstRejected]
  | .number _, _ => by simp [decodeFieldSlice, sliceRangeTokens, Outcome.hard, firstRejected]
  | .string _ _, _ => by simp [decodeFieldSlice, sliceRangeTokens, Outcome.hard, firstRejected]
  | .object _ _, _ => by simp [decodeFieldSlice, sliceRangeTokens, Outcome.hard, firstRejected]
termination_by structural j => j
theorem hard_decodeFieldElems (T : Tables) (hT : T.stops = true) (strict : Bool) :
    ∀ (js : List JSON) (v : List Field),
      Outcome.hard (decodeFieldElems T strict js v).2 = firstRejected (elemsRangeTokens T js)
  | [], _ => by rw [decodeFieldElems, elemsRangeTokens]; rfl
  | j :: js, v => by
    rw [decodeFieldElems, elemsRangeTokens, firstRejected_append,
      ← hard_decodeField T hT strict j (v.headD Field.zero)]
    cases hr : (decodeField T strict j (v.headD Field.zero)).2 with
    | error e => rfl
    | ok s =>
      dsimp only
      rw [hard_andThen_ok]
      exact hard_decodeFieldElems T hT strict js _
termination_by structural js => js
end

theorem hard_decodeMessageAttr (T : Tables) (hT : T.stops = true) (strict : Bool) (a : MessageAttr) (j : JSON)
    (v : Message) :
    Outcome.hard (decodeMessageAttr T strict a j v).2 =
      firstRejected (messageAttrRangeTokens T a j) := by
  cases a <;> first
    | (simp only [decodeMessageAttr, messageAttrRangeTokens, firstRejected_single]
       exact hard_decodeRange T hT _ _)
    | (simp only [decodeMessageAttr, messageAttrRangeTokens]
       exact hard_decodeFieldSlice T hT strict j _)
    | rfl

theorem hard_decodeMessageMembers (T : Tables) (hT : T.stops = true) (strict : Bool) (ms : List (Bytes × JSON))
    (v : Message) :
    Outcome.hard (decodeMessageMembers T strict ms v).2 =
      firstRejected (messageMembersRangeTokens T ms) := by
  induction ms generalizing v with
  | nil => rw [decodeMessageMembers, messageMembersRangeTokens]; rfl
  | cons p ms ih =>
    obtain ⟨key, j⟩ := p
    cases hl : lookup T messageNames key with
    | none =>
      rw [decodeMessageMembers_cons_none T strict key j ms v hl, messageMembersRangeTokens, hl,
        hard_andThen_ok, List.nil_append]
      exact ih v
    | some a =>
      rw [decodeMessageMembers_cons_attr T strict key j ms v a hl, messageMembersRangeTokens, hl,
        firstRejected_append, ← hard_decodeMessageAttr T hT strict a j v]
      cases hr : (decodeMessageAttr T strict a j v).2 with
      | error e => rfl
      | ok s =>
        dsimp only
        rw [hard_andThen_ok]
        exact ih _

theorem hard_decodeMessage (T : Tables) (hT : T.stops = true) (strict : Bool) (doc : JSON) (v : Message) :
    Outcome.hard (decodeMessage T strict doc v).2 = firstRejected (messageRangeTokens T doc) := by
  cases doc with
  | object raw members =>
    simp only [decodeMessage, messageRangeTokens]
    exact hard_decodeMessageMembers T hT strict members v
  | _ => rfl

/-- With a decoder that stops at the error of an `UnmarshalJSON` method, the error
of `Decode` is the error of the range parser on the first range token of the
document that it rejects, when there is one. -/
theorem Decode_firstRejected (T : Tables) (hT : T.stops = true) (strict : Bool) (msg : Message)
    (doc : JSON)
    (e : Error) (h : firstRejected (messageRangeTokens T doc) = some e) :
    (Decode T strict msg doc).2 = some e := by
  have hh := hard_decodeMessage T hT strict doc msg
  rw [h] at hh
  unfold Decode
  rcases hd : decodeMessage T strict doc msg with ⟨m, r⟩
  rw [hd] at hh
  cases r with
  | error e' =>
    simp only [Outcome.hard, Option.some.injEq] at hh
    rw [hh]
  | ok s => simp [Outcome.hard] at hh

/-! ## One attribute at a time -/

theorem decodeFieldMembers_cons_some (T : Tables) (strict : Bool) (key : Bytes) (j : JSON)
    (ms : List (Bytes × JSON)) (v : Field) (a : FieldAttr)
    (hl : lookup T fieldNames key = some a) :
    decodeFieldMembers T strict ((key, j) :: ms) v =
      match (fieldStep T strict a j v).2 with
      | .error e => ((fieldStep T strict a j v).1, .error e)
      | .ok s =>
        ((decodeFieldMembers T strict ms (fieldStep T strict a j v).1).1,
          Outcome.andThen (.ok s) (decodeFieldMembers T strict ms (fieldStep T strict a j v).1).2) := by
  by_cases ha : a = .Fields
  · subst ha
    rw [decodeFieldMembers_cons_fields T strict key j ms v hl]
    rfl
  · rw [decodeFieldMembers_cons_attr T strict key j ms v a hl ha]
    cases a <;> first | rfl | exact absurd rfl ha

theorem Field.sameAt_refl (a : FieldAttr) (f : Field) : Field.sameAt a f f := by
  cases a <;> exact rfl

theorem Field.sameAt_trans {a : FieldAttr} {f g h : Field} (h1 : Field.sameAt a f g)
    (h2 : Field.sameAt a g h) : Field.sameAt a f h := by
  cases a <;> exact Eq.trans h1 h2

/-- A step for one field leaves every other field as it was. -/
theorem fieldStep_frame (T : Tables) (strict : Bool) (a a' : FieldAttr) (j : JSON) (v : Field)
    (h : a' ≠ a) : Field.sameAt a (fieldStep T strict a' j v).1 v := by
  cases a' <;> cases a <;> first | exact absurd rfl h | exact rfl

/-- What a step leaves in its field depends on what that field held, and on
nothing else of the receiver. -/
theorem fieldStep_congr (T : Tables) (strict : Bool) (a : FieldAttr) (j : JSON) (v v' : Field)
    (h : Field.sameAt a v v') :
    Field.sameAt a (fieldStep T strict a j v).1 (fieldStep T strict a j v').1 := by
  cases a <;> simp only [Field.sameAt, fieldStep, decodeFieldAttr] at h ⊢ <;> rw [h]

/-- An attribute that the members do not give keeps the value it had. -/
theorem decodeFieldMembers_absent (T : Tables) (strict : Bool) (a : FieldAttr)
    (ms : List (Bytes × JSON)) (v : Field) (h : Absent T fieldNames a ms) :
    Field.sameAt a (decodeFieldMembers T strict ms v).1 v := by
  induction ms generalizing v with
  | nil => rw [decodeFieldMembers]; exact Field.sameAt_refl a v
  | cons p ms ih =>
    obtain ⟨key, j⟩ := p
    have ht : Absent T fieldNames a ms := fun q hq => h q (List.mem_cons_of_mem _ hq)
    cases hl : lookup T fieldNames key with
    | none =>
      rw [decodeFieldMembers_cons_none T strict key j ms v hl]
      exact ih v ht
    | some a' =>
      have hne : a' ≠ a := by
        intro hc
        exact h (key, j) (List.mem_cons_self _ _) (by rw [hl, hc])
      rw [decodeFieldMembers_cons_some T strict key j ms v a' hl]
      cases (fieldStep T strict a' j v).2 with
      | error e => exact fieldStep_frame T strict a a' j v hne
      | ok s => exact Field.sameAt_trans (ih _ ht) (fieldStep_frame T strict a a' j v hne)

theorem hard_cons_some (T : Tables) (strict : Bool) (key : Bytes) (j : JSON)
    (ms : List (Bytes × JSON)) (v : Field) (a : FieldAttr)
    (hl : lookup T fieldNames key = some a)
    (hh : Outcome.hard (decodeFieldMembers T strict ((key, j) :: ms) v).2 = none) :
    Outcome.hard (fieldStep T strict a j v).2 = none ∧
      (decodeFieldMembers T strict ((key, j) :: ms) v).1 =
        (decodeFieldMembers T strict ms (fieldStep T strict a j v).1).1 ∧
      Outcome.hard (decodeFieldMembers T strict ms (fieldStep T strict a j v).1).2 = none := by
  rw [decodeFieldMembers_cons_some T strict key j ms v a hl] at hh ⊢
  cases hr : (fieldStep T strict a j v).2 with
  | error e => rw [hr] at hh; simp [Outcome.hard] at hh
  | ok s =>
    rw [hr] at hh
    dsimp only at hh ⊢
    rw [hard_andThen_ok] at hh
    exact ⟨rfl, rfl, hh⟩

theorem fieldMembersNoRepeat_cons (T : Tables) (key : Bytes) (j : JSON)
    (ms : List (Bytes × JSON)) (h : fieldMembersNoRepeat T ((key, j) :: ms) = true) :
    fieldMembersNoRepeat T ms = true ∧
      ∀ a, lookup T fieldNames key = some a →
        Absent T fieldNames a ms ∧ (a = .Fields → sliceNoRepeat T j = true) := by
  rw [fieldMembersNoRepeat, Bool.and_eq_true] at h
  refine ⟨h.2, ?_⟩
  intro a hl
  have h1 := h.1
  rw [hl] at h1
  by_cases ha : a = .Fields
  · subst ha
    simp only [Bool.and_eq_true, List.all_eq_true, decide_eq_true_eq] at h1
    exact ⟨fun p hp => h1.1 p hp, fun _ => h1.2⟩
  · have h2 : ms.all (fun p => decide (lookup T fieldNames p.1 ≠ some a)) = true := by
      cases a <;> first | exact absurd rfl ha | exact h1
    simp only [List.all_eq_true, decide_eq_true_eq] at h2
    exact ⟨fun p hp => h2 p hp, fun hc => absurd hc ha⟩

/-- In an object that gives no attribute twice and is decoded without an error of
the range parser, the field of an attribute holds what the step for its one
value leaves there. -/
theorem decodeFieldMembers_once (T : Tables) (strict : Bool) (ms : List (Bytes × JSON))
    (v : Field) (p : Bytes × JSON) (a : FieldAttr)
    (hnr : fieldMembersNoRepeat T ms = true) (hp : p ∈ ms)
    (hl : lookup T fieldNames p.1 = some a)
    (hh : Outcome.hard (decodeFieldMembers T strict ms v).2 = none) :
    Field.sameAt a (decodeFieldMembers T strict ms v).1 (fieldStep T strict a p.2 v).1 := by
  induction ms generalizing v with
  | nil => exact absurd hp (List.not_mem_nil _)
  | cons q ms ih =>
    obtain ⟨key, j⟩ := q
    obtain ⟨hnr', hab⟩ := fieldMembersNoRepeat_cons T key j ms hnr
    rcases List.mem_cons.1 hp with rfl | hp'
    · obtain ⟨-, h2, -⟩ := hard_cons_some T strict key j ms v a hl hh
      rw [h2]
      exact decodeFieldMembers_absent T strict a ms _ (hab a hl).1
    · cases hl0 : lookup T fieldNames key with
      | none =>
        rw [decodeFieldMembers_cons_none T strict key j ms v hl0] at hh ⊢
        rw [hard_andThen_ok] at hh
        exact ih v hnr' hp' hh
      | some a0 =>
        have hne : a0 ≠ a := by
          intro hc
          exact (hab a0 hl0).1 p hp' (by rw [hl, hc])
        obtain ⟨-, h2, h3⟩ := hard_cons_some T strict key j ms v a0 hl0 hh
        rw [h2]
        exact Field.sameAt_trans (ih _ hnr' hp' h3)
          (fieldStep_congr T strict a p.2 _ v (fieldStep_frame T strict a a0 j v hne))

theorem fieldMembersAll_cons_other (T : Tables) (P : List (Bytes × JSON) → Field → Prop)
    (key : Bytes) (j : JSON) (ms : List (Bytes × JSON)) (f : Field)
    (hl : lookup T fieldNames key ≠ some .Fields) :
    fieldMembersAll T P ((key, j) :: ms) f ↔ fieldMembersAll T P ms f := by
  rw [fieldMembersAll]
  cases hl' : lookup T fieldNames key with
  | none => simp
  | some a =>
    rw [hl'] at hl
    cases a <;> first | exact absurd rfl hl | simp

theorem decodeFieldElems_cons_nil (T : Tables) (strict : Bool) (j : JSON) (js : List JSON) :
    decodeFieldElems T strict (j :: js) [] =
      match (decodeField T strict j Field.zero).2 with
      | .error e => ([(decodeField T strict j Field.zero).1], .error e)
      | .ok s =>
        ((decodeField T strict j Field.zero).1 :: (decodeFieldElems T strict js []).1,
          Outcome.andThen (.ok s) (decodeFieldElems T strict js []).2) := by
  rw [decodeFieldElems]
  rfl

mutual
/-- In a value that gives no attribute twice and is decoded into a zero `Field`
without an error of the range parser, a property that holds of every such object
with the `Field` decoded from it holds at every depth. -/
theorem decodeField_all (T : Tables) (strict : Bool) (P : List (Bytes × JSON) → Field → Prop)
    (hP : ∀ ms, fieldMembersNoRepeat T ms = true →
      Outcome.hard (decodeFieldMembers T strict ms Field.zero).2 = none →
      P ms (decodeFieldMembers T strict ms Field.zero).1) :
    ∀ (j : JSON), fieldNoRepeat T j = true →
      Outcome.hard (decodeField T strict j Field.zero).2 = none →
      fieldAll T P j (decodeField T strict j Field.zero).1
  | .object _ members, hn, hh => by
    rw [fieldNoRepeat] at hn
    rw [decodeField] at hh ⊢
    rw [fieldAll]
    exact ⟨hP members hn hh,
      decodeFieldMembers_all T strict P hP members Field.zero hn hh (fun _ => rfl)⟩
  | .null, _, _ => by simp [fieldAll]
  | .bool _, _, _ => by simp [fieldAll]
  | .number _, _, _ => by simp [fieldAll]
  | .string _ _, _, _ => by simp [fieldAll]
  | .array _ _, _, _ => by simp [fieldAll]
termination_by structural j => j
theorem decodeFieldMembers_all (T : Tables) (strict : Bool)
    (P : List (Bytes × JSON) → Field → Prop)
    (hP : ∀ ms, fieldMembersNoRepeat T ms = true →
      Outcome.hard (decodeFieldMembers T strict ms Field.zero).2 = none →
      P ms (decodeFieldMembers T strict ms Field.zero).1) :
    ∀ (ms : List (Bytes × JSON)) (v : Field), fieldMembersNoRepeat T ms = true →
      Outcome.hard (decodeFieldMembers T strict ms v).2 = none →
      ((∃ p ∈ ms, lookup T fieldNames p.1 = some .Fields) → v.Fields = []) →
      fieldMembersAll T P ms (decodeFieldMembers T strict ms v).1
  | [], _, _, _, _ => by simp [fieldMembersAll]
  | (key, j) :: ms, v, hn, hh, hinv => by
    obtain ⟨hn', hab⟩ := fieldMembersNoRepeat_cons T key j ms hn
    cases hl : lookup T fieldNames key with
    | none =>
      rw [fieldMembersAll_cons_other T P key j ms _ (by rw [hl]; simp)]
      rw [decodeFieldMembers_cons_none T strict key j ms v hl] at hh ⊢
      rw [hard_andThen_ok] at hh
      exact decodeFieldMembers_all T strict P hP ms v hn' hh
        (fun ⟨p, hp, hlp⟩ => hinv ⟨p, List.mem_cons_of_mem _ hp, hlp⟩)
    | some a =>
      obtain ⟨h1, h2, h3⟩ := hard_cons_some T strict key j ms v a hl hh
      by_cases ha : a = .Fields
      · subst ha
        have hv : v.Fields = [] := hinv ⟨(key, j), List.mem_cons_self _ _, hl⟩
        have hf : (decodeFieldMembers T strict ((key, j) :: ms) v).1.Fields =
            (decodeFieldSlice T strict j []).1 := by
          rw [h2]
          have := decodeFieldMembers_absent T strict .Fields ms
            (fieldStep T strict .Fields j v).1 (hab _ hl).1
          rw [show (decodeFieldMembers T strict ms (fieldStep T strict .Fields j v).1).1.Fields =
            (fieldStep T strict .Fields j v).1.Fields from this]
          show (decodeFieldSlice T strict j v.Fields).1 = _
          rw [hv]
        have hs : Outcome.hard (decodeFieldSlice T strict j []).2 = none := by
          have : Outcome.hard (decodeFieldSlice T strict j v.Fields).2 = none := h1
          rw [hv] at this
          exact this
        rw [fieldMembersAll, hl]
        refine ⟨?_, ?_⟩
        · show sliceAll T P j (decodeFieldMembers T strict ((key, j) :: ms) v).1.Fields
          rw [hf]
          exact decodeFieldSlice_all T strict P hP j ((hab _ hl).2 rfl) hs
        · rw [h2]
          exact decodeFieldMembers_all T strict P hP ms _ hn' h3
            (fun ⟨p, hp, hlp⟩ => absurd hlp ((hab _ hl).1 p hp))
      · rw [fieldMembersAll_cons_other T P key j ms _ (by rw [hl]; simpa using ha), h2]
        refine decodeFieldMembers_all T strict P hP ms _ hn' h3 ?_
        intro ⟨p, hp, hlp⟩
        have hfr : (fieldStep T strict a j v).1.Fields = v.Fields :=
          fieldStep_frame T strict .Fields a j v ha
        rw [hfr]
        exact hinv ⟨p, List.mem_cons_of_mem _ hp, hlp⟩
termination_by structural ms => ms
theorem decodeFieldSlice_all (T : Tables) (strict : Bool)
    (P : List (Bytes × JSON) → Field → Prop)
    (hP : ∀ ms, fieldMembersNoRepeat T ms = true →
      Outcome.hard (decodeFieldMembers T strict ms Field.zero).2 = none →
      P ms (decodeFieldMembers T strict ms Field.zero).1) :
    ∀ (j : JSON), sliceNoRepeat T j = true →
      Outcome.hard (decodeFieldSlice T strict j []).2 = none →
      sliceAll T P j (decodeFieldSlice T strict j []).1
  | .array _ elems, hn, hh => by
    rw [sliceNoRepeat] at hn
    rw [decodeFieldSlice] at hh ⊢
    rw [sliceAll]
    exact decodeFieldElems_all T strict P hP elems hn hh
  | .null, _, _ => by simp [sliceAll]
  | .bool _, _, _ => by simp [sliceAll]
  | .number _, _, _ => by simp [sliceAll]
  | .string _ _, _, _ => by simp [sliceAll]
  | .object _ _, _, _ => by simp [sliceAll]
termination_by structural j => j
theorem decodeFieldElems_all (T : Tables) (strict : Bool)
    (P : List (Bytes × JSON) → Field → Prop)
    (hP : ∀ ms, fieldMembersNoRepeat T ms = true →
      Outcome.hard (decodeFieldMembers T strict ms Field.zero).2 = none →
      P ms (decodeFieldMembers T strict ms Field.zero).1) :
    ∀ (js : List JSON), elemsNoRepeat T js = true →
      Outcome.hard (decodeFieldElems T strict js []).2 = none →
      elemsAll T P js (decodeFieldElems T strict js []).1
  | [], _, _ => by
    rw [decodeFieldElems, elemsAll]
  | j :: js, hn, hh => by
    rw [elemsNoRepeat, Bool.and_eq_true] at hn
    rw [decodeFieldElems_cons_nil] at hh ⊢
    cases hr : (decodeField T strict j Field.zero).2 with
    | error e => rw [hr] at hh; simp [Outcome.hard] at hh
    | ok s =>
      rw [hr] at hh
      dsimp only at hh ⊢
      rw [hard_andThen_ok] at hh
      rw [elemsAll]
      refine ⟨decodeField_all T strict P hP j hn.1 ?_,
        decodeFieldElems_all T strict P hP js hn.2 hh⟩
      rw [hr]
      rfl
termination_by structural js => js
end

theorem Message.sameAt_same (a : MessageAttr) (m : Message) : Message.sameAt a m m := by
  cases a <;> exact rfl

theorem Message.sameAt_chain {a : MessageAttr} {m n o : Message} (h1 : Message.sameAt a m n)
    (h2 : Message.sameAt a n o) : Message.sameAt a m o := by
  cases a <;> exact Eq.trans h1 h2

theorem decodeMessageAttr_frame (T : Tables) (strict : Bool) (a a' : MessageAttr) (j : JSON)
    (v : Message) (h : a' ≠ a) : Message.sameAt a (decodeMessageAttr T strict a' j v).1 v := by
  cases a' <;> cases a <;> first | exact absurd rfl h | exact rfl

theorem decodeMessageAttr_congr (T : Tables) (strict : Bool) (a : MessageAttr) (j : JSON)
    (v v' : Message) (h : Message.sameAt a v v') :
    Message.sameAt a (decodeMessageAttr T strict a j v).1 (decodeMessageAttr T strict a j v').1 := by
  cases a <;> simp only [Message.sameAt, decodeMessageAttr] at h ⊢ <;> rw [h]

theorem decodeMessageMembers_absent (T : Tables) (strict : Bool) (a : MessageAttr)
    (ms : List (Bytes × JSON)) (v : Message) (h : Absent T messageNames a ms) :
    Message.sameAt a (decodeMessageMembers T strict ms v).1 v := by
  induction ms generalizing v with
  | nil => rw [decodeMessageMembers]; exact Message.sameAt_same a v
  | cons p ms ih =>
    obtain ⟨key, j⟩ := p
    have ht : Absent T messageNames a ms := fun q hq => h q (List.mem_cons_of_mem _ hq)
    cases hl : lookup T messageNames key with
    | none =>
      rw [decodeMessageMembers_cons_none T strict key j ms v hl]
      exact ih v ht
    | some a' =>
      have hne : a' ≠ a := by
        intro hc
        exact h (key, j) (List.mem_cons_self _ _) (by rw [hl, hc])
      rw [decodeMessageMembers_cons_attr T strict key j ms v a' hl]
      cases (decodeMessageAttr T strict a' j v).2 with
      | error e => exact decodeMessageAttr_frame T strict a a' j v hne
      | ok s =>
        exact Message.sameAt_chain (ih _ ht) (decodeMessageAttr_frame T strict a a' j v hne)

theorem hard_message_cons (T : Tables) (strict : Bool) (key : Bytes) (j : JSON)
    (ms : List (Bytes × JSON)) (v : Message) (a : MessageAttr)
    (hl : lookup T messageNames key = some a)
    (hh : Outcome.hard (decodeMessageMembers T strict ((key, j) :: ms) v).2 = none) :
    Outcome.hard (decodeMessageAttr T strict a j v).2 = none ∧
      (decodeMessageMembers T strict ((key, j) :: ms) v).1 =
        (decodeMessageMembers T strict ms (decodeMessageAttr T strict a j v).1).1 ∧
      Outcome.hard (decodeMessageMembers T strict ms (decodeMessageAttr T strict a j v).1).2 =
        none := by
  rw [decodeMessageMembers_cons_attr T strict key j ms v a hl] at hh ⊢
  cases hr : (decodeMessageAttr T strict a j v).2 with
  | error e => rw [hr] at hh; simp [Outcome.hard] at hh
  | ok s =>
    rw [hr] at hh
    dsimp only at hh ⊢
    rw [hard_andThen_ok] at hh
    exact ⟨rfl, rfl, hh⟩

theorem messageMembersNoRepeat_cons (T : Tables) (key : Bytes) (j : JSON)
    (ms : List (Bytes × JSON)) (h : messageMembersNoRepeat T ((key, j) :: ms) = true) :
    messageMembersNoRepeat T ms = true ∧
      ∀ a, lookup T messageNames key = some a →
        Absent T messageNames a ms ∧
          (a = .Fields ∨ a = .CommonStructs → sliceNoRepeat T j = true) := by
  rw [messageMembersNoRepeat, Bool.and_eq_true] at h
  refine ⟨h.2, ?_⟩
  intro a hl
  have h1 := h.1
  rw [hl] at h1
  simp only [Bool.and_eq_true, List.all_eq_true, decide_eq_true_eq] at h1
  refine ⟨fun p hp => h1.1 p hp, fun ha => ?_⟩
  have h2 := h1.2
  rw [if_pos ha] at h2
  exact h2

theorem decodeMessageMembers_once (T : Tables) (strict : Bool) (ms : List (Bytes × JSON))
    (v : Message) (p : Bytes × JSON) (a : MessageAttr)
    (hnr : messageMembersNoRepeat T ms = true) (hp : p ∈ ms)
    (hl : lookup T messageNames p.1 = some a)
    (hh : Outcome.hard (decodeMessageMembers T strict ms v).2 = none) :
    Message.sameAt a (decodeMessageMembers T strict ms v).1
      (decodeMessageAttr T strict a p.2 v).1 := by
  induction ms generalizing v with
  | nil => exact absurd hp (List.not_mem_nil _)
  | cons q ms ih =>
    obtain ⟨key, j⟩ := q
    obtain ⟨hnr', hab⟩ := messageMembersNoRepeat_cons T key j ms hnr
    rcases List.mem_cons.1 hp with rfl | hp'
    · obtain ⟨-, h2, -⟩ := hard_message_cons T strict key j ms v a hl hh
      rw [h2]
      exact decodeMessageMembers_absent T strict a ms _ (hab a hl).1
    · cases hl0 : lookup T messageNames key with
      | none =>
        rw [decodeMessageMembers_cons_none T strict key j ms v hl0] at hh ⊢
        rw [hard_andThen_ok] at hh
        exact ih v hnr' hp' hh
      | some a0 =>
        have hne : a0 ≠ a := by
          intro hc
          exact (hab a0 hl0).1 p hp' (by rw [hl, hc])
        obtain ⟨-, h2, h3⟩ := hard_message_cons T strict key j ms v a0 hl0 hh
        rw [h2]
        exact Message.sameAt_chain (ih _ hnr' hp' h3)
          (decodeMessageAttr_congr T strict a p.2 _ v
            (decodeMessageAttr_frame T strict a a0 j v hne))

theorem messageMembersAll_cons_other (T : Tables) (P : List (Bytes × JSON) → Field → Prop)
    (key : Bytes) (j : JSON) (ms : List (Bytes × JSON)) (m : Message)
    (h1 : lookup T messageNames key ≠ some .Fields)
    (h2 : lookup T messageNames key ≠ some .CommonStructs) :
    messageMembersAll T P ((key, j) :: ms) m ↔ messageMembersAll T P ms m := by
  rw [messageMembersAll]
  cases hl' : lookup T messageNames key with
  | none => simp
  | some a =>
    rw [hl'] at h1 h2
    cases a <;> first | exact absurd rfl h1 | exact absurd rfl h2 | simp

/-- In a document that gives no attribute twice and is decoded without an error
of the range parser, a property that holds of every object decoded into a zero
`Field`, with the `Field` decoded from it, holds of every field of the message. -/
theorem decodeMessageMembers_all (T : Tables) (strict : Bool)
    (P : List (Bytes × JSON) → Field → Prop)
    (hP : ∀ ms, fieldMembersNoRepeat T ms = true →
      Outcome.hard (decodeFieldMembers T strict ms Field.zero).2 = none →
      P ms (decodeFieldMembers T strict ms Field.zero).1)
    (ms : List (Bytes × JSON)) (v : Message) (hn : messageMembersNoRepeat T ms = true)
    (hh : Outcome.hard (decodeMessageMembers T strict ms v).2 = none)
    (hinv1 : (∃ p ∈ ms, lookup T messageNames p.1 = some .Fields) → v.Fields = [])
    (hinv2 : (∃ p ∈ ms, lookup T messageNames p.1 = some .CommonStructs) →
      v.CommonStructs = []) :
    messageMembersAll T P ms (decodeMessageMembers T strict ms v).1 := by
  induction ms generalizing v with
  | nil => simp [messageMembersAll]
  | cons q ms ih =>
    obtain ⟨key, j⟩ := q
    obtain ⟨hn', hab⟩ := messageMembersNoRepeat_cons T key j ms hn
    cases hl : lookup T messageNames key with
    | none =>
      rw [messageMembersAll_cons_other T P key j ms _ (by rw [hl]; simp) (by rw [hl]; simp)]
      rw [decodeMessageMembers_cons_none T strict key j ms v hl] at hh ⊢
      rw [hard_andThen_ok] at hh
      exact ih v hn' hh (fun ⟨p, hp, hlp⟩ => hinv1 ⟨p, List.mem_cons_of_mem _ hp, hlp⟩)
        (fun ⟨p, hp, hlp⟩ => hinv2 ⟨p, List.mem_cons_of_mem _ hp, hlp⟩)
    | some a =>
      obtain ⟨h1, h2, h3⟩ := hard_message_cons T strict key j ms v a hl hh
      by_cases ha : a = .Fields
      · subst ha
        have hv : v.Fields = [] := hinv1 ⟨(key, j), List.mem_cons_self _ _, hl⟩
        have hf : (decodeMessageMembers T strict ((key, j) :: ms) v).1.Fields =
            (decodeFieldSlice T strict j []).1 := by
          rw [h2]
          have := decodeMessageMembers_absent T strict .Fields ms
            (decodeMessageAttr T strict .Fields j v).1 (hab _ hl).1
          rw [show (decodeMessageMembers T strict ms
              (decodeMessageAttr T strict .Fields j v).1).1.Fields =
            (decodeMessageAttr T strict .Fields j v).1.Fields from this]
          show (decodeFieldSlice T strict j v.Fields).1 = _
          rw [hv]
        have hs : Outcome.hard (decodeFieldSlice T strict j []).2 = none := by
          have : Outcome.hard (decodeFieldSlice T strict j v.Fields).2 = none := h1
          rw [hv] at this
          exact this
        rw [messageMembersAll, hl]
        refine ⟨?_, ?_⟩
        · show sliceAll T P j (decodeMessageMembers T strict ((key, j) :: ms) v).1.Fields
          rw [hf]
          exact decodeFieldSlice_all T strict P hP j ((hab _ hl).2 (Or.inl rfl)) hs
        · rw [h2]
          refine ih _ hn' h3 (fun ⟨p, hp, hlp⟩ => absurd hlp ((hab _ hl).1 p hp)) ?_
          intro ⟨p, hp, hlp⟩
          exact hinv2 ⟨p, List.mem_cons_of_mem _ hp, hlp⟩
      · by_cases hc : a = .CommonStructs
        · subst hc
          have hv : v.CommonStructs = [] := hinv2 ⟨(key, j), List.mem_cons_self _ _, hl⟩
          have hf : (decodeMessageMembers T strict ((key, j) :: ms) v).1.CommonStructs =
              (decodeFieldSlice T strict j []).1 := by
            rw [h2]
            have := decodeMessageMembers_absent T strict .CommonStructs ms
              (decodeMessageAttr T strict .CommonStructs j v).1 (hab _ hl).1
            rw [show (decodeMessageMembers T strict ms
                (decodeMessageAttr T strict .CommonStructs j v).1).1.CommonStructs =
              (decodeMessageAttr T strict .CommonStructs j v).1.CommonStructs from this]
            show (decodeFieldSlice T strict j v.CommonStructs).1 = _
            rw [hv]
          have hs : Outcome.hard (decodeFieldSlice T strict j []).2 = none := by
            have : Outcome.hard (decodeFieldSlice T strict j v.CommonStructs).2 = none := h1
            rw [hv] at this
            exact this
          rw [messageMembersAll, hl]
          refine ⟨?_, ?_⟩
          · show sliceAll T P j
              (decodeMessageMembers T strict ((key, j) :: ms) v).1.CommonStructs
            rw [hf]
            exact decodeFieldSlice_all T strict P hP j ((hab _ hl).2 (Or.inr rfl)) hs
          · rw [h2]
            refine ih _ hn' h3 ?_ (fun ⟨p, hp, hlp⟩ => absurd hlp ((hab _ hl).1 p hp))
            intro ⟨p, hp, hlp⟩
            exact hinv1 ⟨p, List.mem_cons_of_mem _ hp, hlp⟩
        · rw [messageMembersAll_cons_other T P key j ms _ (by rw [hl]; simpa using ha)
            (by rw [hl]; simpa using hc), h2]
          refine ih _ hn' h3 ?_ ?_
          · intro ⟨p, hp, hlp⟩
            have hfr : (decodeMessageAttr T strict a j v).1.Fields = v.Fields :=
              decodeMessageAttr_frame T strict .Fields a j v ha
            rw [hfr]
            exact hinv1 ⟨p, List.mem_cons_of_mem _ hp, hlp⟩
          · intro ⟨p, hp, hlp⟩
            have hfr : (decodeMessageAttr T strict a j v).1.CommonStructs = v.CommonStructs :=
              decodeMessageAttr_frame T strict .CommonStructs a j v hc
            rw [hfr]
            exact hinv2 ⟨p, List.mem_cons_of_mem _ hp, hlp⟩

theorem decodeRange_fst (T : Tables) (j : JSON) (v : Range) :
    (decodeRange T j v).1 = (v.UnmarshalJSON j.text).1 := by
  unfold decodeRange
  rcases h : v.UnmarshalJSON j.text with ⟨r, e⟩
  cases e <;> rfl

theorem fieldStep_range (T : Tables) (strict : Bool) (a : FieldAttr) (j : JSON)
    (ha : a.isRange = true) :
    (fieldStep T strict a j Field.zero).1.range a = (Range.zero.UnmarshalJSON j.text).1 := by
  cases a <;> first
    | exact absurd ha (by decide)
    | exact decodeRange_fst T j Range.zero

theorem Field.sameAt_range {a : FieldAttr} {f g : Field} (ha : a.isRange = true)
    (h : Field.sameAt a f g) : f.range a = g.range a := by
  cases a <;> first | exact absurd ha (by decide) | exact h

theorem fieldRangesParsed_holds (T : Tables) (strict : Bool) (ms : List (Bytes × JSON))
    (hn : fieldMembersNoRepeat T ms = true)
    (hh : Outcome.hard (decodeFieldMembers T strict ms Field.zero).2 = none) :
    fieldRangesParsed T ms (decodeFieldMembers T strict ms Field.zero).1 := by
  intro p hp a hl ha
  rw [Field.sameAt_range ha (decodeFieldMembers_once T strict ms Field.zero p a hn hp hl hh),
    fieldStep_range T strict a p.2 ha]

theorem fieldAbsentZero_holds (T : Tables) (strict : Bool) (ms : List (Bytes × JSON)) :
    fieldAbsentZero T ms (decodeFieldMembers T strict ms Field.zero).1 :=
  fun a ha => decodeFieldMembers_absent T strict a ms Field.zero ha

theorem Decode_hard_none (T : Tables) (strict : Bool) (msg : Message) (doc : JSON)
    (h : (Decode T strict msg doc).2 = none) :
    Outcome.hard (decodeMessage T strict doc msg).2 = none := by
  rw [(Decode_error_none T strict msg doc).1 h]
  rfl

theorem Decode_fst (T : Tables) (strict : Bool) (msg : Message) (doc : JSON) :
    (Decode T strict msg doc).1 = (decodeMessage T strict doc msg).1 := by
  unfold Decode
  rcases decodeMessage T strict doc msg with ⟨m, r⟩
  cases r <;> rfl

/-! ## The claims on the decoded message -/

/-- C12, as the specification words it, fails: the document that gives
`validVersions` twice, as `"0-4"` and then as `"3+"`, decodes successfully, and
`ValidVersions` holds `3+` with `Begin = 3` and the `End = 4` of the first value,
which is what `Range.UnmarshalJSON` leaves in a zero `Range` on neither value. -/
theorem C12_counterexample :
    (Decode asciiTables true Message.zero twiceRangeDoc).2 = none ∧
      (Decode asciiTables true Message.zero twiceRangeDoc).1.ValidVersions =
        ⟨str "3+", 3, 4⟩ ∧
      (Decode asciiTables true Message.zero twiceRangeDoc).1.ValidVersions ≠
        (Range.zero.UnmarshalJSON (jstring "0-4").text).1 ∧
      (Decode asciiTables true Message.zero twiceRangeDoc).1.ValidVersions ≠
        (Range.zero.UnmarshalJSON (jstring "3+").text).1 := by
  decide

/-- C12, amended: in every successfully decoded `Message` whose document gives no
attribute twice in one object, each range-valued attribute of the message and of
every field at every depth equals what `Range.UnmarshalJSON` leaves in a
zero-valued `Range` on the text of that attribute's JSON value. The document of
the scenario decodes to the `Message` the scenario states, everything else zero. -/
theorem C12_ranges_parsed (T : Tables) (doc : JSON) (hn : messageNoRepeat T doc = true)
    (hs : (Decode T true Message.zero doc).2 = none) :
    (∀ raw ms, doc = .object raw ms →
      messageRangesParsed T ms (Decode T true Message.zero doc).1) ∧
    messageAll T (fieldRangesParsed T) doc (Decode T true Message.zero doc).1 ∧
    Decode T true Message.zero scenarioDoc = (scenarioMessage, none) := by
  have hh := Decode_hard_none T true Message.zero doc hs
  rw [Decode_fst]
  refine ⟨?_, ?_, rfl⟩
  · intro raw ms hd
    subst hd
    simp only [decodeMessage] at hh ⊢
    rw [messageNoRepeat] at hn
    intro p hp
    constructor
    · intro hl
      have h := decodeMessageMembers_once T true ms Message.zero p .ValidVersions hn hp hl hh
      exact Eq.trans h (decodeRange_fst T p.2 Range.zero)
    · intro hl
      have h := decodeMessageMembers_once T true ms Message.zero p .FlexibleVersions hn hp hl hh
      exact Eq.trans h (decodeRange_fst T p.2 Range.zero)
  · cases doc with
    | object raw ms =>
      simp only [decodeMessage] at hh ⊢
      rw [messageNoRepeat] at hn
      rw [messageAll]
      exact decodeMessageMembers_all T true (fieldRangesParsed T)
        (fieldRangesParsed_holds T true) ms Message.zero hn hh (fun _ => rfl) (fun _ => rfl)
    | _ => simp [messageAll]

theorem C12_ranges_parsed_witness :
    (messageNoRepeat asciiTables scenarioDoc = true ∧
      (Decode asciiTables true Message.zero scenarioDoc).2 = none) ∧
    messageAll asciiTables (fieldRangesParsed asciiTables) scenarioDoc
      (Decode asciiTables true Message.zero scenarioDoc).1 ∧
    Decode asciiTables true Message.zero scenarioDoc = (scenarioMessage, none) :=
  ⟨⟨by decide, by decide⟩,
    (C12_ranges_parsed asciiTables scenarioDoc (by decide) (by decide)).2⟩

/-! ## The outcome of a step does not depend on the value decoded into -/

theorem decodeString_snd (j : JSON) (v v' : Bytes) :
    (decodeString j v).2 = (decodeString j v').2 := by
  cases j <;> rfl

theorem decodeBool_snd (j : JSON) (v v' : Bool) :
    (decodeBool j v).2 = (decodeBool j v').2 := by
  cases j <;> rfl

theorem decodeInt_snd (j : JSON) (v v' : Int) :
    (decodeInt j v).2 = (decodeInt j v').2 := by
  cases j with
  | number raw =>
    simp only [decodeInt]
    cases ParseInt raw <;> rfl
  | _ => rfl

theorem decodeStringElems_snd (js : List JSON) (v v' : List Bytes) :
    (decodeStringElems js v).2 = (decodeStringElems js v').2 := by
  induction js generalizing v v' with
  | nil => rfl
  | cons j js ih =>
    simp only [decodeStringElems]
    rw [decodeString_snd j (v.headD []) (v'.headD []), ih v.tail v'.tail]

theorem decodeStrings_snd (j : JSON) (v v' : List Bytes) :
    (decodeStrings j v).2 = (decodeStrings j v').2 := by
  cases j with
  | array raw elems => exact decodeStringElems_snd elems v v'
  | _ => rfl

theorem decodeDefault_snd (T : Tables) (j : JSON) (v v' : Option JSON) :
    (decodeDefault T j v).2 = (decodeDefault T j v').2 := by
  cases j with
  | number raw =>
    simp only [decodeDefault]
    split_ifs <;> rfl
  | _ => rfl

theorem decodeRange_snd (T : Tables) (j : JSON) (v v' : Range) :
    (decodeRange T j v).2 = (decodeRange T j v').2 := by
  have h := UnmarshalJSON_error_receiver v v' j.text
  unfold decodeRange
  rcases h1 : v.UnmarshalJSON j.text with ⟨r1, e1⟩
  rcases h2 : v'.UnmarshalJSON j.text with ⟨r2, e2⟩
  rw [h1, h2] at h
  dsimp only at h
  subst h
  cases e1 <;> rfl

theorem decodeFieldAttr_snd (T : Tables) (a : FieldAttr) (j : JSON) (v v' : Field) :
    (decodeFieldAttr T a j v).2 = (decodeFieldAttr T a j v').2 := by
  cases a
  case Fields => rfl
  all_goals
    simp only [decodeFieldAttr]
    first
      | exact decodeRange_snd T j _ _
      | exact congrArg Except.ok (decodeString_snd j _ _)
      | exact congrArg Except.ok (decodeBool_snd j _ _)
      | exact congrArg Except.ok (decodeInt_snd j _ _)
      | exact congrArg Except.ok (decodeDefault_snd T j _ _)

mutual
theorem decodeField_snd (T : Tables) (strict : Bool) :
    ∀ (j : JSON) (v v' : Field), (decodeField T strict j v).2 = (decodeField T strict j v').2
  | .object _ members, v, v' => by
    rw [decodeField, decodeField]
    exact decodeFieldMembers_snd T strict members v v'
  | .null, _, _ => by simp [decodeField]
  | .bool _, _, _ => by simp [decodeField]
  | .number _, _, _ => by simp [decodeField]
  | .string _ _, _, _ => by simp [decodeField]
  | .array _ _, _, _ => by simp [decodeField]
termination_by structural j => j
theorem decodeFieldMembers_snd (T : Tables) (strict : Bool) :
    ∀ (ms : List (Bytes × JSON)) (v v' : Field),
      (decodeFieldMembers T strict ms v).2 = (decodeFieldMembers T strict ms v').2
  | [], _, _ => by rw [decodeFieldMembers, decodeFieldMembers]
  | (key, j) :: ms, v, v' => by
    cases hl : lookup T fieldNames key with
    | none =>
      rw [decodeFieldMembers_cons_none T strict key j ms v hl,
        decodeFieldMembers_cons_none T strict key j ms v' hl]
      dsimp only
      rw [decodeFieldMembers_snd T strict ms v v']
    | some a =>
      by_cases ha : a = .Fields
      · subst ha
        rw [decodeFieldMembers_cons_fields T strict key j ms v hl,
          decodeFieldMembers_cons_fields T strict key j ms v' hl,
          decodeFieldSlice_snd T strict j v.Fields v'.Fields]
        cases hr : (decodeFieldSlice T strict j v'.Fields).2 with
        | error e => rfl
        | ok s =>
          dsimp only
          rw [decodeFieldMembers_snd T strict ms _ _]
      · rw [decodeFieldMembers_cons_attr T strict key j ms v a hl ha,
          decodeFieldMembers_cons_attr T strict key j ms v' a hl ha,
          decodeFieldAttr_snd T a j v v']
        cases hr : (decodeFieldAttr T a j v').2 with
        | error e => rfl
        | ok s =>
          dsimp only
          rw [decodeFieldMembers_snd T strict ms _ _]
termination_by structural ms => ms
theorem decodeFieldSlice_snd (T : Tables) (strict : Bool) :
    ∀ (j : JSON) (v v' : List Field),
      (decodeFieldSlice T strict j v).2 = (decodeFieldSlice T strict j v').2
  | .array _ elems, v, v' => by
    rw [decodeFieldSlice, decodeFieldSlice]
    exact decodeFieldElems_snd T strict elems v v'
  | .null, _, _ => by simp [decodeFieldSlice]
  | .bool _, _, _ => by simp [decodeFieldSlice]
  | .number _, _, _ => by simp [decodeFieldSlice]
  | .string _ _, _, _ => by simp [decodeFieldSlice]
  | .object _ _, _, _ => by simp [decodeFieldSlice]
termination_by structural j => j
theorem decodeFieldElems_snd (T : Tables) (strict : Bool) :
    ∀ (js : List JSON) (v v' : List Field),
      (decodeFieldElems T strict js v).2 = (decodeFieldElems T strict js v').2
  | [], _, _ => by rw [decodeFieldElems, decodeFieldElems]
  | j :: js, v, v' => by
    rw [decodeFieldElems, decodeFieldElems,
      decodeField_snd T strict j (v.headD Field.zero) (v'.headD Field.zero)]
    cases hr : (decodeField T strict j (v'.headD Field.zero)).2 with
    | error e => rfl
    | ok s =>
      dsimp only
      rw [decodeFieldElems_snd T strict js _ _]
termination_by structural js => js
end

theorem decodeMessageAttr_snd (T : Tables) (strict : Bool) (a : MessageAttr) (j : JSON)
    (v v' : Message) :
    (decodeMessageAttr T strict a j v).2 = (decodeMessageAttr T strict a j v').2 := by
  cases a <;> simp only [decodeMessageAttr] <;> first
    | exact congrArg Except.ok (decodeString_snd j _ _)
    | exact congrArg Except.ok (decodeBool_snd j _ _)
    | exact congrArg Except.ok (decodeInt_snd j _ _)
    | exact congrArg Except.ok (decodeStrings_snd j _ _)
    | exact decodeRange_snd T j _ _
    | exact decodeFieldSlice_snd T strict j _ _

theorem decodeMessageMembers_snd (T : Tables) (strict : Bool) (ms : List (Bytes × JSON))
    (v v' : Message) :
    (decodeMessageMembers T strict ms v).2 = (decodeMessageMembers T strict ms v').2 := by
  induction ms generalizing v v' with
  | nil => rfl
  | cons p ms ih =>
    obtain ⟨key, j⟩ := p
    cases hl : lookup T messageNames key with
    | none =>
      rw [decodeMessageMembers_cons_none T strict key j ms v hl,
        decodeMessageMembers_cons_none T strict key j ms v' hl]
      dsimp only
      rw [ih v v']
    | some a =>
      rw [decodeMessageMembers_cons_attr T strict key j ms v a hl,
        decodeMessageMembers_cons_attr T strict key j ms v' a hl,
        decodeMessageAttr_snd T strict a j v v']
      cases hr : (decodeMessageAttr T strict a j v').2 with
      | error e => rfl
      | ok s =>
        dsimp only
        rw [ih _ _]

/-! ## Taking a member away -/

theorem decodeFieldMembers_cons_ok (T : Tables) (strict : Bool) (p : Bytes × JSON)
    (ms : List (Bytes × JSON)) (v : Field) :
    (decodeFieldMembers T strict (p :: ms) v).2 = .ok none ↔
      (decodeFieldMembers T strict [p] v).2 = .ok none ∧
        (decodeFieldMembers T strict ms v).2 = .ok none := by
  obtain ⟨key, j⟩ := p
  have hnil : ∀ w, (decodeFieldMembers T strict [] w).2 = .ok none := by
    intro w
    rw [decodeFieldMembers]
  cases hl : lookup T fieldNames key with
  | none =>
    rw [decodeFieldMembers_cons_none T strict key j ms v hl,
      decodeFieldMembers_cons_none T strict key j [] v hl]
    dsimp only
    rw [andThen_ok_none, andThen_ok_none]
    simp [hnil]
  | some a =>
    rw [decodeFieldMembers_cons_some T strict key j ms v a hl,
      decodeFieldMembers_cons_some T strict key j [] v a hl]
    cases hr : (fieldStep T strict a j v).2 with
    | error e => simp
    | ok s =>
      dsimp only
      rw [andThen_ok_none, andThen_ok_none, decodeFieldMembers_snd T strict ms _ v]
      simp [hnil]

theorem decodeFieldMembers_remove (T : Tables) (strict : Bool) (pre : List (Bytes × JSON))
    (p : Bytes × JSON) (post : List (Bytes × JSON)) (v : Field)
    (h : (decodeFieldMembers T strict (pre ++ p :: post) v).2 = .ok none) :
    (decodeFieldMembers T strict (pre ++ post) v).2 = .ok none := by
  induction pre with
  | nil => exact ((decodeFieldMembers_cons_ok T strict p post v).1 h).2
  | cons q pre ih =>
    rw [List.cons_append, decodeFieldMembers_cons_ok] at h ⊢
    exact ⟨h.1, ih h.2⟩

theorem decodeMessageMembers_cons_ok (T : Tables) (strict : Bool) (p : Bytes × JSON)
    (ms : List (Bytes × JSON)) (v : Message) :
    (decodeMessageMembers T strict (p :: ms) v).2 = .ok none ↔
      (decodeMessageMembers T strict [p] v).2 = .ok none ∧
        (decodeMessageMembers T strict ms v).2 = .ok none := by
  obtain ⟨key, j⟩ := p
  have hnil : ∀ w, (decodeMessageMembers T strict [] w).2 = .ok none := by
    intro w
    rw [decodeMessageMembers]
  cases hl : lookup T messageNames key with
  | none =>
    rw [decodeMessageMembers_cons_none T strict key j ms v hl,
      decodeMessageMembers_cons_none T strict key j [] v hl]
    dsimp only
    rw [andThen_ok_none, andThen_ok_none]
    simp [hnil]
  | some a =>
    rw [decodeMessageMembers_cons_attr T strict key j ms v a hl,
      decodeMessageMembers_cons_attr T strict key j [] v a hl]
    cases hr : (decodeMessageAttr T strict a j v).2 with
    | error e => simp
    | ok s =>
      dsimp only
      rw [andThen_ok_none, andThen_ok_none, decodeMessageMembers_snd T strict ms _ v]
      simp [hnil]

theorem decodeMessageMembers_remove (T : Tables) (strict : Bool) (pre : List (Bytes × JSON))
    (p : Bytes × JSON) (post : List (Bytes × JSON)) (v : Message)
    (h : (decodeMessageMembers T strict (pre ++ p :: post) v).2 = .ok none) :
    (decodeMessageMembers T strict (pre ++ post) v).2 = .ok none := by
  induction pre with
  | nil => exact ((decodeMessageMembers_cons_ok T strict p post v).1 h).2
  | cons q pre ih =>
    rw [List.cons_append, decodeMessageMembers_cons_ok] at h ⊢
    exact ⟨h.1, ih h.2⟩

/-! ## Absent attributes -/

/-- C13, as the specification words it, fails for a `Field` object: the document
that gives `fields` twice, first as `[\x7b"name":"A"\x7d]` and then as `[\x7b\x7d]`,
decodes successfully; the empty object of the second array is decoded into the
`Field` the first array left in the slice, so the `Field` decoded from it holds
the name `A` although the object gives no name. -/
theorem C13_counterexample :
    (Decode asciiTables true Message.zero twiceFieldsDoc).2 = none ∧
      (Decode asciiTables true Message.zero twiceFieldsDoc).1.Fields =
        [{ Field.zero with Name := str "A" }] ∧
      ¬ messageAll asciiTables (fieldAbsentZero asciiTables) twiceFieldsDoc
        (Decode asciiTables true Message.zero twiceFieldsDoc).1 := by
  refine ⟨by decide, rfl, ?_⟩
  intro h
  have h2 : fieldAbsentZero asciiTables []
      ({ Field.zero with Name := str "A" } : Field) := h.2.1.1.1
  have h3 : str "A" = ([] : Bytes) := h2 .Name (fun p hp => absurd hp (List.not_mem_nil p))
  exact absurd h3 (by decide)

/-- C13, amended: an attribute that the object of the document does not give
holds its zero value in the `Message` decoded into the zero-valued `msg`, and an
attribute that an object does not give is left as it was in the `Field` the object
is decoded into; in a successfully decoded document that gives no attribute twice
in one object, every `Field` object at every depth is decoded into a zero `Field`,
so that each attribute it does not give holds the zero value. Taking a member away
from an object that decodes without an error, into a `Message` or into a `Field`,
leaves an object that decodes without an error, and the empty object decodes to
the all-zero `Message` without an error. -/
theorem C13_absence (T : Tables) (strict : Bool) (doc : JSON) :
    (∀ a, Absent T messageNames a doc.members →
      Message.sameAt a (Decode T strict Message.zero doc).1 Message.zero) ∧
    (∀ a f, Absent T fieldNames a doc.members →
      Field.sameAt a (decodeField T strict doc f).1 f) ∧
    (messageNoRepeat T doc = true → (Decode T strict Message.zero doc).2 = none →
      messageAll T (fieldAbsentZero T) doc (Decode T strict Message.zero doc).1) ∧
    (∀ raw pre p post, doc = .object raw (pre ++ p :: post) → ∀ raw',
      ((Decode T strict Message.zero doc).2 = none →
        (Decode T strict Message.zero (.object raw' (pre ++ post))).2 = none) ∧
      (∀ f, (decodeField T strict doc f).2 = .ok none →
        (decodeField T strict (.object raw' (pre ++ post)) f).2 = .ok none)) ∧
    (∀ raw, Decode T strict Message.zero (.object raw []) = (Message.zero, none)) := by
  refine ⟨?_, ?_, ?_, ?_, fun _ => rfl⟩
  · intro a ha
    rw [Decode_fst]
    cases doc with
    | object raw ms => exact decodeMessageMembers_absent T strict a ms Message.zero ha
    | _ => exact Message.sameAt_same a _
  · intro a f ha
    cases doc with
    | object raw ms =>
      rw [decodeField]
      exact decodeFieldMembers_absent T strict a ms f ha
    | _ => simp only [decodeField]; exact Field.sameAt_refl a _
  · intro hn hs
    have hh := Decode_hard_none T strict Message.zero doc hs
    rw [Decode_fst]
    cases doc with
    | object raw ms =>
      simp only [decodeMessage] at hh ⊢
      rw [messageNoRepeat] at hn
      rw [messageAll]
      exact decodeMessageMembers_all T strict (fieldAbsentZero T)
        (fun ms _ _ => fieldAbsentZero_holds T strict ms) ms Message.zero hn hh
        (fun _ => rfl) (fun _ => rfl)
    | _ => simp [messageAll]
  · intro raw pre p post hd raw'
    subst hd
    constructor
    · intro hs
      rw [Decode_error_none] at hs ⊢
      simp only [decodeMessage] at hs ⊢
      exact decodeMessageMembers_remove T strict pre p post Message.zero hs
    · intro f hs
      rw [decodeField] at hs ⊢
      exact decodeFieldMembers_remove T strict pre p post f hs

theorem C13_absence_witness :
    (Absent asciiTables messageNames .Listeners scenarioDoc.members ∧
      messageNoRepeat asciiTables scenarioDoc = true ∧
      (Decode asciiTables true Message.zero scenarioDoc).2 = none) ∧
    (Decode asciiTables true Message.zero scenarioDoc).1.Listeners = [] ∧
    messageAll asciiTables (fieldAbsentZero asciiTables) scenarioDoc
      (Decode asciiTables true Message.zero scenarioDoc).1 ∧
    (Decode asciiTables true Message.zero
      (jobject [("apiKey", .number (str "18")), ("type", jstring "request"),
        ("name", jstring "X"), ("validVersions", jstring "0-4"),
        ("fields", jarray [
          jobject [("name", jstring "A"), ("type", jstring "string"),
            ("versions", jstring "3+"), ("ignorable", .bool true),
            ("about", jstring "d")]])])).2 = none :=
  ⟨⟨by unfold Absent; decide, by decide, by decide⟩,
    (C13_absence asciiTables true scenarioDoc).1 .Listeners (by unfold Absent; decide),
    (C13_absence asciiTables true scenarioDoc).2.2.1 (by decide) (by decide),
    ((C13_absence asciiTables true scenarioDoc).2.2.2.1 _
      [(str "apiKey", .number (str "18")), (str "type", jstring "request"),
        (str "name", jstring "X"), (str "validVersions", jstring "0-4")]
      (str "flexibleVersions", jstring "3+")
      [(str "fields", jarray [
          jobject [("name", jstring "A"), ("type", jstring "string"),
            ("versions", jstring "3+"), ("ignorable", .bool true),
            ("about", jstring "d")]])]
      rfl _).1 (by decide)⟩

/-! ## A rejected range token, with either decoder -/

theorem decodeRange_ok_none (T : Tables) (j : JSON) (v : Range)
    (h : (decodeRange T j v).2 = .ok none) : (Range.zero.UnmarshalJSON j.text).2 = none := by
  rw [UnmarshalJSON_error_receiver Range.zero v]
  unfold decodeRange Outcome.ofMethod at h
  rcases hr : v.UnmarshalJSON j.text with ⟨r, e⟩
  rw [hr] at h
  cases e with
  | none => rfl
  | some e =>
    dsimp only at h
    cases hs : T.stops <;> rw [hs] at h <;> simp at h

theorem decodeRange_rejected (T : Tables) (j : JSON) (v : Range) (e : Error)
    (h : (Range.zero.UnmarshalJSON j.text).2 = some e) :
    (decodeRange T j v).2 = Outcome.ofMethod T e := by
  rw [UnmarshalJSON_error_receiver Range.zero v] at h
  unfold decodeRange
  rcases hr : v.UnmarshalJSON j.text with ⟨r, e'⟩
  rw [hr] at h
  dsimp only at h
  subst h
  rfl

theorem decodeRange_soft (T : Tables) (hT : T.stops = false) (j : JSON) (v : Range) :
    Outcome.hard (decodeRange T j v).2 = none := by
  unfold decodeRange Outcome.ofMethod
  rw [hT]
  rcases hr : v.UnmarshalJSON j.text with ⟨r, e⟩
  cases e <;> rfl

theorem decodeFieldAttr_ok_tokens (T : Tables) (a : FieldAttr) (j : JSON) (v : Field)
    (h : (decodeFieldAttr T a j v).2 = .ok none) :
    firstRejected (if a.isRange then [j.text] else []) = none := by
  cases a
  case Versions =>
    simp only [FieldAttr.isRange, if_true, firstRejected_single]
    exact decodeRange_ok_none T j _ h
  case TaggedVersions =>
    simp only [FieldAttr.isRange, if_true, firstRejected_single]
    exact decodeRange_ok_none T j _ h
  case NullableVersions =>
    simp only [FieldAttr.isRange, if_true, firstRejected_single]
    exact decodeRange_ok_none T j _ h
  case FlexibleVersions =>
    simp only [FieldAttr.isRange, if_true, firstRejected_single]
    exact decodeRange_ok_none T j _ h
  all_goals rfl

theorem decodeFieldAttr_soft (T : Tables) (hT : T.stops = false) (a : FieldAttr) (j : JSON)
    (v : Field) : Outcome.hard (decodeFieldAttr T a j v).2 = none := by
  cases a
  case Versions => exact decodeRange_soft T hT j _
  case TaggedVersions => exact decodeRange_soft T hT j _
  case NullableVersions => exact decodeRange_soft T hT j _
  case FlexibleVersions => exact decodeRange_soft T hT j _
  all_goals rfl

theorem hard_ne_error {r : Outcome} (h : Outcome.hard r = none) (e : Error) :
    r ≠ .error e := by
  intro hc
  rw [hc] at h
  exact absurd h (by simp [Outcome.hard])

mutual
theorem decodeField_soft (T : Tables) (hT : T.stops = false) (strict : Bool) :
    ∀ (j : JSON) (v : Field), Outcome.hard (decodeField T strict j v).2 = none
  | .object _ members, v => by
    rw [decodeField]
    exact decodeFieldMembers_soft T hT strict members v
  | .null, _ => by simp [decodeField, Outcome.hard]
  | .bool _, _ => by simp [decodeField, Outcome.hard]
  | .number _, _ => by simp [decodeField, Outcome.hard]
  | .string _ _, _ => by simp [decodeField, Outcome.hard]
  | .array _ _, _ => by simp [decodeField, Outcome.hard]
termination_by structural j => j
theorem decodeFieldMembers_soft (T : Tables) (hT : T.stops = false) (strict : Bool) :
    ∀ (ms : List (Bytes × JSON)) (v : Field),
      Outcome.hard (decodeFieldMembers T strict ms v).2 = none
  | [], _ => by rw [decodeFieldMembers]; rfl
  | (key, j) :: ms, v => by
    cases hl : lookup T fieldNames key with
    | none =>
      rw [decodeFieldMembers_cons_none T strict key j ms v hl, hard_andThen_ok]
      exact decodeFieldMembers_soft T hT strict ms v
    | some a =>
      by_cases ha : a = .Fields
      · subst ha
        rw [decodeFieldMembers_cons_fields T strict key j ms v hl]
        have hs := decodeFieldSlice_soft T hT strict j v.Fields
        cases hr : (decodeFieldSlice T strict j v.Fields).2 with
        | error e => exact absurd hr (hard_ne_error hs e)
        | ok s =>
          dsimp only
          rw [hard_andThen_ok]
          exact decodeFieldMembers_soft T hT strict ms _
      · rw [decodeFieldMembers_cons_attr T strict key j ms v a hl ha]
        have hs := decodeFieldAttr_soft T hT a j v
        cases hr : (decodeFieldAttr T a j v).2 with
        | error e => exact absurd hr (hard_ne_error hs e)
        | ok s =>
          dsimp only
          rw [hard_andThen_ok]
          exact decodeFieldMembers_soft T hT strict ms _
termination_by structural ms => ms
theorem decodeFieldSlice_soft (T : Tables) (hT : T.stops = false) (strict : Bool) :
    ∀ (j : JSON) (v : List Field), Outcome.hard (decodeFieldSlice T strict j v).2 = none
  | .array _ elems, v => by
    rw [decodeFieldSlice]
    exact decodeFieldElems_soft T hT strict elems v
  | .null, _ => by simp [decodeFieldSlice, Outcome.hard]
  | .bool _, _ => by simp [decodeFieldSlice, Outcome.hard]
  | .number _, _ => by simp [decodeFieldSlice, Outcome.hard]
  | .string _ _, _ => by simp [decodeFieldSlice, Outcome.hard]
  | .object _ _, _ => by simp [decodeFieldSlice, Outcome.hard]
termination_by structural j => j
theorem decodeFieldElems_soft (T : Tables) (hT : T.stops = false) (strict : Bool) :
    ∀ (js : List JSON) (v : List Field),
      Outcome.hard (decodeFieldElems T strict js v).2 = none
  | [], _ => by rw [decodeFieldElems]; rfl
  | j :: js, v => by
    rw [decodeFieldElems]
    have hs := decodeField_soft T hT strict j (v.headD Field.zero)
    cases hr : (decodeField T strict j (v.headD Field.zero)).2 with
    | error e => exact absurd hr (hard_ne_error hs e)
    | ok s =>
      dsimp only
      rw [hard_andThen_ok]
      exact decodeFieldElems_soft T hT strict js _
termination_by structural js => js
end

mutual
theorem decodeField_ok_tokens (T : Tables) (strict : Bool) :
    ∀ (j : JSON) (v : Field), (decodeField T strict j v).2 = .ok none →
      firstRejected (fieldRangeTokens T j) = none
  | .object _ members, v, h => by
    rw [decodeField] at h
    rw [fieldRangeTokens]
    exact decodeFieldMembers_ok_tokens T strict members v h
  | .null, _, _ => by simp [fieldRangeTokens, firstRejected]
  | .bool _, _, _ => by simp [fieldRangeTokens, firstRejected]
  | .number _, _, _ => by simp [fieldRangeTokens, firstRejected]
  | .string _ _, _, _ => by simp [fieldRangeTokens, firstRejected]
  | .array _ _, _, _ => by simp [fieldRangeTokens, firstRejected]
termination_by structural j => j
theorem decodeFieldMembers_ok_tokens (T : Tables) (strict : Bool) :
    ∀ (ms : List (Bytes × JSON)) (v : Field), (decodeFieldMembers T strict ms v).2 = .ok none →
      firstRejected (fieldMembersRangeTokens T ms) = none
  | [], _, _ => by rw [fieldMembersRangeTokens]; rfl
  | (key, j) :: ms, v, h => by
    revert h
    cases hl : lookup T fieldNames key with
    | none =>
      rw [decodeFieldMembers_cons_none T strict key j ms v hl, fieldMembersRangeTokens, hl,
        List.nil_append]
      intro h
      exact decodeFieldMembers_ok_tokens T strict ms v ((andThen_ok_none _ _).1 h).2
    | some a =>
      by_cases ha : a = .Fields
      · subst ha
        rw [decodeFieldMembers_cons_fields T strict key j ms v hl, fieldMembersRangeTokens, hl,
          firstRejected_append]
        cases hr : (decodeFieldSlice T strict j v.Fields).2 with
        | error e => intro h; exact absurd h (by simp)
        | ok s =>
          dsimp only
          intro h
          obtain ⟨hs, hrest⟩ := (andThen_ok_none _ _).1 h
          subst hs
          rw [decodeFieldSlice_ok_tokens T strict j v.Fields hr,
            decodeFieldMembers_ok_tokens T strict ms _ hrest]
          rfl
      · rw [decodeFieldMembers_cons_attr T strict key j ms v a hl ha,
          fieldMembersRangeTokens_cons_attr T key j ms a hl ha, firstRejected_append]
        cases hr : (decodeFieldAttr T a j v).2 with
        | error e => intro h; exact absurd h (by simp)
        | ok s =>
          dsimp only
          intro h
          obtain ⟨hs, hrest⟩ := (andThen_ok_none _ _).1 h
          subst hs
          rw [decodeFieldAttr_ok_tokens T a j v hr,
            decodeFieldMembers_ok_tokens T strict ms _ hrest]
          rfl
termination_by structural ms => ms
theorem decodeFieldSlice_ok_tokens (T : Tables) (strict : Bool) :
    ∀ (j : JSON) (v : List Field), (decodeFieldSlice T strict j v).2 = .ok none →
      firstRejected (sliceRangeTokens T j) = none
  | .array _ elems, v, h => by
    rw [decodeFieldSlice] at h
    rw [sliceRangeTokens]
    exact decodeFieldElems_ok_tokens T strict elems v h
  | .null, _, _ => by simp [sliceRangeTokens, firstRejected]
  | .bool _, _, _ => by simp [sliceRangeTokens, firstRejected]
  | .number _, _, _ => by simp [sliceRangeTokens, firstRejected]
  | .string _ _, _, _ => by simp [sliceRangeTokens, firstRejected]
  | .object _ _, _, _ => by simp [sliceRangeTokens, firstRejected]
termination_by structural j => j
theorem decodeFieldElems_ok_tokens (T : Tables) (strict : Bool) :
    ∀ (js : List JSON) (v : List Field), (decodeFieldElems T strict js v).2 = .ok none →
      firstRejected (elemsRangeTokens T js) = none
  | [], _, _ => by rw [elemsRangeTokens]; rfl
  | j :: js, v, h => by
    revert h
    rw [decodeFieldElems, elemsRangeTokens, firstRejected_append]
    cases hr : (decodeField T strict j (v.headD Field.zero)).2 with
    | error e => intro h; exact absurd h (by simp)
    | ok s =>
      dsimp only
      intro h
      obtain ⟨hs, hrest⟩ := (andThen_ok_none _ _).1 h
      subst hs
      rw [decodeField_ok_tokens T strict j _ hr, decodeFieldElems_ok_tokens T strict js _ hrest]
      rfl
termination_by structural js => js
end

theorem decodeMessageAttr_soft (T : Tables) (hT : T.stops = false) (strict : Bool)
    (a : MessageAttr) (j : JSON) (v : Message) :
    Outcome.hard (decodeMessageAttr T strict a j v).2 = none := by
  cases a
  case ValidVersions => exact decodeRange_soft T hT j _
  case FlexibleVersions => exact decodeRange_soft T hT j _
  case Fields => exact decodeFieldSlice_soft T hT strict j _
  case CommonStructs => exact decodeFieldSlice_soft T hT strict j _
  all_goals rfl

theorem decodeMessageMembers_soft (T : Tables) (hT : T.stops = false) (strict : Bool)
    (ms : List (Bytes × JSON)) (v : Message) :
    Outcome.hard (decodeMessageMembers T strict ms v).2 = none := by
  induction ms generalizing v with
  | nil => rfl
  | cons p ms ih =>
    obtain ⟨key, j⟩ := p
    cases hl : lookup T messageNames key with
    | none =>
      rw [decodeMessageMembers_cons_none T strict key j ms v hl, hard_andThen_ok]
      exact ih v
    | some a =>
      rw [decodeMessageMembers_cons_attr T strict key j ms v a hl]
      have hs := decodeMessageAttr_soft T hT strict a j v
      cases hr : (decodeMessageAttr T strict a j v).2 with
      | error e => exact absurd hr (hard_ne_error hs e)
      | ok s =>
        dsimp only
        rw [hard_andThen_ok]
        exact ih _

theorem decodeMessageAttr_ok_tokens (T : Tables) (strict : Bool) (a : MessageAttr) (j : JSON)
    (v : Message) (h : (decodeMessageAttr T strict a j v).2 = .ok none) :
    firstRejected (messageAttrRangeTokens T a j) = none := by
  cases a
  case ValidVersions =>
    simp only [messageAttrRangeTokens, firstRejected_single]
    exact decodeRange_ok_none T j _ h
  case FlexibleVersions =>
    simp only [messageAttrRangeTokens, firstRejected_single]
    exact decodeRange_ok_none T j _ h
  case Fields => exact decodeFieldSlice_ok_tokens T strict j _ h
  case CommonStructs => exact decodeFieldSlice_ok_tokens T strict j _ h
  all_goals rfl

theorem decodeMessageMembers_ok_tokens (T : Tables) (strict : Bool) (ms : List (Bytes × JSON))
    (v : Message) (h : (decodeMessageMembers T strict ms v).2 = .ok none) :
    firstRejected (messageMembersRangeTokens T ms) = none := by
  induction ms generalizing v with
  | nil => rfl
  | cons p ms ih =>
    obtain ⟨key, j⟩ := p
    revert h
    cases hl : lookup T messageNames key with
    | none =>
      rw [decodeMessageMembers_cons_none T strict key j ms v hl, messageMembersRangeTokens, hl,
        List.nil_append]
      intro h
      exact ih v ((andThen_ok_none _ _).1 h).2
    | some a =>
      rw [decodeMessageMembers_cons_attr T strict key j ms v a hl, messageMembersRangeTokens,
        hl, firstRejected_append]
      cases hr : (decodeMessageAttr T strict a j v).2 with
      | error e => intro h; exact absurd h (by simp)
      | ok s =>
        dsimp only
        intro h
        obtain ⟨hs, hrest⟩ := (andThen_ok_none _ _).1 h
        subst hs
        rw [decodeMessageAttr_ok_tokens T strict a j v hr, ih _ hrest]
        rfl

/-- Whatever the decoder does with the error of an `UnmarshalJSON` method, a
document that holds a range token the range parser rejects does not decode
without an error. -/
theorem Decode_rejected (T : Tables) (strict : Bool) (msg : Message) (doc : JSON)
    (h : firstRejected (messageRangeTokens T doc) ≠ none) :
    (Decode T strict msg doc).2 ≠ none := by
  intro hc
  rw [Decode_error_none] at hc
  apply h
  cases doc with
  | object raw ms =>
    rw [decodeMessage] at hc
    rw [messageRangeTokens]
    exact decodeMessageMembers_ok_tokens T strict ms msg hc
  | _ => rfl

/-! ## The outcome of a list of members, piece by piece -/

theorem andThen_assoc (a b c : Outcome) :
    Outcome.andThen (Outcome.andThen a b) c = Outcome.andThen a (Outcome.andThen b c) := by
  cases a with
  | error e => rfl
  | ok s =>
    cases b with
    | error e => rfl
    | ok s' =>
      cases c with
      | error e => rfl
      | ok s'' => cases s <;> cases s' <;> rfl

theorem andThen_ok_right (a : Outcome) : Outcome.andThen a (.ok none) = a := by
  cases a with
  | error e => rfl
  | ok s => cases s <;> rfl

theorem andThen_ofMethod (T : Tables) (e : Error) (r : Outcome)
    (hr : T.stops = false → Outcome.hard r = none) :
    Outcome.andThen (Outcome.ofMethod T e) r = Outcome.ofMethod T e := by
  unfold Outcome.ofMethod
  cases hs : T.stops with
  | true => rfl
  | false =>
    cases r with
    | error e' => exact absurd rfl (hard_ne_error (hr hs) e')
    | ok s => rfl

theorem decodeFieldMembers_single_snd (T : Tables) (strict : Bool) (key : Bytes) (j : JSON)
    (v : Field) (a : FieldAttr) (hl : lookup T fieldNames key = some a) :
    (decodeFieldMembers T strict [(key, j)] v).2 = (fieldStep T strict a j v).2 := by
  rw [decodeFieldMembers_cons_some T strict key j [] v a hl]
  cases hr : (fieldStep T strict a j v).2 with
  | error e => rfl
  | ok s =>
    dsimp only
    rw [decodeFieldMembers]
    exact andThen_ok_right _

theorem decodeFieldMembers_cons_snd (T : Tables) (strict : Bool) (p : Bytes × JSON)
    (ms : List (Bytes × JSON)) (v : Field) :
    (decodeFieldMembers T strict (p :: ms) v).2 =
      Outcome.andThen (decodeFieldMembers T strict [p] v).2
        (decodeFieldMembers T strict ms v).2 := by
  obtain ⟨key, j⟩ := p
  cases hl : lookup T fieldNames key with
  | none =>
    rw [decodeFieldMembers_cons_none T strict key j ms v hl,
      decodeFieldMembers_cons_none T strict key j [] v hl]
    dsimp only
    rw [decodeFieldMembers, andThen_ok_right]
  | some a =>
    rw [decodeFieldMembers_single_snd T strict key j v a hl,
      decodeFieldMembers_cons_some T strict key j ms v a hl]
    cases hr : (fieldStep T strict a j v).2 with
    | error e => rfl
    | ok s =>
      dsimp only
      rw [decodeFieldMembers_snd T strict ms _ v]

theorem decodeFieldMembers_append_snd (T : Tables) (strict : Bool)
    (pre post : List (Bytes × JSON)) (v : Field) :
    (decodeFieldMembers T strict (pre ++ post) v).2 =
      Outcome.andThen (decodeFieldMembers T strict pre v).2
        (decodeFieldMembers T strict post v).2 := by
  induction pre with
  | nil =>
    rw [List.nil_append, decodeFieldMembers]
    exact (andThen_none_left _).symm
  | cons p pre ih =>
    rw [List.cons_append, decodeFieldMembers_cons_snd, ih,
      decodeFieldMembers_cons_snd T strict p pre, andThen_assoc]

theorem decodeFieldElems_cons_snd (T : Tables) (strict : Bool) (j : JSON) (js : List JSON)
    (v : List Field) :
    (decodeFieldElems T strict (j :: js) v).2 =
      Outcome.andThen (decodeField T strict j Field.zero).2
        (decodeFieldElems T strict js []).2 := by
  rw [decodeFieldElems, decodeField_snd T strict j (v.headD Field.zero) Field.zero]
  cases hr : (decodeField T strict j Field.zero).2 with
  | error e => rfl
  | ok s =>
    dsimp only
    rw [decodeFieldElems_snd T strict js _ []]

theorem decodeFieldElems_append_snd (T : Tables) (strict : Bool) (pre post : List JSON)
    (v : List Field) :
    (decodeFieldElems T strict (pre ++ post) v).2 =
      Outcome.andThen (decodeFieldElems T strict pre []).2
        (decodeFieldElems T strict post []).2 := by
  induction pre generalizing v with
  | nil =>
    rw [List.nil_append, decodeFieldElems, decodeFieldElems_snd T strict post v []]
    exact (andThen_none_left _).symm
  | cons p pre ih =>
    rw [List.cons_append, decodeFieldElems_cons_snd, ih [],
      decodeFieldElems_cons_snd T strict p pre, andThen_assoc]

theorem decodeMessageMembers_single_snd (T : Tables) (strict : Bool) (key : Bytes) (j : JSON)
    (v : Message) (a : MessageAttr) (hl : lookup T messageNames key = some a) :
    (decodeMessageMembers T strict [(key, j)] v).2 = (decodeMessageAttr T strict a j v).2 := by
  rw [decodeMessageMembers_cons_attr T strict key j [] v a hl]
  cases hr : (decodeMessageAttr T strict a j v).2 with
  | error e => rfl
  | ok s =>
    dsimp only
    rw [decodeMessageMembers]
    exact andThen_ok_right _

theorem decodeMessageMembers_cons_snd (T : Tables) (strict : Bool) (p : Bytes × JSON)
    (ms : List (Bytes × JSON)) (v : Message) :
    (decodeMessageMembers T strict (p :: ms) v).2 =
      Outcome.andThen (decodeMessageMembers T strict [p] v).2
        (decodeMessageMembers T strict ms v).2 := by
  obtain ⟨key, j⟩ := p
  cases hl : lookup T messageNames key with
  | none =>
    rw [decodeMessageMembers_cons_none T strict key j ms v hl,
      decodeMessageMembers_cons_none T strict key j [] v hl]
    dsimp only
    rw [decodeMessageMembers, andThen_ok_right]
  | some a =>
    rw [decodeMessageMembers_single_snd T strict key j v a hl,
      decodeMessageMembers_cons_attr T strict key j ms v a hl]
    cases hr : (decodeMessageAttr T strict a j v).2 with
    | error e => rfl
    | ok s =>
      dsimp only
      rw [decodeMessageMembers_snd T strict ms _ v]

theorem decodeMessageMembers_append_snd (T : Tables) (strict : Bool)
    (pre post : List (Bytes × JSON)) (v : Message) :
    (decodeMessageMembers T strict (pre ++ post) v).2 =
      Outcome.andThen (decodeMessageMembers T strict pre v).2
        (decodeMessageMembers T strict post v).2 := by
  induction pre with
  | nil =>
    rw [List.nil_append, decodeMessageMembers]
    exact (andThen_none_left _).symm
  | cons p pre ih =>
    rw [List.cons_append, decodeMessageMembers_cons_snd, ih,
      decodeMessageMembers_cons_snd T strict p pre, andThen_assoc]

/-! ## The first error of a document -/

theorem decodeFieldAttr_rejected (T : Tables) (a : FieldAttr) (j : JSON) (v : Field) (e : Error)
    (ha : a.isRange = true) (h : (Range.zero.UnmarshalJSON j.text).2 = some e) :
    (fieldStep T true a j v).2 = Outcome.ofMethod T e ∧
      (fieldStep T false a j v).2 = Outcome.ofMethod T e := by
  cases a
  case Versions => exact ⟨decodeRange_rejected T j _ e h, decodeRange_rejected T j _ e h⟩
  case TaggedVersions => exact ⟨decodeRange_rejected T j _ e h, decodeRange_rejected T j _ e h⟩
  case NullableVersions => exact ⟨decodeRange_rejected T j _ e h, decodeRange_rejected T j _ e h⟩
  case FlexibleVersions => exact ⟨decodeRange_rejected T j _ e h, decodeRange_rejected T j _ e h⟩
  all_goals exact absurd ha (by decide)

theorem fieldStep_rejected (T : Tables) (strict : Bool) (a : FieldAttr) (j : JSON) (v : Field)
    (e : Error) (ha : a.isRange = true) (h : (Range.zero.UnmarshalJSON j.text).2 = some e) :
    (fieldStep T strict a j v).2 = Outcome.ofMethod T e := by
  cases strict
  · exact (decodeFieldAttr_rejected T a j v e ha h).2
  · exact (decodeFieldAttr_rejected T a j v e ha h).1

/-- When nothing before a rejected range token is in error, the outcome of
decoding the value is the error of the range parser on the token, with either
decoder. -/
theorem decodeField_firstBad (T : Tables) (strict : Bool) (tok : Bytes) (j : JSON) (e : Error)
    (h : FieldFirstBad T strict tok j) (he : (Range.zero.UnmarshalJSON tok).2 = some e) :
    ∀ v, (decodeField T strict j v).2 = Outcome.ofMethod T e := by
  induction h with
  | here raw pre post key a val hl ha ht hpre =>
    intro v
    rw [decodeField, decodeFieldMembers_append_snd, decodeFieldMembers_snd T strict pre v Field.zero,
      hpre, andThen_none_left, decodeFieldMembers_cons_snd,
      decodeFieldMembers_single_snd T strict key val v a hl,
      fieldStep_rejected T strict a val v e ha (ht ▸ he)]
    exact andThen_ofMethod T e _ (fun hT => decodeFieldMembers_soft T hT strict post v)
  | nested raw ra pre post k epre epost x hl hpre hepre _ ih =>
    intro v
    rw [decodeField, decodeFieldMembers_append_snd, decodeFieldMembers_snd T strict pre v Field.zero,
      hpre, andThen_none_left, decodeFieldMembers_cons_snd,
      decodeFieldMembers_single_snd T strict k _ v .Fields hl]
    have hstep : (fieldStep T strict .Fields (.array ra (epre ++ x :: epost)) v).2 =
        Outcome.ofMethod T e := by
      show (decodeFieldSlice T strict (.array ra (epre ++ x :: epost)) v.Fields).2 = _
      rw [decodeFieldSlice, decodeFieldElems_append_snd, hepre, andThen_none_left,
        decodeFieldElems_cons_snd, ih Field.zero]
      exact andThen_ofMethod T e _ (fun hT => decodeFieldElems_soft T hT strict epost [])
    rw [hstep]
    exact andThen_ofMethod T e _ (fun hT => decodeFieldMembers_soft T hT strict post v)

theorem decodeMessage_firstBad (T : Tables) (strict : Bool) (tok : Bytes) (doc : JSON)
    (e : Error) (h : MessageFirstBad T strict tok doc)
    (he : (Range.zero.UnmarshalJSON tok).2 = some e) (v : Message) :
    (decodeMessage T strict doc v).2 = Outcome.ofMethod T e := by
  cases h with
  | here raw pre post key val hl ht hpre =>
    simp only [decodeMessage]
    rw [decodeMessageMembers_append_snd, decodeMessageMembers_snd T strict pre v Message.zero,
      hpre, andThen_none_left, decodeMessageMembers_cons_snd]
    have hstep : (decodeMessageMembers T strict [(key, val)] v).2 = Outcome.ofMethod T e := by
      rcases hl with hl | hl
      · rw [decodeMessageMembers_single_snd T strict key val v _ hl]
        exact decodeRange_rejected T val _ e (ht ▸ he)
      · rw [decodeMessageMembers_single_snd T strict key val v _ hl]
        exact decodeRange_rejected T val _ e (ht ▸ he)
    rw [hstep]
    exact andThen_ofMethod T e _ (fun hT => decodeMessageMembers_soft T hT strict post v)
  | nested raw ra pre post k epre epost x hl hpre hepre hx =>
    simp only [decodeMessage]
    rw [decodeMessageMembers_append_snd, decodeMessageMembers_snd T strict pre v Message.zero,
      hpre, andThen_none_left, decodeMessageMembers_cons_snd]
    have hslice : ∀ w, (decodeFieldSlice T strict (.array ra (epre ++ x :: epost)) w).2 =
        Outcome.ofMethod T e := by
      intro w
      rw [decodeFieldSlice, decodeFieldElems_append_snd, hepre, andThen_none_left,
        decodeFieldElems_cons_snd, decodeField_firstBad T strict tok x e hx he Field.zero]
      exact andThen_ofMethod T e _ (fun hT => decodeFieldElems_soft T hT strict epost [])
    have hstep : (decodeMessageMembers T strict [(k, .array ra (epre ++ x :: epost))] v).2 =
        Outcome.ofMethod T e := by
      rcases hl with hl | hl
      · rw [decodeMessageMembers_single_snd T strict k _ v _ hl]
        exact hslice _
      · rw [decodeMessageMembers_single_snd T strict k _ v _ hl]
        exact hslice _
    rw [hstep]
    exact andThen_ofMethod T e _ (fun hT => decodeMessageMembers_soft T hT strict post v)

theorem Decode_ofMethod (T : Tables) (strict : Bool) (msg : Message) (doc : JSON) (e : Error)
    (h : (decodeMessage T strict doc msg).2 = Outcome.ofMethod T e) :
    (Decode T strict msg doc).2 = some e := by
  unfold Decode
  rcases hd : decodeMessage T strict doc msg with ⟨m, r⟩
  rw [hd] at h
  dsimp only at h
  subst h
  unfold Outcome.ofMethod
  cases T.stops <;> rfl

theorem parseFile_error (T : Tables) (path : Bytes) (doc : JSON) (e : Error)
    (h : (Decode T true Message.zero doc).2 = some e) :
    parseFile T path doc = .error ⟨path, e⟩ := by
  unfold parseFile
  rcases hdd : Decode T true Message.zero doc with ⟨m, err⟩
  rw [hdd] at h
  dsimp only at h
  subst h
  rfl

/-! ## A malformed range in a document -/

/-- C11, as the specification words it, fails with a decoder that goes on after
the error of an `UnmarshalJSON` method: in the document with the unknown attribute
`zzz` before `"validVersions":"bogus"`, the range parser rejects the token
`"bogus"`, and the error of the decoding is the one saved for `zzz`, which does
not carry the error of the range parser. -/
theorem C11_counterexample :
    quote :: str "bogus" ++ [quote] ∈ messageRangeTokens asciiTables unknownFirstDoc ∧
      (Range.zero.UnmarshalJSON (quote :: str "bogus" ++ [quote])).2 =
        some (.errorf (str "invalid range: \"bogus\"")) ∧
      (Decode asciiTables true Message.zero unknownFirstDoc).2 =
        some (.unknownField (str "zzz")) ∧
      parseFile asciiTables (str "m.json") unknownFirstDoc =
        .error ⟨str "m.json", .unknownField (str "zzz")⟩ :=
  ⟨by decide, by decide, by decide, by rfl⟩

/-- C11, amended: for every document in which some range-valued attribute (of the
message, or of a field at any depth) holds a token that `Range.UnmarshalJSON`
rejects, decoding the document into a `Message` returns an error, and the callback
of `main.go` returns that error wrapped, without a `Message`. When nothing before
the token in the document is in error, the error is the one of the range parser
on the token. With a decoder that stops at the error of an `UnmarshalJSON` method,
the error is in every case the one of the range parser on the first token of the
document that it rejects. -/
theorem C11_malformed_range (T : Tables) (path : Bytes) (doc : JSON) (tok : Bytes)
    (hmem : tok ∈ messageRangeTokens T doc) (hrej : (Range.zero.UnmarshalJSON tok).2 ≠ none) :
    (∃ e, (Decode T true Message.zero doc).2 = some e ∧
      parseFile T path doc = .error ⟨path, e⟩) ∧
    (MessageFirstBad T true tok doc →
      (Decode T true Message.zero doc).2 = (Range.zero.UnmarshalJSON tok).2 ∧
      ∃ e, (Range.zero.UnmarshalJSON tok).2 = some e ∧
        parseFile T path doc = .error ⟨path, e⟩) ∧
    (T.stops = true →
      ∃ tok' ∈ messageRangeTokens T doc, ∃ e, (Range.zero.UnmarshalJSON tok').2 = some e ∧
        firstRejected (messageRangeTokens T doc) = some e ∧
        (Decode T true Message.zero doc).2 = some e ∧
        parseFile T path doc = .error ⟨path, e⟩) := by
  have hfr : firstRejected (messageRangeTokens T doc) ≠ none := by
    intro hf
    unfold firstRejected at hf
    rw [List.findSome?_eq_none_iff] at hf
    exact hrej (hf tok hmem)
  refine ⟨?_, ?_, ?_⟩
  · have hd := Decode_rejected T true Message.zero doc hfr
    cases he : (Decode T true Message.zero doc).2 with
    | none => exact absurd he hd
    | some e => exact ⟨e, rfl, parseFile_error T path doc e he⟩
  · intro hb
    cases he : (Range.zero.UnmarshalJSON tok).2 with
    | none => exact absurd he hrej
    | some e =>
      have hd := Decode_ofMethod T true Message.zero doc e
        (decodeMessage_firstBad T true tok doc e hb he Message.zero)
      exact ⟨hd, e, rfl, parseFile_error T path doc e hd⟩
  · intro hT
    cases hf : firstRejected (messageRangeTokens T doc) with
    | none => exact absurd hf hfr
    | some e =>
      have hf' := hf
      unfold firstRejected at hf'
      obtain ⟨tok', hm', he'⟩ := List.exists_of_findSome?_eq_some hf'
      have hd := Decode_firstRejected T hT true Message.zero doc e hf
      exact ⟨tok', hm', e, he', rfl, hd, parseFile_error T path doc e hd⟩

theorem C11_malformed_range_witness :
    (quote :: str "bogus" ++ [quote] ∈ messageRangeTokens asciiTables bogusDoc ∧
      (Range.zero.UnmarshalJSON (quote :: str "bogus" ++ [quote])).2 ≠ none ∧
      MessageFirstBad asciiTables true (quote :: str "bogus" ++ [quote]) bogusDoc ∧
      asciiTablesStop.stops = true) ∧
    (∃ e, (Decode asciiTables true Message.zero bogusDoc).2 = some e ∧
      parseFile asciiTables (str "m.json") bogusDoc = .error ⟨str "m.json", e⟩) ∧
    (Decode asciiTables true Message.zero bogusDoc).2 =
      (Range.zero.UnmarshalJSON (quote :: str "bogus" ++ [quote])).2 ∧
    parseFile asciiTables (str "m.json") bogusDoc =
      .error ⟨str "m.json", .errorf (str "invalid range: \"bogus\"")⟩ ∧
    (∃ tok' ∈ messageRangeTokens asciiTablesStop unknownFirstDoc, ∃ e,
      (Range.zero.UnmarshalJSON tok').2 = some e ∧
      firstRejected (messageRangeTokens asciiTablesStop unknownFirstDoc) = some e ∧
      (Decode asciiTablesStop true Message.zero unknownFirstDoc).2 = some e ∧
      parseFile asciiTablesStop (str "m.json") unknownFirstDoc = .error ⟨str "m.json", e⟩) :=
  have hb : MessageFirstBad asciiTables true (quote :: str "bogus" ++ [quote]) bogusDoc :=
    MessageFirstBad.nested _ _
      [(str "name", jstring "X"), (str "validVersions", jstring "0-4")] [] (str "fields")
      [] [] _ (Or.inl (by decide)) rfl rfl
      (FieldFirstBad.nested _ _ [(str "name", jstring "A")] [] (str "fields") [] [] _
        (by decide) rfl rfl
        (FieldFirstBad.here _ [(str "name", jstring "B")] [] (str "versions") .Versions
          (jstring "bogus") (by decide) rfl rfl rfl))
  ⟨⟨by decide, by decide, hb, rfl⟩,
    (C11_malformed_range asciiTables (str "m.json") bogusDoc (quote :: str "bogus" ++ [quote])
      (by decide) (by decide)).1,
    ((C11_malformed_range asciiTables (str "m.json") bogusDoc (quote :: str "bogus" ++ [quote])
      (by decide) (by decide)).2.1 hb).1,
    by rfl,
    (C11_malformed_range asciiTablesStop (str "m.json") unknownFirstDoc
      (quote :: str "bogus" ++ [quote]) (by decide) (by decide)).2.2 rfl⟩

end Kafka
